import Mathlib

/-!
# AD-Necromancer: the privacy package (`internal/privacy`) and the sampler

A shallow embedding of the identifier Tokenizer (`tokenizer.go`) and of the
de-identification guard it contains, of the sanitizer (`sanitizer.go`), of the
persistence of the mapping (`persistence.go`), and of the sampler and the
ordering of the findings (`necromancy/engine.go`), followed by the properties
of the specification that concern them.

Conventions of the embedding

* A Go `string` is a Lean `String` (a sequence of Unicode scalar values, that
  is, a valid UTF-8 string).  All the byte-level operations of the source
  (`strings.ReplaceAll`, `strings.HasPrefix`, the regular expression) act on
  valid UTF-8 rune by rune, so they are written over `String.data`.
* A Go `map[string]string` is an association list with pairwise distinct keys
  (`GoMap`).  Go leaves the iteration order of a map unspecified; a function of
  the source that ranges over a map takes the order of the visit as an
  argument, which is any permutation of the entries.
* A method with a pointer receiver that mutates the Tokenizer returns the new
  Tokenizer next to its result.  In the sequential part every method body is
  one atomic step; the lock `mu` and the interleaving of the goroutines are
  modelled apart, statement by statement, in the section on concurrent calls.
* The Unicode case table of the Go standard library (used by
  `strings.ToUpper` on runes outside ASCII) is not part of the repository; it
  is the parameter `tbl`.
-/

namespace Sha256

/-! ## SHA-256 (`crypto/sha256`), FIPS 180-4, on 32-bit words held in `Nat` -/

/-- Reduction of a natural number to a 32-bit word. -/
def mask32 (n : Nat) : Nat := n % 4294967296

/-- Rotation of a 32-bit word to the right. -/
def rotr (x n : Nat) : Nat := mask32 ((x >>> n) ||| (x <<< (32 - n)))

/-- Logical shift of a 32-bit word to the right. -/
def shr (x n : Nat) : Nat := x >>> n

/-- The choice function `Ch`. -/
def ch (x y z : Nat) : Nat := (x &&& y) ^^^ ((4294967295 - x) &&& z)

/-- The majority function `Maj`. -/
def maj (x y z : Nat) : Nat := (x &&& y) ^^^ (x &&& z) ^^^ (y &&& z)

/-- The function `Σ0`. -/
def bsig0 (x : Nat) : Nat := rotr x 2 ^^^ rotr x 13 ^^^ rotr x 22

/-- The function `Σ1`. -/
def bsig1 (x : Nat) : Nat := rotr x 6 ^^^ rotr x 11 ^^^ rotr x 25

/-- The function `σ0`. -/
def ssig0 (x : Nat) : Nat := rotr x 7 ^^^ rotr x 18 ^^^ shr x 3

/-- The function `σ1`. -/
def ssig1 (x : Nat) : Nat := rotr x 17 ^^^ rotr x 19 ^^^ shr x 10

/-- The 64 round constants (the first 32 bits of the fractional parts of the
cube roots of the first 64 primes), in decimal. -/
def K : List Nat := [
  1116352408, 1899447441, 3049323471, 3921009573, 961987163, 1508970993,
  2453635748, 2870763221, 3624381080, 310598401, 607225278, 1426881987,
  1925078388, 2162078206, 2614888103, 3248222580, 3835390401, 4022224774,
  264347078, 604807628, 770255983, 1249150122, 1555081692, 1996064986,
  2554220882, 2821834349, 2952996808, 3210313671, 3336571891, 3584528711,
  113926993, 338241895, 666307205, 773529912, 1294757372, 1396182291,
  1695183700, 1986661051, 2177026350, 2456956037, 2730485921, 2820302411,
  3259730800, 3345764771, 3516065817, 3600352804, 4094571909, 275423344,
  430227734, 506948616, 659060556, 883997877, 958139571, 1322822218,
  1537002063, 1747873779, 1955562222, 2024104815, 2227730452, 2361852424,
  2428436474, 2756734187, 3204031479, 3329325298]

/-- The initial hash value (from the square roots of the first 8 primes), in
decimal. -/
def H0 : List Nat :=
  [1779033703, 3144134277, 1013904242, 2773480762,
    1359893119, 2600822924, 528734635, 1541459225]

/-- Padding of a message of bytes: the byte 0x80, zero bytes up to 56 modulo 64,
then the length of the message in bits as 8 big-endian bytes. -/
def pad (msg : List Nat) : List Nat :=
  msg ++ [128] ++ List.replicate ((119 - msg.length % 64) % 64) 0 ++
    (List.range 8).map (fun i => ((8 * msg.length) >>> (8 * (7 - i))) % 256)

/-- The big-endian 32-bit words of a list of bytes. -/
def wordsOf : List Nat → List Nat
  | a :: b :: c :: d :: rest => (a * 16777216 + b * 65536 + c * 256 + d) :: wordsOf rest
  | _ => []

/-- The message schedule: `n` more words are added to `w`, which holds the
words so far, the most recent first. -/
def schedule : Nat → List Nat → List Nat
  | 0, w => w
  | n + 1, w =>
    schedule n (mask32 (ssig1 (w.getD 1 0) + w.getD 6 0 + ssig0 (w.getD 14 0) + w.getD 15 0) :: w)

/-- One round of the compression function on the working variables `a..h`,
with the round constant and the schedule word of the round. -/
def round (s : List Nat) (kw : Nat × Nat) : List Nat :=
  match s with
  | [a, b, c, d, e, f, g, h] =>
    [mask32 (h + bsig1 e + ch e f g + kw.1 + kw.2 + (bsig0 a + maj a b c)), a, b, c,
      mask32 (d + (h + bsig1 e + ch e f g + kw.1 + kw.2)), e, f, g]
  | _ => s

/-- The compression of one 64-byte block into the hash value `h`. -/
def compress (h : List Nat) (block : List Nat) : List Nat :=
  List.zipWith (fun x y => mask32 (x + y)) h
    ((K.zip (schedule 48 (wordsOf block).reverse).reverse).foldl round h)

/-- The first `n` blocks of 64 bytes of a list of bytes. -/
def blocks : Nat → List Nat → List (List Nat)
  | 0, _ => []
  | n + 1, bs => bs.take 64 :: blocks n (bs.drop 64)

/-- The eight words of the digest of a message. -/
def digestWords (msg : List Nat) : List Nat :=
  (blocks ((pad msg).length / 64) (pad msg)).foldl compress H0

/-- The function `sha256.Sum256`: the 32 bytes of the digest of a message. -/
def Sum256 (msg : List Nat) : List Nat :=
  (digestWords msg).flatMap
    (fun w => [w / 16777216 % 256, w / 65536 % 256, w / 256 % 256, w % 256])

end Sha256

namespace Privacy

/-! ## Strings -/

/-- The bytes of a string (its UTF-8 encoding), as `[]byte(s)` gives them. -/
def bytesOf (s : String) : List Nat :=
  s.data.flatMap (fun c => (String.utf8EncodeChar c).map UInt8.toNat)

/-- One lower-case hexadecimal digit. -/
def hexDigit (n : Nat) : Char := "0123456789abcdef".data.getD n '0'

/-- The function `hex.EncodeToString`: two lower-case digits for each byte. -/
def EncodeToString (bs : List Nat) : String :=
  ⟨bs.flatMap (fun b => [hexDigit (b / 16), hexDigit (b % 16)])⟩

/-- The function `unicode.ToUpper` on one rune: an ASCII letter moves by the
fixed offset, another ASCII rune stays, and a rune outside ASCII goes through
the case table `tbl` of the standard library. -/
def upperRune (tbl : Char → Char) (c : Char) : Char :=
  if c.toNat < 128 then
    (if 97 ≤ c.toNat ∧ c.toNat ≤ 122 then Char.ofNat (c.toNat - 32) else c)
  else tbl c

/-- The function `strings.ToUpper`: every rune mapped to its upper case. -/
def ToUpper (tbl : Char → Char) (s : String) : String := ⟨s.data.map (upperRune tbl)⟩

/-- The function `strings.HasPrefix`. -/
def HasPrefix (s pfx : String) : Bool := pfx.data.isPrefixOf s.data

/-- The scan of `strings.ReplaceAll` for a non-empty `old`: the leftmost
occurrence is replaced and the scan goes on after it.  `skip` counts the
characters of the occurrence just replaced that are still to be passed. -/
def replaceScan (old new : List Char) : Nat → List Char → List Char
  | _, [] => []
  | skip + 1, _ :: cs => replaceScan old new skip cs
  | 0, c :: cs =>
    if old.isPrefixOf (c :: cs) then new ++ replaceScan old new (old.length - 1) cs
    else c :: replaceScan old new 0 cs

/-- The function `strings.ReplaceAll(s, old, new)`.  Nothing changes when
`old = new`; an empty `old` matches before every rune and at the end; otherwise
the non-overlapping occurrences of `old` are replaced from the left. -/
def ReplaceAll (s old new : String) : String :=
  if old = new then s
  else if old.data = [] then ⟨new.data ++ s.data.flatMap (fun c => c :: new.data)⟩
  else ⟨replaceScan old.data new.data 0 s.data⟩

/-- Whether `old` occurs in a text: at its front or further on. -/
def containsL (old : List Char) : List Char → Bool
  | [] => old.isPrefixOf []
  | c :: cs => old.isPrefixOf (c :: cs) || containsL old cs

/-- The function `strings.Contains(s, substr)`. -/
def Contains (s substr : String) : Bool := containsL substr.data s.data

/-! ## Maps -/

/-- A Go `map[string]string`: an association list (with distinct keys when
built by `GoMap.set` from the empty map). -/
abbrev GoMap := List (String × String)

/-- The lookup `m[key]` with its presence flag. -/
def GoMap.get : GoMap → String → Option String
  | [], _ => none
  | (k, v) :: m, key => if k = key then some v else GoMap.get m key

/-- The assignment `m[key] = val`. -/
def GoMap.set : GoMap → String → String → GoMap
  | [], key, val => [(key, val)]
  | (k, v) :: m, key, val => if k = key then (key, val) :: m else (k, v) :: GoMap.set m key val

/-! ## The Tokenizer -/

/-- The Tokenizer: the table real → token, the table token → real and the
salt of the run. -/
structure Tokenizer where
  /-- The table real → token. -/
  mapping : GoMap
  /-- The table token → real. -/
  reverse : GoMap
  /-- The salt of the run. -/
  salt : String
deriving DecidableEq, Repr

/-- The helper `getCurrentTimestamp`: a fixed value in the source. -/
def getCurrentTimestamp : Int := 1737234000

/-- The digits of a natural number in base ten, the least significant first;
`fuel` bounds the number of digits. -/
def decimalDigits : Nat → Nat → List Char
  | 0, _ => []
  | fuel + 1, n =>
    if n < 10 then [hexDigit n] else hexDigit (n % 10) :: decimalDigits fuel (n / 10)

/-- The rendering `fmt.Sprintf("%d", n)` of an integer of at most 64 bits. -/
def sprintfD (n : Int) : String :=
  if n < 0 then ⟨'-' :: (decimalDigits 20 n.natAbs).reverse⟩
  else ⟨(decimalDigits 20 n.natAbs).reverse⟩

/-- The constructor `NewTokenizer`: empty tables, the salt from the timestamp. -/
def NewTokenizer : Tokenizer :=
  { mapping := [], reverse := [], salt := sprintfD getCurrentTimestamp }

/-- The suffix of a token: the first 4 characters of the hexadecimal digest of
`input + salt`, in upper case. -/
def tokenSuffix (tbl : Char → Char) (input salt : String) : String :=
  ToUpper tbl ⟨(EncodeToString (Sha256.Sum256 (bytesOf (input ++ salt)))).data.take 4⟩

/-- The method `generateToken`: the token already assigned to `input` when
there is one, otherwise the token built from the hash, stored in both tables. -/
def Tokenizer.generateToken (t : Tokenizer) (tbl : Char → Char) (input pfx : String) :
    String × Tokenizer :=
  match t.mapping.get input with
  | some token => (token, t)
  | none =>
    (pfx ++ tokenSuffix tbl input t.salt,
      { t with
        mapping := t.mapping.set input (pfx ++ tokenSuffix tbl input t.salt)
        reverse := t.reverse.set (pfx ++ tokenSuffix tbl input t.salt) input })

/-- The method `TokenizeDomain`. -/
def Tokenizer.TokenizeDomain (t : Tokenizer) (tbl : Char → Char) (domain : String) :
    String × Tokenizer :=
  if domain = "" then ("", t) else t.generateToken tbl (ToUpper tbl domain) "DOM_"

/-- The method `TokenizeUser`. -/
def Tokenizer.TokenizeUser (t : Tokenizer) (tbl : Char → Char) (username : String) :
    String × Tokenizer :=
  if username = "" then ("", t) else t.generateToken tbl (ToUpper tbl username) "ID_U_"

/-- The method `TokenizeGroup`. -/
def Tokenizer.TokenizeGroup (t : Tokenizer) (tbl : Char → Char) (groupname : String) :
    String × Tokenizer :=
  if groupname = "" then ("", t) else t.generateToken tbl (ToUpper tbl groupname) "ID_G_"

/-- The prefix that `TokenizeComputer` chooses for a tier. -/
def tierPfx (tier : Int) : String :=
  if tier = 0 then "H_T0_" else if tier = 1 then "H_T1_" else "H_"

/-- The method `TokenizeComputer`, with the tier of the host. -/
def Tokenizer.TokenizeComputer (t : Tokenizer) (tbl : Char → Char) (hostname : String)
    (tier : Int) : String × Tokenizer :=
  if hostname = "" then ("", t) else t.generateToken tbl (ToUpper tbl hostname) (tierPfx tier)

/-- The method `TokenizeOU`. -/
def Tokenizer.TokenizeOU (t : Tokenizer) (tbl : Char → Char) (dn : String) :
    String × Tokenizer :=
  if dn = "" then ("", t) else t.generateToken tbl (ToUpper tbl dn) "OU_"

/-- The method `TokenizeGPO`. -/
def Tokenizer.TokenizeGPO (t : Tokenizer) (tbl : Char → Char) (gpoName : String) :
    String × Tokenizer :=
  if gpoName = "" then ("", t) else t.generateToken tbl (ToUpper tbl gpoName) "GPO_"

/-- The method `TokenizeSID`: the SID is hashed as given, without `ToUpper`. -/
def Tokenizer.TokenizeSID (t : Tokenizer) (tbl : Char → Char) (sid : String) :
    String × Tokenizer :=
  if sid = "" then ("", t) else t.generateToken tbl sid "SID_"

/-- The method `TokenizeTemplate`. -/
def Tokenizer.TokenizeTemplate (t : Tokenizer) (tbl : Char → Char) (templateName : String) :
    String × Tokenizer :=
  if templateName = "" then ("", t) else t.generateToken tbl (ToUpper tbl templateName) "TMPL_"

/-- The method `TokenizeCA`. -/
def Tokenizer.TokenizeCA (t : Tokenizer) (tbl : Char → Char) (caName : String) :
    String × Tokenizer :=
  if caName = "" then ("", t) else t.generateToken tbl (ToUpper tbl caName) "CA_"

/-- The method `GetMappingCount`. -/
def Tokenizer.GetMappingCount (t : Tokenizer) : Nat := t.mapping.length

/-! ## The regular expression of the guard -/

/-- The fragment of the RE2 syntax that the pattern of the source uses:
`\b`, a character class, a greedy counted repetition of a class
(`c{lo,hi}` with `some hi`, `c{lo,}` with `none`), concatenation and a greedy
optional group. -/
inductive Regex where
  /-- The assertion `\b`. -/
  | wordBoundary : Regex
  /-- One character of a class. -/
  | cls : (Char → Bool) → Regex
  /-- A greedy counted repetition of a class. -/
  | count : (Char → Bool) → Nat → Option Nat → Regex
  /-- Concatenation. -/
  | seq : Regex → Regex → Regex
  /-- A greedy optional group. -/
  | opt : Regex → Regex

/-- The ASCII word characters `[0-9A-Za-z_]` of `\b`. -/
def isWordChar (c : Char) : Bool := c.isAlphanum || c == '_'

/-- The assertion `\b` between the character before the position (`prev`,
`none` at the start of the text) and the text that follows: exactly one of
the two sides is a word character. -/
def atBoundary (prev : Option Char) (rest : List Char) : Bool :=
  (prev.elim false isWordChar) != (rest.head?.elim false isWordChar)

/-- The position `k` characters further in the text. -/
def advance : Nat → Option Char × List Char → Option Char × List Char
  | k + 1, (_, c :: cs) => advance k (some c, cs)
  | _, st => st

/-- The largest number of repetitions of a class that a counted repetition can
take at the front of a text: the length of the run of characters of the class,
capped by the upper bound of the repetition when it has one. -/
def maxCount (p : Char → Bool) (hi : Option Nat) (s : List Char) : Nat :=
  match hi with
  | some h => min h (s.takeWhile p).length
  | none => (s.takeWhile p).length

/-- The backtracking search of a match that starts at a position (the
character before it and the text from it on): the positions where a match can
end, in the order of preference of a leftmost-first matcher (a greedy
repetition tries the longest count first, a greedy option tries its group
first). -/
def Regex.run : Regex → Option Char × List Char → List (Option Char × List Char)
  | .wordBoundary, st => if atBoundary st.1 st.2 then [st] else []
  | .cls p, st =>
    match st.2 with
    | c :: cs => if p c then [(some c, cs)] else []
    | [] => []
  | .count p lo hi, st =>
    (List.range (maxCount p hi st.2 + 1 - lo)).map (fun i => advance (maxCount p hi st.2 - i) st)
  | .seq a b, st => (a.run st).flatMap b.run
  | .opt a, st => a.run st ++ [st]

/-- The length of the match that starts at a position, when there is one: the
first end that the search finds. -/
def Regex.matchLen (re : Regex) (prev : Option Char) (rest : List Char) : Option Nat :=
  (re.run (prev, rest)).head?.map (fun st => rest.length - st.2.length)

/-- The scan of `ReplaceAllStringFunc` for a pattern that has no empty match:
the leftmost match is replaced by `repl` of its text and the scan goes on after
it.  `prev` is the character before the position and `skip` counts the
characters of the match just replaced that are still to be passed. -/
def replaceFuncScan (re : Regex) (repl : String → String) :
    Option Char → Nat → List Char → List Char
  | _, _, [] => []
  | _, skip + 1, c :: cs => replaceFuncScan re repl (some c) skip cs
  | prev, 0, c :: cs =>
    match re.matchLen prev (c :: cs) with
    | some (n + 1) =>
      (repl ⟨(c :: cs).take (n + 1)⟩).data ++ replaceFuncScan re repl (some c) n cs
    | _ => c :: replaceFuncScan re repl (some c) 0 cs

/-- The method `ReplaceAllStringFunc` of a compiled pattern. -/
def ReplaceAllStringFunc (re : Regex) (src : String) (repl : String → String) : String :=
  ⟨replaceFuncScan re repl none 0 src.data⟩

/-- The class `[a-z0-9]`. -/
def isLowerOrDigit (c : Char) : Bool := c.isLower || c.isDigit

/-- The class `[a-z0-9-]`. -/
def isLabelChar (c : Char) : Bool := c.isLower || c.isDigit || c == '-'

/-- The class of the literal `\.`. -/
def isDot (c : Char) : Bool := c == '.'

/-- The pattern `\b[a-z0-9]([a-z0-9-]{0,61}[a-z0-9])?\.([a-z]{2,})\b` of
`stripUnknownDomains` (capture groups play no part in the matching). -/
def domainPattern : Regex :=
  .seq .wordBoundary
    (.seq (.cls isLowerOrDigit)
      (.seq (.opt (.seq (.count isLabelChar 0 (some 61)) (.cls isLowerOrDigit)))
        (.seq (.cls isDot)
          (.seq (.count Char.isLower 2 none) .wordBoundary))))

/-- The replacement function of `stripUnknownDomains`: a match that is a key of
the table token → real, or that starts with `DOM_`, `H_` or `ID_`, stays; any
other match becomes the marker. -/
def Tokenizer.redact (t : Tokenizer) (m : String) : String :=
  match t.reverse.get m with
  | some _ => m
  | none =>
    if !HasPrefix m "DOM_" && !HasPrefix m "H_" && !HasPrefix m "ID_" then "[REDACTED]" else m

/-- The method `stripUnknownDomains`. -/
def Tokenizer.stripUnknownDomains (t : Tokenizer) (text : String) : String :=
  ReplaceAllStringFunc domainPattern text t.redact

/-- The loop of `Detokenize` over the table token → real, visited in the order
`order`: each known token is replaced by its real name in the whole text. -/
def replaceTokens (order : List (String × String)) (text : String) : String :=
  order.foldl (fun result e => ReplaceAll result e.1 e.2) text

/-- The method `Detokenize` when the table token → real is visited in the
order `order`. -/
def Tokenizer.DetokenizeIn (t : Tokenizer) (order : List (String × String)) (text : String) :
    String :=
  t.stripUnknownDomains (replaceTokens order text)

/-- The method `Detokenize`: `out` is a result of `Detokenize(text)` when some
order of visit of the table token → real produces it. -/
def Tokenizer.Detokenize (t : Tokenizer) (text out : String) : Prop :=
  ∃ order : List (String × String), order.Perm t.reverse ∧ out = t.DetokenizeIn order text

/-! ## Runs of calls -/

/-- A call of one of the `Tokenize*` methods with its argument. -/
inductive Call where
  /-- A call of `TokenizeDomain`. -/
  | domain : String → Call
  /-- A call of `TokenizeUser`. -/
  | user : String → Call
  /-- A call of `TokenizeGroup`. -/
  | group : String → Call
  /-- A call of `TokenizeComputer`. -/
  | computer : String → Int → Call
  /-- A call of `TokenizeOU`. -/
  | ou : String → Call
  /-- A call of `TokenizeGPO`. -/
  | gpo : String → Call
  /-- A call of `TokenizeSID`. -/
  | sid : String → Call
  /-- A call of `TokenizeTemplate`. -/
  | template : String → Call
  /-- A call of `TokenizeCA`. -/
  | ca : String → Call
deriving DecidableEq, Repr

/-- The identifier passed to a call. -/
def Call.ident : Call → String
  | .domain s => s
  | .user s => s
  | .group s => s
  | .computer s _ => s
  | .ou s => s
  | .gpo s => s
  | .sid s => s
  | .template s => s
  | .ca s => s

/-- The prefix of the kind of a call (for a computer, of its tier). -/
def Call.pfx : Call → String
  | .domain _ => "DOM_"
  | .user _ => "ID_U_"
  | .group _ => "ID_G_"
  | .computer _ tier => tierPfx tier
  | .ou _ => "OU_"
  | .gpo _ => "GPO_"
  | .sid _ => "SID_"
  | .template _ => "TMPL_"
  | .ca _ => "CA_"

/-- The normalized identifier of a call, which is the key of the table
real → token: the upper case of the identifier, and the SID itself. -/
def Call.key (tbl : Char → Char) : Call → String
  | .sid s => s
  | c => ToUpper tbl c.ident

/-- The same call with another identifier. -/
def Call.withIdent : Call → String → Call
  | .domain _, s => .domain s
  | .user _, s => .user s
  | .group _, s => .group s
  | .computer _ tier, s => .computer s tier
  | .ou _, s => .ou s
  | .gpo _, s => .gpo s
  | .sid _, s => .sid s
  | .template _, s => .template s
  | .ca _, s => .ca s

/-- The effect of a call on a Tokenizer: the token returned and the Tokenizer
after the call. -/
def Tokenizer.call (t : Tokenizer) (tbl : Char → Char) : Call → String × Tokenizer
  | .domain s => t.TokenizeDomain tbl s
  | .user s => t.TokenizeUser tbl s
  | .group s => t.TokenizeGroup tbl s
  | .computer s tier => t.TokenizeComputer tbl s tier
  | .ou s => t.TokenizeOU tbl s
  | .gpo s => t.TokenizeGPO tbl s
  | .sid s => t.TokenizeSID tbl s
  | .template s => t.TokenizeTemplate tbl s
  | .ca s => t.TokenizeCA tbl s

/-- The Tokenizer after a sequence of calls. -/
def Tokenizer.run (t : Tokenizer) (tbl : Char → Char) : List Call → Tokenizer
  | [] => t
  | c :: cs => ((t.call tbl c).2).run tbl cs

/-- The character before the position reached after the characters `l`, when
`prev` was before them. -/
def lastOr : Option Char → List Char → Option Char
  | prev, [] => prev
  | _, c :: cs => lastOr (some c) cs

/-- The words of the domain pattern, `l1` before the dot and `l2` after it: `l1`
has 1 to 63 characters of `[a-z0-9-]` and begins and ends in `[a-z0-9]`, `l2`
has 2 or more characters of `[a-z]`. -/
def isDomainWord (l1 l2 : List Char) : Bool :=
  l1.all isLabelChar && decide (l1.length ≤ 63) &&
    l1.head?.elim false isLowerOrDigit && l1.getLast?.elim false isLowerOrDigit &&
    l2.all Char.isLower && decide (2 ≤ l2.length)

/-- A string of the form of the domain pattern: the text before its first dot
and the text after that dot are words of the pattern. -/
def isDomainLike (m : String) : Bool :=
  (m.data.dropWhile (fun c => c != '.')).head? == some '.' &&
    isDomainWord (m.data.takeWhile (fun c => c != '.'))
      ((m.data.dropWhile (fun c => c != '.')).drop 1)

/-- An operation of the public interface on a Tokenizer: a `Tokenize*` call or
a `Detokenize` call on a text. -/
inductive Op where
  /-- A call of a `Tokenize*` method. -/
  | tokenize : Call → Op
  /-- A call of `Detokenize`. -/
  | detokenize : String → Op
deriving DecidableEq, Repr

/-- The Tokenizer after an operation: `Detokenize` only reads the tables. -/
def Tokenizer.step (t : Tokenizer) (tbl : Char → Char) : Op → Tokenizer
  | .tokenize c => (t.call tbl c).2
  | .detokenize _ => t

/-- The Tokenizer after a sequence of operations. -/
def Tokenizer.exec (t : Tokenizer) (tbl : Char → Char) : List Op → Tokenizer
  | [] => t
  | o :: os => (t.step tbl o).exec tbl os

/-- The tokens that the calls of a run return, in the order of the calls. -/
def Tokenizer.tokens (t : Tokenizer) (tbl : Char → Char) : List Call → List String
  | [] => []
  | c :: cs => (t.call tbl c).1 :: ((t.call tbl c).2).tokens tbl cs

/-- The prefix of the token that a call receives after the calls `cs` on a
Tokenizer with empty tables: the prefix of the first call of `cs` with the
same normalized identifier, and its own prefix when there is none. -/
def firstPfx (tbl : Char → Char) (cs : List Call) (c : Call) : String :=
  match cs.find? (fun c0 => decide (c0.key tbl = c.key tbl)) with
  | some c0 => c0.pfx
  | none => c.pfx

/-- The suffix of a token written from a number below 65536: its four
hexadecimal digits, in upper case. -/
def suffixOfNat (tbl : Char → Char) (n : Nat) : String :=
  ToUpper tbl
    ⟨[hexDigit (n / 4096 % 16), hexDigit (n / 256 % 16), hexDigit (n / 16 % 16), hexDigit (n % 16)]⟩

/-- The identifiers `A`, `AA`, `AAA`, ...: `n` strings, pairwise distinct. -/
def manyIdents (n : Nat) : List String :=
  (List.range n).map (fun i => ⟨List.replicate (i + 1) 'A'⟩)

/-! ## The graph of the `bloodhound` package (`types.go`) -/

/-- An access-control entry of a node. -/
structure Ace where
  /-- The SID of the principal. -/
  PrincipalSID : String
  /-- The type of the principal. -/
  PrincipalType : String
  /-- The name of the right. -/
  RightName : String
  /-- Whether the entry is inherited. -/
  IsInherited : Bool
deriving DecidableEq, Repr

/-- The properties of a node. -/
structure Properties where
  /-- The name of the entity. -/
  Name : String
  /-- The domain of the entity. -/
  Domain : String
  /-- The description of the entity. -/
  Description : String
  /-- The distinguished name of the entity. -/
  DistinguishedName : String
  /-- The high-value flag. -/
  HighValue : Bool
  /-- The admin-count flag. -/
  AdminCount : Bool
  /-- Whether the account is enabled. -/
  Enabled : Bool
  /-- The time of the last password change, in seconds since the epoch (`int64`). -/
  PasswordLastSet : Int
  /-- The operating system of a computer. -/
  OperatingSystem : String
deriving DecidableEq, Repr

/-- A node of the graph. -/
structure Node where
  /-- The object identifier (SID) of the node. -/
  ObjectIdentifier : String
  /-- The properties of the node. -/
  Properties : Properties
  /-- The access-control entries of the node. -/
  Aces : List Ace
  /-- Whether the node is deleted. -/
  IsDeleted : Bool
deriving DecidableEq, Repr

/-- The graph: the nodes of each kind. -/
structure BloodHoundData where
  /-- The users. -/
  Users : List Node
  /-- The groups. -/
  Groups : List Node
  /-- The computers. -/
  Computers : List Node
  /-- The domains. -/
  Domains : List Node
  /-- The policy objects. -/
  GPOs : List Node
  /-- The organizational units. -/
  OUs : List Node
  /-- The containers. -/
  Containers : List Node
  /-- The certificate templates. -/
  CertTemplates : List Node
  /-- The certificate authorities. -/
  EnterpriseCAs : List Node
deriving DecidableEq, Repr

/-! ## The sampler of the `necromancy` package (`engine.go`) -/

/-- The function `unicode.ToLower` on one rune: an ASCII letter moves by the
fixed offset, another ASCII rune stays, and a rune outside ASCII goes through
the case table `ltbl` of the standard library. -/
def lowerRune (ltbl : Char → Char) (c : Char) : Char :=
  if c.toNat < 128 then
    (if 65 ≤ c.toNat ∧ c.toNat ≤ 90 then Char.ofNat (c.toNat + 32) else c)
  else ltbl c

/-- The function `strings.ToLower`: every rune mapped to its lower case. -/
def ToLower (ltbl : Char → Char) (s : String) : String := ⟨s.data.map (lowerRune ltbl)⟩

/-- The test of `sampleNodes` for a built-in administrator: the lower-cased
name contains `administrator@` and does not contain `domain admins`. -/
def isBuiltInAdmin (ltbl : Char → Char) (node : Node) : Bool :=
  Contains (ToLower ltbl node.Properties.Name) "administrator@" &&
    !Contains (ToLower ltbl node.Properties.Name) "domain admins"

/-- The naming patterns of `hasControlIndicators`: the lower-cased name
contains `svc_`, `service`, `admin`, `delegate` or `gpo`. -/
def matchesControlName (ltbl : Char → Char) (node : Node) : Bool :=
  Contains (ToLower ltbl node.Properties.Name) "svc_" ||
    Contains (ToLower ltbl node.Properties.Name) "service" ||
    Contains (ToLower ltbl node.Properties.Name) "admin" ||
    Contains (ToLower ltbl node.Properties.Name) "delegate" ||
    Contains (ToLower ltbl node.Properties.Name) "gpo"

/-- The local `hasControlIndicators` of `sampleNodes`: a naming pattern, or
the `Enabled` flag being false. -/
def hasControlIndicators (ltbl : Char → Char) (node : Node) : Bool :=
  matchesControlName ltbl node || node.Properties.Enabled == false

/-- The four local lists of `sampleNodes`. -/
structure Buckets where
  /-- The list `controlBased`. -/
  controlBased : List Node
  /-- The list `highValue`. -/
  highValue : List Node
  /-- The list `regular`. -/
  regular : List Node
  /-- The list `builtInAdmins`. -/
  builtInAdmins : List Node
deriving DecidableEq, Repr

/-- The first loop of `sampleNodes`: every node is appended to one of the four
lists. -/
def categorize (ltbl : Char → Char) : List Node → Buckets → Buckets
  | [], b => b
  | node :: rest, b =>
    if isBuiltInAdmin ltbl node then
      categorize ltbl rest { b with builtInAdmins := b.builtInAdmins ++ [node] }
    else if hasControlIndicators ltbl node then
      categorize ltbl rest { b with controlBased := b.controlBased ++ [node] }
    else if node.Properties.AdminCount || node.Properties.HighValue then
      categorize ltbl rest { b with highValue := b.highValue ++ [node] }
    else
      categorize ltbl rest { b with regular := b.regular ++ [node] }

/-- One of the four copy loops of `sampleNodes`: the nodes of a list are
appended to `result` until it has `maxCount` elements. -/
def fillFrom (maxCount : Int) : List Node → List Node → List Node
  | [], result => result
  | node :: rest, result =>
    if (result.length : Int) ≥ maxCount then result
    else fillFrom maxCount rest (result ++ [node])

/-- The function `sampleNodes`.  The result `none` is the run-time panic of
`make([]bloodhound.Node, 0, maxCount)` for a negative `maxCount`. -/
def sampleNodes (ltbl : Char → Char) (nodes : List Node) (maxCount : Int) :
    Option (List Node) :=
  if (nodes.length : Int) ≤ maxCount then some nodes
  else if maxCount < 0 then none
  else
    some (fillFrom maxCount (categorize ltbl nodes ⟨[], [], [], []⟩).builtInAdmins
      (fillFrom maxCount (categorize ltbl nodes ⟨[], [], [], []⟩).regular
        (fillFrom maxCount (categorize ltbl nodes ⟨[], [], [], []⟩).highValue
          (fillFrom maxCount (categorize ltbl nodes ⟨[], [], [], []⟩).controlBased []))))

/-- The first tier of the sampler: not a built-in administrator, and with a
control indicator. -/
def isControlBased (ltbl : Char → Char) (node : Node) : Bool :=
  !isBuiltInAdmin ltbl node && hasControlIndicators ltbl node

/-- The second tier of the sampler: not a built-in administrator, without
control indicator, and with one of the flags `AdminCount` and `HighValue`. -/
def isHighValue (ltbl : Char → Char) (node : Node) : Bool :=
  !isBuiltInAdmin ltbl node && !hasControlIndicators ltbl node &&
    (node.Properties.AdminCount || node.Properties.HighValue)

/-- The third tier of the sampler: every other node that is not a built-in
administrator. -/
def isRegular (ltbl : Char → Char) (node : Node) : Bool :=
  !isBuiltInAdmin ltbl node && !hasControlIndicators ltbl node &&
    !(node.Properties.AdminCount || node.Properties.HighValue)

/-- The nodes of a list in the order of the tiers: the control-based ones, the
high-value ones, the regular ones and the built-in administrators, each tier
in the order of the list. -/
def byTier (ltbl : Char → Char) (nodes : List Node) : List Node :=
  nodes.filter (isControlBased ltbl) ++ nodes.filter (isHighValue ltbl) ++
    nodes.filter (isRegular ltbl) ++ nodes.filter (isBuiltInAdmin ltbl)

/-! ## The sanitizer (`sanitizer.go`) -/

/-- A tokenized entity of the payload. -/
structure SanitizedEntity where
  /-- The token of the entity. -/
  Token : String
  /-- The field `Type`: the kind of the entity. -/
  Type_ : String
  /-- The tier of a computer. -/
  Tier : Int
  /-- The high-value flag. -/
  HighValue : Bool
  /-- The admin-count flag. -/
  AdminCount : Bool
  /-- The relative age of the password. -/
  AgeRelative : String
deriving DecidableEq, Repr

/-- A relationship of the payload. -/
structure SanitizedEdge where
  /-- The token of the source. -/
  Source : String
  /-- The token of the target. -/
  Target : String
  /-- The kind of the relationship. -/
  Relationship : String
deriving DecidableEq, Repr

/-- The counts of the payload. -/
structure DataSummary where
  /-- The number of entities. -/
  TotalEntities : Int
  /-- The number of users. -/
  UserCount : Int
  /-- The number of groups. -/
  GroupCount : Int
  /-- The number of computers. -/
  ComputerCount : Int
  /-- The number of relationships. -/
  EdgeCount : Int
deriving DecidableEq, Repr

/-- The payload. -/
structure SanitizedData where
  /-- The entities. -/
  Entities : List SanitizedEntity
  /-- The relationships. -/
  Relationships : List SanitizedEdge
  /-- The counts. -/
  Summary : DataSummary
deriving DecidableEq, Repr

/-- The value of an `int64` computation: the integer reduced to 64 bits, two's
complement. -/
def wrap64 (x : Int) : Int :=
  (x + 9223372036854775808) % 18446744073709551616 - 9223372036854775808

/-- The helper `formatRelativeAge`; `now` is the value of `time.Now().Unix()`.
The quotients are taken on non-negative numbers. -/
def formatRelativeAge (now epochSeconds : Int) : String :=
  if epochSeconds = 0 then "never"
  else if wrap64 (now - epochSeconds) < 0 then "future"
  else if wrap64 (now - epochSeconds) / 86400 = 0 then "today"
  else if wrap64 (now - epochSeconds) / 86400 = 1 then "~1 day"
  else if wrap64 (now - epochSeconds) / 86400 < 30 then
    "~" ++ sprintfD (wrap64 (now - epochSeconds) / 86400) ++ " days"
  else if wrap64 (now - epochSeconds) / 86400 < 365 then
    "~" ++ sprintfD (wrap64 (now - epochSeconds) / 86400 / 30) ++ " months"
  else "~" ++ sprintfD (wrap64 (now - epochSeconds) / 86400 / 365) ++ " years"

/-- The body of the loop of `SanitizeBloodHoundData` over the users; `now` is
the value of `time.Now().Unix()` that `formatRelativeAge` reads in this
iteration. -/
def userEntity (tbl : Char → Char) (now : Int) (t : Tokenizer) (user : Node) :
    SanitizedEntity × Tokenizer :=
  ({ Token := (t.TokenizeUser tbl user.Properties.Name).1
     Type_ := "User"
     Tier := 0
     HighValue := user.Properties.HighValue
     AdminCount := user.Properties.AdminCount
     AgeRelative :=
      if user.Properties.PasswordLastSet > 0 then
        formatRelativeAge now user.Properties.PasswordLastSet
      else "" },
    (t.TokenizeUser tbl user.Properties.Name).2)

/-- The body of the loop of `SanitizeBloodHoundData` over the groups. -/
def groupEntity (tbl : Char → Char) (t : Tokenizer) (group : Node) :
    SanitizedEntity × Tokenizer :=
  ({ Token := (t.TokenizeGroup tbl group.Properties.Name).1
     Type_ := "Group"
     Tier := 0
     HighValue := group.Properties.HighValue
     AdminCount := group.Properties.AdminCount
     AgeRelative := "" },
    (t.TokenizeGroup tbl group.Properties.Name).2)

/-- The body of the loop of `SanitizeBloodHoundData` over the computers: the
tier is the constant 0 of the source. -/
def computerEntity (tbl : Char → Char) (t : Tokenizer) (computer : Node) :
    SanitizedEntity × Tokenizer :=
  ({ Token := (t.TokenizeComputer tbl computer.Properties.Name 0).1
     Type_ := "Computer"
     Tier := 0
     HighValue := computer.Properties.HighValue
     AdminCount := false
     AgeRelative := "" },
    (t.TokenizeComputer tbl computer.Properties.Name 0).2)

/-- The state of a loop of `SanitizeBloodHoundData`: the Tokenizer, the
entities of the payload so far and the counter of the loop. -/
structure LoopState where
  /-- The Tokenizer. -/
  tokenizer : Tokenizer
  /-- The entities appended so far. -/
  entities : List SanitizedEntity
  /-- The counter of the loop. -/
  count : Int
deriving DecidableEq, Repr

/-- A loop of `SanitizeBloodHoundData` over the nodes of one kind: the loop
breaks when the counter has reached `maxEntitiesPerType`, otherwise the entity
that `body` builds is appended and the counter goes up.  The body is given the
counter, which numbers the iterations from 0: the body of the users reads the
clock anew at each iteration. -/
def sanitizeLoop (body : Int → Tokenizer → Node → SanitizedEntity × Tokenizer)
    (maxEntitiesPerType : Int) : List Node → LoopState → LoopState
  | [], st => st
  | node :: rest, st =>
    if st.count ≥ maxEntitiesPerType then st
    else
      sanitizeLoop body maxEntitiesPerType rest
        { tokenizer := (body st.count st.tokenizer node).2
          entities := st.entities ++ [(body st.count st.tokenizer node).1]
          count := st.count + 1 }

/-- The state after the loop over the users; `now i` is the value of
`time.Now().Unix()` read in the iteration number `i` of this loop. -/
def afterUsers (tbl : Char → Char) (now : Int → Int) (data : BloodHoundData)
    (tokenizer : Tokenizer) (maxEntitiesPerType : Int) : LoopState :=
  sanitizeLoop (fun i => userEntity tbl (now i)) maxEntitiesPerType data.Users
    { tokenizer := tokenizer, entities := [], count := 0 }

/-- The state after the loop over the groups. -/
def afterGroups (tbl : Char → Char) (now : Int → Int) (data : BloodHoundData)
    (tokenizer : Tokenizer) (maxEntitiesPerType : Int) : LoopState :=
  sanitizeLoop (fun _ => groupEntity tbl) maxEntitiesPerType data.Groups
    { afterUsers tbl now data tokenizer maxEntitiesPerType with count := 0 }

/-- The state after the loop over the computers. -/
def afterComputers (tbl : Char → Char) (now : Int → Int) (data : BloodHoundData)
    (tokenizer : Tokenizer) (maxEntitiesPerType : Int) : LoopState :=
  sanitizeLoop (fun _ => computerEntity tbl) maxEntitiesPerType data.Computers
    { afterGroups tbl now data tokenizer maxEntitiesPerType with count := 0 }

/-- The function `SanitizeBloodHoundData`: the payload, and the Tokenizer after
the calls; `now i` is the reading of the clock in the iteration number `i` of
the loop over the users. -/
def SanitizeBloodHoundData (tbl : Char → Char) (now : Int → Int) (data : BloodHoundData)
    (tokenizer : Tokenizer) (maxEntitiesPerType : Int) : SanitizedData × Tokenizer :=
  ({ Entities := (afterComputers tbl now data tokenizer maxEntitiesPerType).entities
     Relationships := []
     Summary :=
      { TotalEntities := (afterComputers tbl now data tokenizer maxEntitiesPerType).entities.length
        UserCount := (afterUsers tbl now data tokenizer maxEntitiesPerType).count
        GroupCount := (afterGroups tbl now data tokenizer maxEntitiesPerType).count
        ComputerCount := (afterComputers tbl now data tokenizer maxEntitiesPerType).count
        EdgeCount := 0 } },
    (afterComputers tbl now data tokenizer maxEntitiesPerType).tokenizer)

/-- The entities that a loop body builds for the nodes of a list, one after
the other, in the iterations numbered from `i` on, and the Tokenizer after
them. -/
def summaries (body : Int → Tokenizer → Node → SanitizedEntity × Tokenizer) :
    Int → Tokenizer → List Node → List SanitizedEntity × Tokenizer
  | _, t, [] => ([], t)
  | i, t, node :: rest =>
    ((body i t node).1 :: (summaries body (i + 1) (body i t node).2 rest).1,
      (summaries body (i + 1) (body i t node).2 rest).2)

/-- A node reduced to the four fields that the sanitizer reads: the name, the
two flags and the time of the last password change. -/
def scrub (node : Node) : Node :=
  { ObjectIdentifier := ""
    Properties :=
      { Name := node.Properties.Name, Domain := "", Description := ""
        DistinguishedName := "", HighValue := node.Properties.HighValue
        AdminCount := node.Properties.AdminCount, Enabled := false
        PasswordLastSet := node.Properties.PasswordLastSet, OperatingSystem := "" }
    Aces := []
    IsDeleted := false }

/-- The prefixes of the kinds of tokens. -/
def kindPrefixes : List String :=
  ["DOM_", "ID_U_", "ID_G_", "H_T0_", "H_T1_", "H_", "OU_", "GPO_", "SID_", "TMPL_", "CA_"]

/-- An upper-case hexadecimal digit. -/
def isUpperHex (c : Char) : Bool := "0123456789ABCDEF".data.contains c

/-- A string made of the prefix of a kind followed by exactly 4 upper-case
hexadecimal digits. -/
def isTokenShape (tok : String) : Bool :=
  kindPrefixes.any (fun p =>
    HasPrefix tok p && (tok.data.drop p.data.length).length == 4 &&
      (tok.data.drop p.data.length).all isUpperHex)

/-- The relative ages that `formatRelativeAge` can return: `never`, `future`,
`today`, `~1 day`, and `~N days`, `~N months`, `~N years` with `N` a positive
integer written in decimal. -/
def IsAgeBucket (s : String) : Prop :=
  s = "never" ∨ s = "future" ∨ s = "today" ∨ s = "~1 day" ∨
    ∃ N : Int, 0 < N ∧
      (s = "~" ++ sprintfD N ++ " days" ∨ s = "~" ++ sprintfD N ++ " months" ∨
        s = "~" ++ sprintfD N ++ " years")

/-- The graph reduced to what the sanitizer reads: the users, the groups and
the computers, each node reduced by `scrub`. -/
def scrubGraph (data : BloodHoundData) : BloodHoundData :=
  { Users := data.Users.map scrub, Groups := data.Groups.map scrub,
    Computers := data.Computers.map scrub, Domains := [], GPOs := [], OUs := [],
    Containers := [], CertTemplates := [], EnterpriseCAs := [] }

/-! ## The persistence of the mapping (`persistence.go`) -/

/-- The record of a saved mapping. -/
structure MappingFile where
  /-- The identifier of the run. -/
  RunID : String
  /-- The time of the save, in the format RFC 3339. -/
  CreatedAt : String
  /-- The salt of the run. -/
  Salt : String
  /-- The table real → token. -/
  Mappings : GoMap
deriving DecidableEq, Repr

/-- The name of the file of a run: `filepath.Join(".necromancer", "mappings",
"run_" + runID + ".json")`, where `join` is `filepath.Join`. -/
def mappingFilename (join : List String → String) (runID : String) : String :=
  join [".necromancer", "mappings", "run_" ++ runID ++ ".json"]

/-- The method `SaveMapping`.  The files are a map from names to contents;
`osOk` tells whether the call of the operating system on a name succeeds,
`marshal` is `json.MarshalIndent` on the record and `createdAt` the formatted
time of the call.  The result is the error, if any, and the files after the
call. -/
def Tokenizer.SaveMapping (t : Tokenizer) (marshal : MappingFile → String)
    (join : List String → String) (osOk : String → Bool) (files : GoMap)
    (createdAt runID : String) : Option String × GoMap :=
  if !osOk (join [".necromancer", "mappings"]) then
    (some "failed to create mapping directory", files)
  else if (files.get (join [".necromancer", ".gitignore"])).isNone &&
      !osOk (join [".necromancer", ".gitignore"]) then
    (some "failed to create .gitignore", files)
  else if !osOk (mappingFilename join runID) then
    (some "failed to write mapping file",
      if (files.get (join [".necromancer", ".gitignore"])).isNone then
        files.set (join [".necromancer", ".gitignore"])
          "# Ignore all mapping files - they contain sensitive data\nmappings/\n"
      else files)
  else
    (none,
      (if (files.get (join [".necromancer", ".gitignore"])).isNone then
        files.set (join [".necromancer", ".gitignore"])
          "# Ignore all mapping files - they contain sensitive data\nmappings/\n"
      else files).set (mappingFilename join runID)
        (marshal { RunID := runID, CreatedAt := createdAt, Salt := t.salt,
                   Mappings := t.mapping }))

/-- The loop of `LoadMapping` that rebuilds the table token → real from the
table real → token, visited in the order `order`. -/
def rebuildReverse (order : List (String × String)) : GoMap :=
  order.foldl (fun reverse e => reverse.set e.2 e.1) []

/-- The method `LoadMapping` when the loaded table is visited in the order
`order`; `unmarshal` is `json.Unmarshal` into a record, `none` when the content
does not parse.  The result is the error, if any, and the Tokenizer after the
call. -/
def Tokenizer.LoadMappingIn (t : Tokenizer) (unmarshal : String → Option MappingFile)
    (join : List String → String) (files : GoMap) (order : List (String × String))
    (runID : String) : Option String × Tokenizer :=
  match files.get (mappingFilename join runID) with
  | none => (some "failed to read mapping file", t)
  | some data =>
    match unmarshal data with
    | none => (some "failed to unmarshal mapping", t)
    | some mappingFile =>
      (none, { salt := mappingFile.Salt, mapping := mappingFile.Mappings,
               reverse := rebuildReverse order })

/-- The table real → token as a map: the keys are pairwise distinct. -/
def GoMap.keysNodup (m : GoMap) : Prop := (m.map Prod.fst).Nodup

/-- The consistency of the two tables of a Tokenizer: the keys of each table
are pairwise distinct, every entry token → real has its entry real → token, and
every token of the table real → token is a key of the table token → real. -/
def Tokenizer.Consistent (t : Tokenizer) : Prop :=
  t.mapping.keysNodup ∧ t.reverse.keysNodup ∧
    (∀ tok real, t.reverse.get tok = some real → t.mapping.get real = some tok) ∧
    (∀ real tok, t.mapping.get real = some tok → ∃ r, t.reverse.get tok = some r)

/-- The constructor `NewTokenizer` called when the clock of the machine reads
`clock`: the source does not read the clock, `getCurrentTimestamp` returns its
fixed value. -/
def NewTokenizerAt (_clock : Int) : Tokenizer := NewTokenizer

/-- The elevated flags of an entity in the words of the specification: the
admin flag or the privileged flag. -/
def specElevated (node : Node) : Bool :=
  node.Properties.AdminCount || node.Properties.HighValue

/-- The tier "control-bearing" in the words of the specification: the name
matches one of the naming patterns, or the entity is disabled while it still
holds an elevated flag.  The built-in administrators are the last tier of the
specification and are left out of this one. -/
def specControlBearing (ltbl : Char → Char) (node : Node) : Bool :=
  !isBuiltInAdmin ltbl node &&
    (matchesControlName ltbl node || (node.Properties.Enabled == false && specElevated node))

/-- The tier "high-value-flagged" in the words of the specification: an
elevated flag, not in the first tier, not a built-in administrator. -/
def specHighValue (ltbl : Char → Char) (node : Node) : Bool :=
  specElevated node && !specControlBearing ltbl node && !isBuiltInAdmin ltbl node

/-- The tier "regular" in the words of the specification: everything else. -/
def specRegular (ltbl : Char → Char) (node : Node) : Bool :=
  !specControlBearing ltbl node && !specHighValue ltbl node && !isBuiltInAdmin ltbl node

/-- The selection in the words of the specification: the first `cap` elements
of the concatenation of the four filters of the input, in the order of the
tiers of the specification. -/
def sampleSpec (ltbl : Char → Char) (entities : List Node) (cap : Nat) : List Node :=
  (entities.filter (specControlBearing ltbl) ++ entities.filter (specHighValue ltbl) ++
    entities.filter (specRegular ltbl) ++ entities.filter (isBuiltInAdmin ltbl)).take cap

/-- A disabled entity without an elevated flag, whose name matches no naming
pattern and is not that of a built-in administrator: the entities on which the
first tier of the source and the first tier of the specification differ. -/
def isDisabledPlain (ltbl : Char → Char) (node : Node) : Bool :=
  node.Properties.Enabled == false && !specElevated node && !matchesControlName ltbl node &&
    !isBuiltInAdmin ltbl node

/-! ## The ordering of the findings (`engine.go`) -/

/-- The record `ZombiePath`. -/
structure ZombiePath where
  /-- The field `Title`. -/
  Title : String
  /-- The field `Artifact`. -/
  Artifact : String
  /-- The field `Category`. -/
  Category : String
  /-- The field `Reasoning`. -/
  Reasoning : String
  /-- The field `Mutation`. -/
  Mutation : String
  /-- The field `ResurrectedChain`. -/
  ResurrectedChain : String
  /-- The field `ExecutionVectors`. -/
  ExecutionVectors : List String
  /-- The field `VisualPath`. -/
  VisualPath : String
  /-- The field `HumanBlindSpot`. -/
  HumanBlindSpot : List String
  /-- The field `Impact`. -/
  Impact : List String
  /-- The field `WhyThisExists`. -/
  WhyThisExists : String
  /-- The field `Probability`: the label of the risk. -/
  Probability : String
  /-- The field `RiskJustification`. -/
  RiskJustification : String
  /-- The field `DetectionRules`. -/
  DetectionRules : List String
  /-- The field `Mitigation`. -/
  Mitigation : String
  /-- The field `EntityName`. -/
  EntityName : String
  /-- The field `EntityType`. -/
  EntityType : String
  /-- The field `EntityStatus`. -/
  EntityStatus : String
  /-- The field `EntityOrigin`. -/
  EntityOrigin : String
  /-- The field `MitreAttack`. -/
  MitreAttack : List String
deriving DecidableEq, Repr

/-- The map `riskOrder` of `sortByRisk`, read at a label: a label that is not a
key of the map gives the zero value. -/
def riskOrder (probability : String) : Int :=
  if probability = "Critical" then 4
  else if probability = "High" then 3
  else if probability = "Medium" then 2
  else if probability = "Low" then 1
  else 0

/-- The body of the inner loop of `sortByRisk` at the index `j`: the elements
at `j` and `j + 1` are exchanged when the risk of the first is lower. -/
def swapStep (paths : List ZombiePath) (j : Nat) : List ZombiePath :=
  match paths[j]?, paths[j + 1]? with
  | some p, some q =>
    if riskOrder p.Probability < riskOrder q.Probability then (paths.set j q).set (j + 1) p
    else paths
  | _, _ => paths

/-- The inner loop of `sortByRisk` for the index `i` of the outer loop: `j`
goes from 0 to `len(paths) - i - 1`, excluded. -/
def innerLoop (paths : List ZombiePath) (i : Nat) : List ZombiePath :=
  (List.range (paths.length - i - 1)).foldl swapStep paths

/-- The function `sortByRisk`: the slice after the call.  The index `i` goes
from 0 to `len(paths) - 1`, excluded. -/
def sortByRisk (paths : List ZombiePath) : List ZombiePath :=
  (List.range (paths.length - 1)).foldl innerLoop paths

/-- One pass of the inner loop as a recursion on the list: `k` comparisons
from the front of the list, the element of lower risk carried along. -/
def bubble : Nat → List ZombiePath → List ZombiePath
  | k + 1, p :: q :: rest =>
    if riskOrder p.Probability < riskOrder q.Probability then q :: bubble k (p :: rest)
    else p :: bubble k (q :: rest)
  | _, l => l

/-- A finding with a title and a label of risk, the other fields empty. -/
def mkPath (title probability : String) : ZombiePath :=
  { Title := title, Artifact := "", Category := "", Reasoning := "", Mutation := ""
    ResurrectedChain := "", ExecutionVectors := [], VisualPath := "", HumanBlindSpot := []
    Impact := [], WhyThisExists := "", Probability := probability, RiskJustification := ""
    DetectionRules := [], Mitigation := "", EntityName := "", EntityType := ""
    EntityStatus := "", EntityOrigin := "", MitreAttack := [] }

/-! ## Concurrent calls: the goroutines and the lock `mu` (`tokenizer.go`)

Goroutines call `Tokenize*` and `Detokenize` on one Tokenizer.  A step of the
model is one statement of `generateToken` or of `Detokenize`, run by one
goroutine, on the memory that all share; the lock `mu` is a `sync.RWMutex`:
`Lock` waits until no goroutine holds the lock, `RLock` until no goroutine
holds the write lock. -/

/-- The place of a goroutine in the methods of the Tokenizer. -/
inductive Pc where
  /-- Outside the methods. -/
  | idle
  /-- In a `Tokenize*` method with a non-empty identifier, before `t.mu.Lock()`
  of `generateToken`. -/
  | genEnter (c : Call)
  /-- In `generateToken`, the write lock held, before the lookup
  `t.mapping[input]`. -/
  | genLookup (c : Call)
  /-- After the lookup found nothing and the token was built, before
  `t.mapping[input] = token`. -/
  | genStore (c : Call) (token : String)
  /-- After `t.mapping[input] = token`, before `t.reverse[token] = input`. -/
  | genStoreReverse (c : Call) (token : String)
  /-- Before the return of `token`, the deferred `t.mu.Unlock()` still to run. -/
  | genExit (c : Call) (token : String)
  /-- In `Detokenize`, before `t.mu.RLock()`. -/
  | detEnter (text : String)
  /-- In the loop over `t.reverse`, the read lock held: the text so far and the
  entries already visited. -/
  | detLoop (text result : String) (seen : List (String × String))
  /-- Before the return of `out`, the deferred `t.mu.RUnlock()` still to run. -/
  | detExit (text out : String)
deriving DecidableEq, Repr

/-- The call in which a goroutine is. -/
def Pc.op : Pc → Option Op
  | .idle => none
  | .genEnter c => some (.tokenize c)
  | .genLookup c => some (.tokenize c)
  | .genStore c _ => some (.tokenize c)
  | .genStoreReverse c _ => some (.tokenize c)
  | .genExit c _ => some (.tokenize c)
  | .detEnter text => some (.detokenize text)
  | .detLoop text _ _ => some (.detokenize text)
  | .detExit text _ => some (.detokenize text)

/-- Whether a goroutine holds the read lock, inside `Detokenize`. -/
def Pc.reading : Pc → Bool
  | .detLoop _ _ _ => true
  | .detExit _ _ => true
  | _ => false

/-- Whether a goroutine holds the write lock, inside `generateToken`. -/
def Pc.writing : Pc → Bool
  | .genLookup _ => true
  | .genStore _ _ => true
  | .genStoreReverse _ _ => true
  | .genExit _ _ => true
  | _ => false

/-- What the scheduler lets a goroutine do: call a method, run its next
statement, or receive an entry from the loop over the map. -/
inductive Choice where
  /-- The goroutine, outside the methods, calls a method. -/
  | invoke (op : Op)
  /-- The goroutine runs its next statement. -/
  | advance
  /-- The loop `for token, real := range t.reverse` yields the entry `e`. -/
  | visit (e : String × String)
deriving DecidableEq, Repr

/-- An event of a history: a goroutine calls a method, or a method returns. -/
inductive Event where
  /-- The goroutine `i` calls a method. -/
  | inv (i : Nat) (op : Op)
  /-- The call of the goroutine `i` returns `result`. -/
  | ret (i : Nat) (op : Op) (result : String)
deriving DecidableEq, Repr

/-- The shared memory and the goroutines: the Tokenizer, the holder of the
write lock of `mu`, the holders of its read lock, and the place of each
goroutine. -/
structure Config where
  /-- The fields `mapping`, `reverse` and `salt` of the Tokenizer. -/
  tok : Tokenizer
  /-- The goroutine that holds the write lock of `mu`. -/
  writer : Option Nat
  /-- The goroutines that hold the read lock of `mu`. -/
  readers : List Nat
  /-- The place of each goroutine. -/
  pcs : Nat → Pc

/-- The start: a fresh Tokenizer, the lock free, every goroutine outside the
methods. -/
def Config.initial : Config :=
  { tok := NewTokenizer, writer := none, readers := [], pcs := fun _ => .idle }

/-- The goroutine `i` calls a method.  A `Tokenize*` method returns the empty
string at once for an empty identifier. -/
def Config.invoke (cfg : Config) (i : Nat) (op : Op) : List Event × Config :=
  match cfg.pcs i with
  | .idle =>
    match op with
    | .tokenize c =>
      if c.ident = "" then ([.inv i (.tokenize c), .ret i (.tokenize c) ""], cfg)
      else ([.inv i (.tokenize c)], { cfg with pcs := Function.update cfg.pcs i (.genEnter c) })
    | .detokenize text =>
      ([.inv i (.detokenize text)],
        { cfg with pcs := Function.update cfg.pcs i (.detEnter text) })
  | _ => ([], cfg)

/-- The goroutine `i` runs its next statement; a goroutine that waits for the
lock stays where it is. -/
def Config.advance (tbl : Char → Char) (cfg : Config) (i : Nat) : List Event × Config :=
  match cfg.pcs i with
  | .genEnter c =>
    if cfg.writer = none ∧ cfg.readers = [] then
      ([], { cfg with writer := some i, pcs := Function.update cfg.pcs i (.genLookup c) })
    else ([], cfg)
  | .genLookup c =>
    match cfg.tok.mapping.get (c.key tbl) with
    | some token => ([], { cfg with pcs := Function.update cfg.pcs i (.genExit c token) })
    | none =>
      ([], { cfg with
        pcs := Function.update cfg.pcs i
          (.genStore c (c.pfx ++ tokenSuffix tbl (c.key tbl) cfg.tok.salt)) })
  | .genStore c token =>
    ([], { cfg with
      tok := { cfg.tok with mapping := cfg.tok.mapping.set (c.key tbl) token }
      pcs := Function.update cfg.pcs i (.genStoreReverse c token) })
  | .genStoreReverse c token =>
    ([], { cfg with
      tok := { cfg.tok with reverse := cfg.tok.reverse.set token (c.key tbl) }
      pcs := Function.update cfg.pcs i (.genExit c token) })
  | .genExit c token =>
    ([.ret i (.tokenize c) token],
      { cfg with writer := none, pcs := Function.update cfg.pcs i .idle })
  | .detEnter text =>
    if cfg.writer = none then
      ([], { cfg with
        readers := i :: cfg.readers
        pcs := Function.update cfg.pcs i (.detLoop text text []) })
    else ([], cfg)
  | .detLoop text result seen =>
    if ∀ e ∈ cfg.tok.reverse, e ∈ seen then
      ([], { cfg with
        pcs := Function.update cfg.pcs i (.detExit text (cfg.tok.stripUnknownDomains result)) })
    else ([], cfg)
  | .detExit text out =>
    ([.ret i (.detokenize text) out],
      { cfg with readers := cfg.readers.erase i, pcs := Function.update cfg.pcs i .idle })
  | .idle => ([], cfg)

/-- The loop of `Detokenize` of the goroutine `i` yields the entry `e` of the
table, not visited yet, and replaces its token in the text. -/
def Config.visit (cfg : Config) (i : Nat) (e : String × String) : List Event × Config :=
  match cfg.pcs i with
  | .detLoop text result seen =>
    if e ∈ cfg.tok.reverse ∧ e ∉ seen then
      ([], { cfg with
        pcs := Function.update cfg.pcs i
          (.detLoop text (ReplaceAll result e.1 e.2) (seen ++ [e])) })
    else ([], cfg)
  | _ => ([], cfg)

/-- A step of the goroutine `i`: the events of the step and the memory after
it.  A step that cannot be taken leaves everything as it is. -/
def Config.step (tbl : Char → Char) (cfg : Config) (i : Nat) : Choice → List Event × Config
  | .invoke op => cfg.invoke i op
  | .advance => cfg.advance tbl i
  | .visit e => cfg.visit i e

/-- The history and the memory after the steps of a schedule. -/
def Config.run (tbl : Char → Char) : Config → List (Nat × Choice) → List Event × Config
  | cfg, [] => ([], cfg)
  | cfg, (i, ch) :: rest =>
    ((cfg.step tbl i ch).1 ++ ((cfg.step tbl i ch).2.run tbl rest).1,
      ((cfg.step tbl i ch).2.run tbl rest).2)

/-- The calls that have returned, with their results, in the order of the
returns. -/
def returned : List Event → List (Op × String)
  | [] => []
  | .inv _ _ :: rest => returned rest
  | .ret _ op result :: rest => (op, result) :: returned rest

/-- The sequential Tokenizer allows a sequence of calls with their results:
each `Tokenize*` call returns the token that the method gives on the Tokenizer
after the calls before it, each `Detokenize` call one of its results there. -/
def Tokenizer.accepts (t : Tokenizer) (tbl : Char → Char) : List (Op × String) → Prop
  | [] => True
  | (.tokenize c, r) :: rest => r = (t.call tbl c).1 ∧ (t.call tbl c).2.accepts tbl rest
  | (.detokenize text, r) :: rest => t.Detokenize text r ∧ t.accepts tbl rest

/-- The Tokenizer after the calls that have returned, run one after the other
in the order of the returns. -/
def specState (tbl : Char → Char) (events : List Event) : Tokenizer :=
  NewTokenizer.exec tbl ((returned events).map Prod.fst)

/-- The pending calls of the goroutines along a history, `none` when the
history is not well formed: a goroutine calls a method only when it has no call
pending, and a return answers the pending call of its goroutine. -/
def track (pending : Option (Nat → Option Op)) (e : Event) : Option (Nat → Option Op) :=
  match pending, e with
  | some p, .inv i op => if p i = none then some (Function.update p i (some op)) else none
  | some p, .ret i op _ => if p i = some op then some (Function.update p i none) else none
  | none, _ => none

/-- A history is well formed: in it each goroutine alternates the calls and
their returns. -/
def wellFormed (events : List Event) : Prop :=
  (events.foldl track (some fun _ => none)).isSome = true

/-- What holds of the goroutine `j` at a place, for the Tokenizer `s` after the
calls that have returned, the Tokenizer `tok` in memory, the holder `writer` of
the write lock and the holders `readers` of the read lock. -/
def PcInv (tbl : Char → Char) (s tok : Tokenizer) (writer : Option Nat) (readers : List Nat)
    (j : Nat) : Pc → Prop
  | .idle => writer ≠ some j ∧ j ∉ readers
  | .genEnter c => writer ≠ some j ∧ j ∉ readers ∧ c.ident ≠ ""
  | .genLookup c => writer = some j ∧ c.ident ≠ "" ∧ tok = s
  | .genStore c token =>
    writer = some j ∧ c.ident ≠ "" ∧ tok = s ∧ s.mapping.get (c.key tbl) = none ∧
      token = c.pfx ++ tokenSuffix tbl (c.key tbl) s.salt
  | .genStoreReverse c token =>
    writer = some j ∧ c.ident ≠ "" ∧ s.mapping.get (c.key tbl) = none ∧
      token = c.pfx ++ tokenSuffix tbl (c.key tbl) s.salt ∧
      tok = { s with mapping := s.mapping.set (c.key tbl) token }
  | .genExit c token => writer = some j ∧ tok = (s.call tbl c).2 ∧ token = (s.call tbl c).1
  | .detEnter _ => writer ≠ some j ∧ j ∉ readers
  | .detLoop text result seen =>
    j ∈ readers ∧ seen.Nodup ∧ (∀ e ∈ seen, e ∈ s.reverse) ∧ result = replaceTokens seen text
  | .detExit text out => j ∈ readers ∧ s.Detokenize text out

/-- The invariant of the goroutines and the lock along a history. -/
structure Inv (tbl : Char → Char) (events : List Event) (cfg : Config) : Prop where
  /-- The sequential Tokenizer allows the calls that have returned. -/
  accepted : NewTokenizer.accepts tbl (returned events)
  /-- When a goroutine holds the write lock none holds the read lock. -/
  excl : cfg.writer ≠ none → cfg.readers = []
  /-- A goroutine holds the read lock once. -/
  nodup : cfg.readers.Nodup
  /-- When no goroutine holds the write lock, the Tokenizer in memory is the one
  after the calls that have returned. -/
  free : cfg.writer = none → cfg.tok = specState tbl events
  /-- Each goroutine is at a place that fits the lock and the memory. -/
  places : ∀ j, PcInv tbl (specState tbl events) cfg.tok cfg.writer cfg.readers j (cfg.pcs j)

/-- The pending calls along a history are the calls in which the goroutines
are. -/
def Tracked (events : List Event) (pcs : Nat → Pc) : Prop :=
  ∃ p, events.foldl track (some fun _ => none) = some p ∧ ∀ j, p j = (pcs j).op

/-- The characters of which the tokens are made: those of the prefixes of the
kinds and the upper-case hexadecimal digits. -/
def isTokenChar (c : Char) : Bool := "0123456789ABCDEFGHILMOPSTU_".data.contains c

/-- An occurrence of a token in a text: the token, its real name, and the text
that follows the token, up to the next occurrence. -/
structure Mention where
  /-- The token. -/
  token : String
  /-- The real name of the token. -/
  real : String
  /-- The text between the token and the next one. -/
  after : String
deriving DecidableEq, Repr

/-- The text that begins with `first` and goes on with the mentions; a mention
shows its real name when `restored` holds of its token, and its token
otherwise. -/
def mentionsText (restored : String → Bool) (first : String) (ms : List Mention) : String :=
  ⟨first.data ++
    ms.flatMap (fun m => (if restored m.token then m.real else m.token).data ++ m.after.data)⟩

/-- A text that is empty or ends in a character of which no token is made. -/
def endsClear (s : String) : Bool := s.data.getLast?.elim true (fun c => !isTokenChar c)

/-- A text that is empty or begins with a character of which no token is
made. -/
def startsClear (s : String) : Bool := s.data.head?.elim true (fun c => !isTokenChar c)

/-- The mentions stand apart in the text: the character before a token and the
character after it are characters of which no token is made (or the text
begins or ends there), and between two tokens there is at least one
character. -/
def delimited : String → List Mention → Bool
  | _, [] => true
  | before, m :: rest =>
    endsClear before && startsClear m.after && (rest.isEmpty || m.after != "") &&
      delimited m.after rest

/-- The pieces of a text between the occurrences of a separator. -/
def splitOnChar (sep : Char) : List Char → List (List Char)
  | [] => [[]]
  | c :: cs =>
    if c = sep then [] :: splitOnChar sep cs
    else
      match splitOnChar sep cs with
      | [] => [[c]]
      | x :: xs => (c :: x) :: xs

/-- A codec of records for the examples, in place of JSON: the run, the time
and the salt on a line each, then each entry of the table on a line, the real
name and the token separated by a tab. -/
def lineMarshal (m : MappingFile) : String :=
  ⟨(m.RunID :: m.CreatedAt :: m.Salt :: m.Mappings.map fun e => e.1 ++ "\t" ++ e.2).foldr
    (fun l acc => l.data ++ '\n' :: acc) []⟩

/-- The entries of the lines of a record of the codec of the examples. -/
def lineEntries : List (List Char) → Option GoMap
  | [] => some []
  | l :: ls =>
    if l = [] ∧ ls = [] then some []
    else
      match splitOnChar '\t' l, lineEntries ls with
      | [k, v], some m => some ((⟨k⟩, ⟨v⟩) :: m)
      | _, _ => none

/-- The decoder of the codec of the examples. -/
def lineUnmarshal (s : String) : Option MappingFile :=
  match splitOnChar '\n' s.data with
  | runID :: createdAt :: salt :: rest =>
    match lineEntries rest with
    | some m => some { RunID := ⟨runID⟩, CreatedAt := ⟨createdAt⟩, Salt := ⟨salt⟩, Mappings := m }
    | none => none
  | _ => none

/-- The function `filepath.Join` of the examples: the elements separated by a
slash. -/
def slashJoin (elem : List String) : String := "/".intercalate elem

/-- A node with a name and its three flags, the other fields empty. -/
def mkNode (name : String) (enabled adminCount highValue : Bool) : Node :=
  { ObjectIdentifier := ""
    Properties :=
      { Name := name, Domain := "", Description := "", DistinguishedName := ""
        HighValue := highValue, AdminCount := adminCount, Enabled := enabled
        PasswordLastSet := 0, OperatingSystem := "" }
    Aces := []
    IsDeleted := false }

/-- A user that is enabled and without flags, with a name and the time of the
last password change. -/
def mkAged (name : String) (passwordLastSet : Int) : Node :=
  { ObjectIdentifier := ""
    Properties :=
      { Name := name, Domain := "", Description := "", DistinguishedName := ""
        HighValue := false, AdminCount := false, Enabled := true
        PasswordLastSet := passwordLastSet, OperatingSystem := "" }
    Aces := []
    IsDeleted := false }

/-- A graph with users, groups and computers, the other kinds empty. -/
def mkGraph (users groups computers : List Node) : BloodHoundData :=
  { Users := users, Groups := groups, Computers := computers, Domains := [], GPOs := [],
    OUs := [], Containers := [], CertTemplates := [], EnterpriseCAs := [] }

/-- A case table that maps no rune: with it `ToUpper` acts on the ASCII
letters only.  The case table is not consulted on ASCII text. -/
def asciiOnly : Char → Char := fun c => c

/-! ## Basic facts: strings and maps -/

theorem ToUpper_data (tbl : Char → Char) (s : String) :
    (ToUpper tbl s).data = s.data.map (upperRune tbl) := rfl

theorem ToUpper_length (tbl : Char → Char) (s : String) :
    (ToUpper tbl s).data.length = s.data.length := by
  simp [ToUpper_data]

theorem ToUpper_eq_empty (tbl : Char → Char) (s : String) : ToUpper tbl s = "" ↔ s = "" := by
  constructor
  · intro h
    have h1 := congrArg String.data h
    rw [ToUpper_data] at h1
    apply String.ext
    simpa using h1
  · intro h
    subst h
    rfl

theorem GoMap.get_set_self (m : GoMap) (k v : String) : (GoMap.set m k v).get k = some v := by
  induction m with
  | nil => simp [GoMap.set, GoMap.get]
  | cons e m ih =>
    obtain ⟨k0, v0⟩ := e
    by_cases h : k0 = k
    · simp [GoMap.set, GoMap.get, h]
    · simp [GoMap.set, GoMap.get, h, ih]

theorem GoMap.get_set_ne (m : GoMap) (k k1 v : String) (h : k ≠ k1) :
    (GoMap.set m k v).get k1 = m.get k1 := by
  induction m with
  | nil => simp [GoMap.set, GoMap.get, h]
  | cons e m ih =>
    obtain ⟨k0, v0⟩ := e
    by_cases h0 : k0 = k
    · subst h0
      simp [GoMap.set, GoMap.get, h]
    · by_cases h1 : k0 = k1
      · subst h1
        simp [GoMap.set, GoMap.get, h0]
      · simp [GoMap.set, GoMap.get, h0, h1, ih]

/-! ## Basic facts: the `Tokenize*` methods -/

theorem generateToken_hit (t : Tokenizer) (tbl : Char → Char) (input pfx tok : String)
    (h : t.mapping.get input = some tok) : t.generateToken tbl input pfx = (tok, t) := by
  simp [Tokenizer.generateToken, h]

theorem generateToken_miss (t : Tokenizer) (tbl : Char → Char) (input pfx : String)
    (h : t.mapping.get input = none) :
    t.generateToken tbl input pfx =
      (pfx ++ tokenSuffix tbl input t.salt,
        { t with
          mapping := t.mapping.set input (pfx ++ tokenSuffix tbl input t.salt)
          reverse := t.reverse.set (pfx ++ tokenSuffix tbl input t.salt) input }) := by
  simp [Tokenizer.generateToken, h]

theorem call_eq (t : Tokenizer) (tbl : Char → Char) (c : Call) :
    t.call tbl c =
      if c.ident = "" then ("", t) else t.generateToken tbl (c.key tbl) c.pfx := by
  cases c <;> rfl

theorem key_eq_empty (tbl : Char → Char) (c : Call) : c.key tbl = "" ↔ c.ident = "" := by
  cases c <;> simp [Call.key, Call.ident, ToUpper_eq_empty]

theorem call_empty (t : Tokenizer) (tbl : Char → Char) (c : Call) (h : c.ident = "") :
    t.call tbl c = ("", t) := by
  simp [call_eq, h]

theorem call_salt (t : Tokenizer) (tbl : Char → Char) (c : Call) :
    (t.call tbl c).2.salt = t.salt := by
  rw [call_eq]
  by_cases h : c.ident = ""
  · simp [h]
  · simp only [h, if_false]
    cases hg : t.mapping.get (c.key tbl) with
    | none => rw [generateToken_miss _ _ _ _ hg]
    | some tok => rw [generateToken_hit _ _ _ _ _ hg]

theorem call_mapping_get (t : Tokenizer) (tbl : Char → Char) (c : Call) (hc : c.ident ≠ "")
    (k : String) :
    (t.call tbl c).2.mapping.get k =
      match t.mapping.get k with
      | some v => some v
      | none => if c.key tbl = k then some (c.pfx ++ tokenSuffix tbl k t.salt) else none := by
  rw [call_eq]
  simp only [hc, if_false]
  cases hg : t.mapping.get (c.key tbl) with
  | none =>
    rw [generateToken_miss _ _ _ _ hg]
    by_cases hk : c.key tbl = k
    · subst hk
      simp [GoMap.get_set_self, hg]
    · simp only [GoMap.get_set_ne _ _ _ _ hk, hk, if_false]
      cases t.mapping.get k <;> rfl
  | some tok =>
    rw [generateToken_hit _ _ _ _ _ hg]
    by_cases hk : c.key tbl = k
    · subst hk
      simp [hg]
    · simp only [hk, if_false]
      cases t.mapping.get k <;> rfl

theorem call_fst (t : Tokenizer) (tbl : Char → Char) (c : Call) (hc : c.ident ≠ "") :
    (t.call tbl c).2.mapping.get (c.key tbl) = some (t.call tbl c).1 := by
  rw [call_eq]
  simp only [hc, if_false]
  cases hg : t.mapping.get (c.key tbl) with
  | none =>
    rw [generateToken_miss _ _ _ _ hg]
    simp [GoMap.get_set_self]
  | some tok =>
    rw [generateToken_hit _ _ _ _ _ hg]
    exact hg

theorem call_mapping_keep (t : Tokenizer) (tbl : Char → Char) (c : Call) (k v : String)
    (h : t.mapping.get k = some v) : (t.call tbl c).2.mapping.get k = some v := by
  by_cases hc : c.ident = ""
  · rw [call_empty _ _ _ hc]
    exact h
  · rw [call_mapping_get _ _ _ hc, h]

theorem run_mapping_keep (tbl : Char → Char) (cs : List Call) (t : Tokenizer) (k v : String)
    (h : t.mapping.get k = some v) : (t.run tbl cs).mapping.get k = some v := by
  induction cs generalizing t with
  | nil => exact h
  | cons c cs ih => exact ih _ (call_mapping_keep _ _ _ _ _ h)

theorem run_salt (tbl : Char → Char) (cs : List Call) (t : Tokenizer) :
    (t.run tbl cs).salt = t.salt := by
  induction cs generalizing t with
  | nil => rfl
  | cons c cs ih =>
    show ((t.call tbl c).2.run tbl cs).salt = t.salt
    rw [ih, call_salt]

theorem run_append (tbl : Char → Char) (cs ds : List Call) (t : Tokenizer) :
    t.run tbl (cs ++ ds) = (t.run tbl cs).run tbl ds := by
  induction cs generalizing t with
  | nil => rfl
  | cons c cs ih => exact ih _

/-- The entry of the table real → token for a key that was absent before a
run: the first call of the run with that key decides it. -/
theorem run_mapping_get (tbl : Char → Char) (cs : List Call) (t : Tokenizer) (k : String)
    (hk : k ≠ "") (h : t.mapping.get k = none) :
    (t.run tbl cs).mapping.get k =
      (cs.find? (fun c0 => decide (c0.key tbl = k))).map
        (fun c0 => c0.pfx ++ tokenSuffix tbl k t.salt) := by
  induction cs generalizing t with
  | nil => simpa [Tokenizer.run] using h
  | cons c cs ih =>
    show ((t.call tbl c).2.run tbl cs).mapping.get k = _
    by_cases hck : c.key tbl = k
    · have hc : c.ident ≠ "" := by
        intro h0
        exact hk (hck ▸ (key_eq_empty tbl c).2 h0)
      have h1 : (t.call tbl c).2.mapping.get k = some (c.pfx ++ tokenSuffix tbl k t.salt) := by
        rw [call_mapping_get _ _ _ hc, h]
        simp [hck]
      rw [run_mapping_keep _ _ _ _ _ h1]
      simp [List.find?, hck]
    · have h1 : (t.call tbl c).2.mapping.get k = none := by
        by_cases hc : c.ident = ""
        · rw [call_empty _ _ _ hc]
          exact h
        · rw [call_mapping_get _ _ _ hc, h]
          simp [hck]
      rw [ih _ h1, call_salt]
      simp [List.find?, hck]

/-- The token that a call with a non-empty identifier returns after a run on a
Tokenizer with empty tables. -/
theorem token_after_run (tbl : Char → Char) (salt : String) (cs : List Call) (c : Call)
    (hc : c.ident ≠ "") :
    (((Tokenizer.mk [] [] salt).run tbl cs).call tbl c).1 =
      firstPfx tbl cs c ++ tokenSuffix tbl (c.key tbl) salt := by
  have hk : c.key tbl ≠ "" := fun h => hc ((key_eq_empty tbl c).1 h)
  have h0 := run_mapping_get tbl cs (Tokenizer.mk [] [] salt) (c.key tbl) hk rfl
  have hs := run_salt tbl cs (Tokenizer.mk [] [] salt)
  rw [call_eq]
  simp only [hc, if_false, firstPfx]
  cases hf : cs.find? (fun c0 => decide (c0.key tbl = c.key tbl)) with
  | none =>
    rw [hf] at h0
    rw [generateToken_miss _ _ _ _ h0, hs]
  | some c0 =>
    rw [hf] at h0
    rw [generateToken_hit _ _ _ _ _ h0]

theorem step_mapping_keep (t : Tokenizer) (tbl : Char → Char) (o : Op) (k v : String)
    (h : t.mapping.get k = some v) : (t.step tbl o).mapping.get k = some v := by
  cases o with
  | tokenize c => exact call_mapping_keep _ _ _ _ _ h
  | detokenize text => exact h

theorem exec_mapping_keep (tbl : Char → Char) (os : List Op) (t : Tokenizer) (k v : String)
    (h : t.mapping.get k = some v) : (t.exec tbl os).mapping.get k = some v := by
  induction os generalizing t with
  | nil => exact h
  | cons o os ih => exact ih _ (step_mapping_keep _ _ _ _ _ h)

theorem withIdent_ident (c : Call) (s : String) : (c.withIdent s).ident = s := by
  cases c <;> rfl

theorem withIdent_pfx (c : Call) (s : String) : (c.withIdent s).pfx = c.pfx := by
  cases c <;> rfl

theorem HasPrefix_append (p s : String) : HasPrefix (p ++ s) p = true := by
  simp [HasPrefix, String.data_append]

/-! ## The digest has 32 bytes and the suffix of a token 4 characters -/

set_option maxRecDepth 100000 in
/-- The test vector of FIPS 180-4 for the message `abc`. -/
theorem Sum256_abc :
    EncodeToString (Sha256.Sum256 (bytesOf "abc")) =
      "ba7816bf8f01cfea414140de5dae2223b00361a396177a9cb410ff61f20015ad" := by
  decide

set_option maxRecDepth 100000 in
/-- The test vector of FIPS 180-4 for a message of two blocks. -/
theorem Sum256_two_blocks :
    EncodeToString (Sha256.Sum256
      (bytesOf "abcdbcdecdefdefgefghfghighijhijkijkljklmklmnlmnomnopnopq")) =
      "248d6a61d20638b8e5c026930c3e6039a33ce45964ff2167f6ecedd419db06c1" := by
  decide

theorem round_length (s : List Nat) (kw : Nat × Nat) (h : s.length = 8) :
    (Sha256.round s kw).length = 8 := by
  match s, h with
  | [_, _, _, _, _, _, _, _], _ => rfl

theorem foldl_round_length (l : List (Nat × Nat)) (s : List Nat) (h : s.length = 8) :
    (l.foldl Sha256.round s).length = 8 := by
  induction l generalizing s with
  | nil => exact h
  | cons kw l ih => exact ih _ (round_length s kw h)

theorem compress_length (h : List Nat) (block : List Nat) (hl : h.length = 8) :
    (Sha256.compress h block).length = 8 := by
  unfold Sha256.compress
  rw [List.length_zipWith, foldl_round_length _ _ hl, hl]
  rfl

theorem foldl_compress_length (bs : List (List Nat)) (h : List Nat) (hl : h.length = 8) :
    (bs.foldl Sha256.compress h).length = 8 := by
  induction bs generalizing h with
  | nil => exact hl
  | cons b bs ih => exact ih _ (compress_length h b hl)

theorem digestWords_length (msg : List Nat) : (Sha256.digestWords msg).length = 8 :=
  foldl_compress_length _ _ rfl

theorem Sum256_length (msg : List Nat) : (Sha256.Sum256 msg).length = 32 := by
  unfold Sha256.Sum256
  have h := digestWords_length msg
  match Sha256.digestWords msg, h with
  | [_, _, _, _, _, _, _, _], _ => rfl

theorem tokenSuffix_length (tbl : Char → Char) (input salt : String) :
    (tokenSuffix tbl input salt).data.length = 4 := by
  unfold tokenSuffix
  rw [ToUpper_length]
  have h := Sum256_length (bytesOf (input ++ salt))
  match Sha256.Sum256 (bytesOf (input ++ salt)), h with
  | b0 :: b1 :: rest, _ => simp [EncodeToString]

/-- Two tokens are equal exactly when their prefixes and their suffixes are. -/
theorem token_eq_iff (tbl : Char → Char) (p1 p2 k1 k2 salt : String) :
    p1 ++ tokenSuffix tbl k1 salt = p2 ++ tokenSuffix tbl k2 salt ↔
      p1 = p2 ∧ tokenSuffix tbl k1 salt = tokenSuffix tbl k2 salt := by
  constructor
  · intro h
    have h1 := congrArg String.data h
    rw [String.data_append, String.data_append] at h1
    have h2 := List.append_inj_left' h1
      ((tokenSuffix_length tbl k1 salt).trans (tokenSuffix_length tbl k2 salt).symm)
    have h3 := List.append_inj_right' h1
      ((tokenSuffix_length tbl k1 salt).trans (tokenSuffix_length tbl k2 salt).symm)
    exact ⟨String.ext h2, String.ext h3⟩
  · rintro ⟨h1, h2⟩
    rw [h1, h2]

/-- For every kind other than SID, an identifier and its upper-cased form
receive the same token in every Tokenizer, when the case table is idempotent. -/
theorem tokenize_upper_eq (tbl : Char → Char) (t : Tokenizer) (c : Call)
    (hsid : ∀ s, c ≠ .sid s)
    (htbl : ∀ r, upperRune tbl (upperRune tbl r) = upperRune tbl r) :
    t.call tbl (c.withIdent (ToUpper tbl c.ident)) = t.call tbl c := by
  have hup : ∀ s, ToUpper tbl (ToUpper tbl s) = ToUpper tbl s := by
    intro s
    apply String.ext
    simp [ToUpper_data, htbl]
  rw [call_eq, call_eq, withIdent_ident, withIdent_pfx]
  have hk : (c.withIdent (ToUpper tbl c.ident)).key tbl = c.key tbl := by
    cases c with
    | sid s => exact absurd rfl (hsid s)
    | _ => exact hup _
  rw [hk]
  by_cases h : c.ident = ""
  · rw [if_pos ((ToUpper_eq_empty tbl c.ident).2 h), if_pos h]
  · have h2 : ToUpper tbl c.ident ≠ "" := fun h3 => h ((ToUpper_eq_empty tbl c.ident).1 h3)
    simp [h, h2]

/-! ## The search of the regular expression -/

theorem lastOr_append_singleton (prev : Option Char) (l : List Char) (c : Char) :
    lastOr prev (l ++ [c]) = some c := by
  induction l generalizing prev with
  | nil => rfl
  | cons d l ih => exact ih (some d)

theorem lastOr_append (prev : Option Char) (l r : List Char) :
    lastOr prev (l ++ r) = lastOr (lastOr prev l) r := by
  induction l generalizing prev with
  | nil => rfl
  | cons d l ih => exact ih (some d)

theorem lastOr_of_ne_nil (p q : Option Char) (l : List Char) (h : l ≠ []) :
    lastOr p l = lastOr q l := by
  cases l with
  | nil => exact absurd rfl h
  | cons c cs => rfl

theorem advance_append (l r : List Char) (prev : Option Char) :
    advance l.length (prev, l ++ r) = (lastOr prev l, r) := by
  induction l generalizing prev with
  | nil => cases r <;> rfl
  | cons c l ih => exact ih (some c)

theorem mem_run_wordBoundary (st st1 : Option Char × List Char) :
    st1 ∈ Regex.wordBoundary.run st ↔ atBoundary st.1 st.2 = true ∧ st1 = st := by
  unfold Regex.run
  by_cases h : atBoundary st.1 st.2 = true <;> simp [h]

theorem mem_run_cls (p : Char → Bool) (st st1 : Option Char × List Char) :
    st1 ∈ (Regex.cls p).run st ↔ ∃ c cs, st.2 = c :: cs ∧ p c = true ∧ st1 = (some c, cs) := by
  obtain ⟨prev, s⟩ := st
  cases s with
  | nil => simp [Regex.run]
  | cons c cs =>
    cases h : p c with
    | true =>
      simp only [Regex.run, h, if_true, List.mem_singleton]
      constructor
      · intro h1
        exact ⟨c, cs, rfl, h, h1⟩
      · rintro ⟨c1, cs1, h1, _, h3⟩
        cases h1
        exact h3
    | false =>
      simp only [Regex.run, h]
      constructor
      · intro h1
        simp at h1
      · rintro ⟨c1, cs1, h1, h2, _⟩
        cases h1
        rw [h] at h2
        exact absurd h2 (by simp)

theorem mem_run_seq (a b : Regex) (st st1 : Option Char × List Char) :
    st1 ∈ (Regex.seq a b).run st ↔ ∃ mid, mid ∈ a.run st ∧ st1 ∈ b.run mid := by
  simp [Regex.run]

theorem mem_run_opt (a : Regex) (st st1 : Option Char × List Char) :
    st1 ∈ (Regex.opt a).run st ↔ st1 ∈ a.run st ∨ st1 = st := by
  simp [Regex.run]

theorem take_all_of_le_takeWhile (p : Char → Bool) (s : List Char) (k : Nat)
    (h : k ≤ (s.takeWhile p).length) : (∀ c ∈ s.take k, p c = true) ∧ (s.take k).length = k := by
  have hp : s.takeWhile p <+: s := List.takeWhile_prefix p
  obtain ⟨t, ht⟩ := hp
  have h1 : s.take k = (s.takeWhile p).take k := by
    conv_lhs => rw [← ht]
    exact List.take_append_of_le_length h
  constructor
  · intro c hc
    rw [h1] at hc
    exact List.mem_takeWhile_imp (List.mem_of_mem_take hc)
  · rw [h1, List.length_take]
    omega

theorem maxCount_le (p : Char → Bool) (hi : Option Nat) (s : List Char) :
    maxCount p hi s ≤ (s.takeWhile p).length := by
  cases hi with
  | none => exact Nat.le_refl _
  | some h => exact Nat.min_le_right _ _

theorem maxCount_le_hi (p : Char → Bool) (h : Nat) (s : List Char) :
    maxCount p (some h) s ≤ h := Nat.min_le_left _ _

theorem le_maxCount (p : Char → Bool) (hi : Option Nat) (s : List Char) (k : Nat)
    (h1 : k ≤ (s.takeWhile p).length) (h2 : ∀ h, hi = some h → k ≤ h) :
    k ≤ maxCount p hi s := by
  cases hi with
  | none => exact h1
  | some h => exact Nat.le_min.2 ⟨h2 h rfl, h1⟩

theorem mem_run_count (p : Char → Bool) (lo : Nat) (hi : Option Nat) (prev : Option Char)
    (s : List Char) (st1 : Option Char × List Char) :
    st1 ∈ (Regex.count p lo hi).run (prev, s) ↔
      ∃ l r, s = l ++ r ∧ (∀ c ∈ l, p c = true) ∧ lo ≤ l.length ∧
        (∀ h, hi = some h → l.length ≤ h) ∧ st1 = (lastOr prev l, r) := by
  unfold Regex.run
  simp only [List.mem_map, List.mem_range]
  have hN := maxCount_le p hi s
  constructor
  · rintro ⟨i, hi1, hi2⟩
    obtain ⟨hall, hlen⟩ := take_all_of_le_takeWhile p s (maxCount p hi s - i) (by omega)
    refine ⟨s.take (maxCount p hi s - i), s.drop (maxCount p hi s - i),
      (List.take_append_drop _ s).symm, hall, ?_, ?_, ?_⟩
    · rw [hlen]
      omega
    · intro h hh
      rw [hlen]
      subst hh
      have := maxCount_le_hi p h s
      omega
    · rw [← hi2]
      have h3 := advance_append (s.take (maxCount p hi s - i)) (s.drop (maxCount p hi s - i)) prev
      rw [hlen, List.take_append_drop] at h3
      exact h3
  · rintro ⟨l, r, hs, hall, hlo, hhi, hst⟩
    have hlen : l.length ≤ (s.takeWhile p).length := by
      rw [hs, List.takeWhile_append_of_pos hall, List.length_append]
      omega
    have hk := le_maxCount p hi s l.length hlen hhi
    refine ⟨maxCount p hi s - l.length, by omega, ?_⟩
    have h2 : maxCount p hi s - (maxCount p hi s - l.length) = l.length := by omega
    rw [h2, hst]
    have h3 := advance_append l r prev
    rw [← hs] at h3
    exact h3

theorem isDomainWord_iff (l1 l2 : List Char) :
    isDomainWord l1 l2 = true ↔
      (∀ c ∈ l1, isLabelChar c = true) ∧ l1.length ≤ 63 ∧
      (∃ c0, l1.head? = some c0 ∧ isLowerOrDigit c0 = true) ∧
      (∃ cl, l1.getLast? = some cl ∧ isLowerOrDigit cl = true) ∧
      (∀ c ∈ l2, c.isLower = true) ∧ 2 ≤ l2.length := by
  unfold isDomainWord
  simp only [Bool.and_eq_true, List.all_eq_true, decide_eq_true_eq]
  constructor
  · rintro ⟨⟨⟨⟨⟨h1, h2⟩, h3⟩, h4⟩, h5⟩, h6⟩
    refine ⟨h1, h2, ?_, ?_, h5, h6⟩
    · cases hh : l1.head? with
      | none => rw [hh] at h3; exact absurd h3 (by simp)
      | some c0 => rw [hh] at h3; exact ⟨c0, rfl, h3⟩
    · cases hh : l1.getLast? with
      | none => rw [hh] at h4; exact absurd h4 (by simp)
      | some cl => rw [hh] at h4; exact ⟨cl, rfl, h4⟩
  · rintro ⟨h1, h2, ⟨c0, h3, h3a⟩, ⟨cl, h4, h4a⟩, h5, h6⟩
    refine ⟨⟨⟨⟨⟨h1, h2⟩, ?_⟩, ?_⟩, h5⟩, h6⟩
    · rw [h3]; exact h3a
    · rw [h4]; exact h4a

theorem label_of_lowerOrDigit (c : Char) (h : isLowerOrDigit c = true) : isLabelChar c = true := by
  unfold isLowerOrDigit at h
  unfold isLabelChar
  rw [h]
  rfl

theorem isDot_iff (c : Char) : isDot c = true ↔ c = '.' := by
  simp [isDot]

/-- The matches of the domain pattern at a position: the text from the position
on is a word `l1`, a dot and a word `l2`, with a word boundary before `l1` and
after `l2`. -/
theorem mem_run_domain (prev : Option Char) (s : List Char) (st1 : Option Char × List Char) :
    st1 ∈ domainPattern.run (prev, s) ↔
      ∃ l1 l2 r, s = l1 ++ '.' :: (l2 ++ r) ∧ isDomainWord l1 l2 = true ∧
        atBoundary prev s = true ∧ atBoundary (lastOr none l2) r = true ∧
        st1 = (lastOr none l2, r) := by
  constructor
  · intro h
    unfold domainPattern at h
    rw [mem_run_seq] at h
    obtain ⟨s1, h1, h⟩ := h
    rw [mem_run_wordBoundary] at h1
    obtain ⟨hb1, rfl⟩ := h1
    rw [mem_run_seq] at h
    obtain ⟨s2, h2, h⟩ := h
    rw [mem_run_cls] at h2
    obtain ⟨c0, r0, hs, hc0, rfl⟩ := h2
    rw [mem_run_seq] at h
    obtain ⟨s3, h3, h⟩ := h
    rw [mem_run_opt] at h3
    rw [mem_run_seq] at h
    obtain ⟨s4, h4, h⟩ := h
    rw [mem_run_cls] at h4
    obtain ⟨d, r3, hs3, hd, rfl⟩ := h4
    rw [mem_run_seq] at h
    obtain ⟨s5, h5, h⟩ := h
    rw [mem_run_count] at h5
    obtain ⟨l2, r, hr3, hl2, hlen2, -, rfl⟩ := h5
    rw [mem_run_wordBoundary] at h
    obtain ⟨hb2, rfl⟩ := h
    have hd2 : d = '.' := (isDot_iff d).1 hd
    subst hd2
    have hl2ne : l2 ≠ [] := by
      intro h0
      rw [h0] at hlen2
      simp at hlen2
    have hlast : lastOr (some '.') l2 = lastOr none l2 := lastOr_of_ne_nil _ _ _ hl2ne
    simp only at hs hb1 hb2 hs3
    rw [hlast] at hb2
    rw [hlast]
    rcases h3 with h3 | h3
    · rw [mem_run_seq] at h3
      obtain ⟨m, hm, h3⟩ := h3
      rw [mem_run_count] at hm
      obtain ⟨x, r1, hr0, hx, -, hx61, rfl⟩ := hm
      rw [mem_run_cls] at h3
      obtain ⟨cl, r2, hr1, hcl, rfl⟩ := h3
      simp only at hr1 hs3
      refine ⟨c0 :: (x ++ [cl]), l2, r, ?_, ?_, hb1, hb2, rfl⟩
      · rw [hs, hr0, hr1, hs3, hr3]
        simp
      · rw [isDomainWord_iff]
        refine ⟨?_, ?_, ⟨c0, rfl, hc0⟩, ⟨cl, ?_, hcl⟩, hl2, hlen2⟩
        · intro c hc
          simp only [List.mem_cons, List.mem_append, List.mem_singleton, List.not_mem_nil,
            or_false] at hc
          rcases hc with rfl | hc | rfl
          · exact label_of_lowerOrDigit _ hc0
          · exact hx c hc
          · exact label_of_lowerOrDigit _ hcl
        · have := hx61 61 rfl
          simp only [List.length_cons, List.length_append, List.length_singleton,
            List.length_nil]
          omega
        · rw [← List.cons_append, List.getLast?_concat]
    · subst h3
      simp only at hs3
      refine ⟨[c0], l2, r, ?_, ?_, hb1, hb2, rfl⟩
      · rw [hs, hs3, hr3]
        rfl
      · rw [isDomainWord_iff]
        refine ⟨?_, by simp, ⟨c0, rfl, hc0⟩, ⟨c0, rfl, hc0⟩, hl2, hlen2⟩
        intro c hc
        simp only [List.mem_singleton] at hc
        subst hc
        exact label_of_lowerOrDigit _ hc0
  · rintro ⟨l1, l2, r, hs, hw, hb1, hb2, rfl⟩
    rw [isDomainWord_iff] at hw
    obtain ⟨hl1, hlen1, ⟨c0, hh, hc0⟩, ⟨cl, hl, hcl⟩, hl2, hlen2⟩ := hw
    have hl2ne : l2 ≠ [] := by
      intro h0
      rw [h0] at hlen2
      simp at hlen2
    have hlast : lastOr (some '.') l2 = lastOr none l2 := lastOr_of_ne_nil _ _ _ hl2ne
    have htail : (lastOr none l2, r) ∈
        (Regex.seq (Regex.cls isDot)
          (Regex.seq (Regex.count Char.isLower 2 none) Regex.wordBoundary)).run
          (lastOr none l1, '.' :: (l2 ++ r)) := by
      rw [mem_run_seq]
      refine ⟨(some '.', l2 ++ r), (mem_run_cls _ _ _).2 ⟨'.', l2 ++ r, rfl, rfl, rfl⟩, ?_⟩
      rw [mem_run_seq]
      refine ⟨(lastOr (some '.') l2, r), (mem_run_count _ _ _ _ _ _).2
        ⟨l2, r, rfl, hl2, hlen2, by simp, rfl⟩, ?_⟩
      rw [mem_run_wordBoundary, hlast]
      exact ⟨hb2, rfl⟩
    cases l1 with
    | nil => simp at hh
    | cons c t =>
      simp only [List.head?_cons, Option.some.injEq] at hh
      subst hh
      unfold domainPattern
      rw [mem_run_seq]
      refine ⟨(prev, s), (mem_run_wordBoundary _ _).2 ⟨hb1, rfl⟩, ?_⟩
      rw [mem_run_seq]
      refine ⟨(some c, t ++ '.' :: (l2 ++ r)),
        (mem_run_cls _ _ _).2 ⟨c, t ++ '.' :: (l2 ++ r), hs, hc0, rfl⟩, ?_⟩
      rw [mem_run_seq]
      rcases List.eq_nil_or_concat t with ht | ⟨x, e, ht⟩
      · subst ht
        exact ⟨(some c, '.' :: (l2 ++ r)), (mem_run_opt _ _ _).2 (Or.inr rfl), htail⟩
      · rw [List.concat_eq_append] at ht
        subst ht
        rw [← List.cons_append, List.getLast?_concat] at hl
        simp only [Option.some.injEq] at hl
        subst hl
        refine ⟨(some e, '.' :: (l2 ++ r)), (mem_run_opt _ _ _).2 (Or.inl ?_), ?_⟩
        · rw [mem_run_seq]
          refine ⟨(lastOr (some c) x, e :: '.' :: (l2 ++ r)), (mem_run_count _ _ _ _ _ _).2
            ⟨x, e :: '.' :: (l2 ++ r), by simp, ?_, Nat.zero_le _, ?_, rfl⟩,
            (mem_run_cls _ _ _).2 ⟨e, '.' :: (l2 ++ r), rfl, hcl, rfl⟩⟩
          · intro a ha
            exact hl1 a (by simp [ha])
          · intro h hh
            cases hh
            simp only [List.length_cons, List.length_append, List.length_singleton,
              List.length_nil] at hlen1
            omega
        · have : lastOr none (c :: (x ++ [e])) = some e := by
            rw [← List.cons_append]
            exact lastOr_append_singleton _ _ _
          rw [this] at htail
          exact htail

theorem lower_is_word (c : Char) (h : c.isLower = true) : isWordChar c = true := by
  simp [isWordChar, Char.isAlphanum, Char.isAlpha, h]

theorem lower_is_label (c : Char) (h : c.isLower = true) : isLabelChar c = true := by
  simp [isLabelChar, h]

theorem lowerOrDigit_is_word (c : Char) (h : isLowerOrDigit c = true) : isWordChar c = true := by
  unfold isLowerOrDigit at h
  rcases Bool.or_eq_true_iff.1 h with h1 | h1
  · exact lower_is_word c h1
  · simp [isWordChar, Char.isAlphanum, h1]

theorem dot_not_label : isLabelChar '.' = false := by decide

theorem dot_not_mem_of_label (l : List Char) (h : ∀ c ∈ l, isLabelChar c = true) : '.' ∉ l := by
  intro hd
  have := h '.' hd
  rw [dot_not_label] at this
  exact absurd this (by simp)

theorem run_domain_nil_of_no_dot (prev : Option Char) (s : List Char) (h : '.' ∉ s) :
    domainPattern.run (prev, s) = [] := by
  rw [List.eq_nil_iff_forall_not_mem]
  intro st hst
  rw [mem_run_domain] at hst
  obtain ⟨l1, l2, r, hs, -⟩ := hst
  apply h
  rw [hs]
  simp

theorem matchLen_of_run_nil (re : Regex) (prev : Option Char) (s : List Char)
    (h : re.run (prev, s) = []) : re.matchLen prev s = none := by
  simp [Regex.matchLen, h]

/-! ## The scan of `ReplaceAllStringFunc` -/

theorem scan_skip (re : Regex) (repl : String → String) (x r : List Char) (prev : Option Char) :
    replaceFuncScan re repl prev x.length (x ++ r) =
      replaceFuncScan re repl (lastOr prev x) 0 r := by
  induction x generalizing prev with
  | nil => rfl
  | cons c x ih =>
    show replaceFuncScan re repl prev (x.length + 1) (c :: (x ++ r)) = _
    rw [replaceFuncScan]
    exact ih (some c)

/-- The scan copies a part of the text in which no match begins. -/
theorem scan_copy (re : Regex) (repl : String → String) (a r : List Char) (prev : Option Char)
    (h : ∀ a1 a2, a = a1 ++ a2 → a2 ≠ [] → re.run (lastOr prev a1, a2 ++ r) = []) :
    replaceFuncScan re repl prev 0 (a ++ r) =
      a ++ replaceFuncScan re repl (lastOr prev a) 0 r := by
  induction a generalizing prev with
  | nil => rfl
  | cons c a ih =>
    have h0 := matchLen_of_run_nil re prev (c :: a ++ r) (h [] (c :: a) rfl (by simp))
    show replaceFuncScan re repl prev 0 (c :: (a ++ r)) = _
    rw [replaceFuncScan]
    · rw [List.cons_append] at h0
      rw [h0]
      show c :: replaceFuncScan re repl (some c) 0 (a ++ r) = _
      rw [ih (some c)]
      · rfl
      · intro a1 a2 ha ha2
        exact h (c :: a1) a2 (by rw [ha]; rfl) ha2

theorem scan_copy_all (re : Regex) (repl : String → String) (s : List Char) (prev : Option Char)
    (h : ∀ p s1, re.run (p, s1) = [] ∨ ¬ s1 <:+ s) :
    replaceFuncScan re repl prev 0 s = s := by
  have h1 := scan_copy re repl s [] prev (by
    intro a1 a2 ha ha2
    rcases h (lastOr prev a1) (a2 ++ []) with h2 | h2
    · exact h2
    · exact absurd ⟨a1, by rw [List.append_nil, ha]⟩ h2)
  rw [List.append_nil] at h1
  rw [h1]
  cases s <;> simp [replaceFuncScan]

/-- The scan replaces a match that begins at the position. -/
theorem scan_match (re : Regex) (repl : String → String) (m r : List Char) (prev : Option Char)
    (hm : m ≠ []) (h : re.matchLen prev (m ++ r) = some m.length) :
    replaceFuncScan re repl prev 0 (m ++ r) =
      (repl ⟨m⟩).data ++ replaceFuncScan re repl (lastOr prev m) 0 r := by
  cases m with
  | nil => exact absurd rfl hm
  | cons c m =>
    show replaceFuncScan re repl prev 0 (c :: (m ++ r)) = _
    rw [replaceFuncScan]
    · rw [List.cons_append] at h
      rw [h]
      show (repl ⟨(c :: (m ++ r)).take (m.length + 1)⟩).data ++
        replaceFuncScan re repl (some c) m.length (m ++ r) = _
      rw [scan_skip]
      have : (c :: (m ++ r)).take (m.length + 1) = c :: m := by
        simp
      rw [this]
      rfl

/-! ## The match of the domain pattern at a position is unique -/

theorem lastOr_eq_getLast (p : Option Char) (l : List Char) :
    lastOr p l = l.getLast?.or p := by
  induction l generalizing p with
  | nil => rfl
  | cons c l ih =>
    show lastOr (some c) l = _
    rw [ih, List.getLast?_cons]
    cases l.getLast? <;> rfl

theorem lastOr_none (l : List Char) : lastOr none l = l.getLast? := by
  rw [lastOr_eq_getLast]
  cases l.getLast? <;> rfl

theorem split_at_dot (x y u v : List Char) (hx : '.' ∉ x) (hy : '.' ∉ y)
    (h : x ++ '.' :: u = y ++ '.' :: v) : x = y ∧ u = v := by
  induction x generalizing y with
  | nil =>
    cases y with
    | nil => simpa using h
    | cons d y =>
      simp only [List.nil_append, List.cons_append, List.cons.injEq] at h
      exact absurd (by rw [← h.1]; simp) hy
  | cons c x ih =>
    cases y with
    | nil =>
      simp only [List.nil_append, List.cons_append, List.cons.injEq] at h
      exact absurd (by rw [h.1]; simp) hx
    | cons d y =>
      simp only [List.cons_append, List.cons.injEq] at h
      obtain ⟨h1, h2⟩ := ih y (fun hm => hx (by simp [hm])) (fun hm => hy (by simp [hm])) h.2
      exact ⟨by rw [h.1, h1], h2⟩

theorem split_at_class (p : Char → Bool) (x y u v : List Char)
    (hx : ∀ c ∈ x, p c = true) (hy : ∀ c ∈ y, p c = true)
    (hu : ∀ c, u.head? = some c → p c = false) (hv : ∀ c, v.head? = some c → p c = false)
    (h : x ++ u = y ++ v) : x = y ∧ u = v := by
  have h1 : (x ++ u).takeWhile p = x := by
    rw [List.takeWhile_append_of_pos hx]
    cases u with
    | nil => simp
    | cons c u => simp [hu c rfl]
  have h2 : (y ++ v).takeWhile p = y := by
    rw [List.takeWhile_append_of_pos hy]
    cases v with
    | nil => simp
    | cons c v => simp [hv c rfl]
  have h3 : x = y := by rw [← h1, ← h2, h]
  subst h3
  exact ⟨rfl, List.append_cancel_left h⟩

theorem head_not_lower_of_boundary (l2 r : List Char) (hl2 : ∀ c ∈ l2, c.isLower = true)
    (hne : l2 ≠ []) (hb : atBoundary (lastOr none l2) r = true) :
    ∀ c, r.head? = some c → c.isLower = false := by
  intro c hc
  rw [lastOr_none] at hb
  obtain ⟨x, e, hxe⟩ : ∃ x e, l2 = x ++ [e] := by
    rcases List.eq_nil_or_concat l2 with h | ⟨x, e, h⟩
    · exact absurd h hne
    · exact ⟨x, e, by rw [h, List.concat_eq_append]⟩
  have he : isWordChar e = true := lower_is_word e (hl2 e (by rw [hxe]; simp))
  rw [hxe, List.getLast?_concat] at hb
  simp only [atBoundary, Option.elim, he, hc] at hb
  cases hl : c.isLower with
  | false => rfl
  | true =>
    rw [lower_is_word c hl] at hb
    simp at hb

/-- The length of the match of the domain pattern at a position where a word,
a dot and a word stand between two word boundaries. -/
theorem matchLen_domain (prev : Option Char) (l1 l2 r : List Char)
    (hw : isDomainWord l1 l2 = true)
    (hb1 : atBoundary prev (l1 ++ '.' :: (l2 ++ r)) = true)
    (hb2 : atBoundary (lastOr none l2) r = true) :
    domainPattern.matchLen prev (l1 ++ '.' :: (l2 ++ r)) = some (l1 ++ '.' :: l2).length := by
  have hmem : (lastOr none l2, r) ∈ domainPattern.run (prev, l1 ++ '.' :: (l2 ++ r)) :=
    (mem_run_domain _ _ _).2 ⟨l1, l2, r, rfl, hw, hb1, hb2, rfl⟩
  have hw0 := (isDomainWord_iff l1 l2).1 hw
  have hl2ne : l2 ≠ [] := by
    intro h0
    have := hw0.2.2.2.2.2
    rw [h0] at this
    simp at this
  cases hrun : domainPattern.run (prev, l1 ++ '.' :: (l2 ++ r)) with
  | nil =>
    rw [hrun] at hmem
    cases hmem
  | cons st rest =>
    have hst : st ∈ domainPattern.run (prev, l1 ++ '.' :: (l2 ++ r)) := by
      rw [hrun]
      simp
    rw [mem_run_domain] at hst
    obtain ⟨k1, k2, q, hs, hk, -, hq, rfl⟩ := hst
    have hk0 := (isDomainWord_iff k1 k2).1 hk
    have hk2ne : k2 ≠ [] := by
      intro h0
      have := hk0.2.2.2.2.2
      rw [h0] at this
      simp at this
    obtain ⟨-, h2⟩ := split_at_dot l1 k1 _ _ (dot_not_mem_of_label _ hw0.1)
      (dot_not_mem_of_label _ hk0.1) hs
    obtain ⟨-, h4⟩ := split_at_class Char.isLower l2 k2 r q hw0.2.2.2.2.1 hk0.2.2.2.2.1
      (head_not_lower_of_boundary l2 r hw0.2.2.2.2.1 hl2ne hb2)
      (head_not_lower_of_boundary k2 q hk0.2.2.2.2.1 hk2ne hq) h2
    subst h4
    simp only [Regex.matchLen, hrun, List.head?_cons, Option.map_some', Option.some.injEq,
      List.length_append, List.length_cons]
    omega

theorem isDomainLike_split (m : String) (h : isDomainLike m = true) :
    ∃ l1 l2, m.data = l1 ++ '.' :: l2 ∧ isDomainWord l1 l2 = true := by
  unfold isDomainLike at h
  rw [Bool.and_eq_true] at h
  obtain ⟨h1, h2⟩ := h
  refine ⟨_, _, ?_, h2⟩
  have h3 := List.takeWhile_append_dropWhile (fun c => c != '.') m.data
  cases hd : m.data.dropWhile (fun c => c != '.') with
  | nil =>
    rw [hd] at h1
    simp at h1
  | cons c rest =>
    rw [hd] at h1 h3
    simp only [List.head?_cons, beq_iff_eq, Option.some.injEq] at h1
    subst h1
    exact h3.symm

theorem redact_domain_word (t : Tokenizer) (m : String) (l1 l2 : List Char)
    (hm : m.data = l1 ++ '.' :: l2) (hw : isDomainWord l1 l2 = true)
    (hkey : t.reverse.get m = none) : t.redact m = "[REDACTED]" := by
  obtain ⟨-, -, ⟨c0, hh, hc0⟩, -⟩ := (isDomainWord_iff l1 l2).1 hw
  cases l1 with
  | nil => simp at hh
  | cons c l1 =>
    simp only [List.head?_cons, Option.some.injEq] at hh
    subst hh
    have hD : c ≠ 'D' := by
      intro h
      rw [h] at hc0
      exact absurd hc0 (by decide)
    have hH : c ≠ 'H' := by
      intro h
      rw [h] at hc0
      exact absurd hc0 (by decide)
    have hI : c ≠ 'I' := by
      intro h
      rw [h] at hc0
      exact absurd hc0 (by decide)
    have h1 : HasPrefix m "DOM_" = false := by
      simp only [HasPrefix, hm]
      show List.isPrefixOf ('D' :: _) (c :: _) = false
      simp [List.isPrefixOf, Ne.symm hD]
    have h2 : HasPrefix m "H_" = false := by
      simp only [HasPrefix, hm]
      show List.isPrefixOf ('H' :: _) (c :: _) = false
      simp [List.isPrefixOf, Ne.symm hH]
    have h3 : HasPrefix m "ID_" = false := by
      simp only [HasPrefix, hm]
      show List.isPrefixOf ('I' :: _) (c :: _) = false
      simp [List.isPrefixOf, Ne.symm hI]
    simp [Tokenizer.redact, hkey, h1, h2, h3]

/-- The guard on a text `a ++ m ++ b` where `m` is a word, a dot and a word of
the pattern between two word boundaries, and no match begins in `a`. -/
theorem strip_domain_word (t : Tokenizer) (a l1 l2 b : List Char)
    (hw : isDomainWord l1 l2 = true)
    (ha1 : '.' ∉ a)
    (ha2 : ∀ c, a.getLast? = some c → isWordChar c = false ∧ c ≠ '-')
    (hb : ∀ c, b.head? = some c → isWordChar c = false) :
    replaceFuncScan domainPattern t.redact none 0 (a ++ ((l1 ++ '.' :: l2) ++ b)) =
      a ++ ((t.redact ⟨l1 ++ '.' :: l2⟩).data ++
        replaceFuncScan domainPattern t.redact (l1 ++ '.' :: l2).getLast? 0 b) := by
  have hw0 := (isDomainWord_iff l1 l2).1 hw
  obtain ⟨hl1, -, ⟨c0, hh, hc0⟩, -, hl2, hlen2⟩ := hw0
  have hl2ne : l2 ≠ [] := by
    intro h0
    rw [h0] at hlen2
    simp at hlen2
  rw [scan_copy]
  · congr 1
    have hb1 : atBoundary (lastOr none a) (l1 ++ '.' :: (l2 ++ b)) = true := by
      cases l1 with
      | nil => simp at hh
      | cons c l1 =>
        simp only [List.head?_cons, Option.some.injEq] at hh
        subst hh
        rw [lastOr_none]
        cases hg : a.getLast? with
        | none => simp [atBoundary, lowerOrDigit_is_word c hc0]
        | some e => simp [atBoundary, lowerOrDigit_is_word c hc0, (ha2 e hg).1]
    have hb2 : atBoundary (lastOr none l2) b = true := by
      rw [lastOr_none]
      obtain ⟨x, e, hxe⟩ : ∃ x e, l2 = x ++ [e] := by
        rcases List.eq_nil_or_concat l2 with h | ⟨x, e, h⟩
        · exact absurd h hl2ne
        · exact ⟨x, e, by rw [h, List.concat_eq_append]⟩
      have he : isWordChar e = true := lower_is_word e (hl2 e (by rw [hxe]; simp))
      rw [hxe, List.getLast?_concat]
      cases hg : b.head? with
      | none => simp [atBoundary, he, hg]
      | some d => simp [atBoundary, he, hg, hb d hg]
    have hlen := matchLen_domain (lastOr none a) l1 l2 b hw hb1 hb2
    have happ : (l1 ++ '.' :: l2) ++ b = l1 ++ '.' :: (l2 ++ b) := by simp
    rw [← happ] at hlen
    rw [scan_match domainPattern t.redact (l1 ++ '.' :: l2) b (lastOr none a) (by simp) hlen]
    congr 2
    rw [lastOr_eq_getLast]
    have : (l1 ++ '.' :: l2).getLast? ≠ none := by simp
    cases hg : (l1 ++ '.' :: l2).getLast? with
    | none => exact absurd hg this
    | some e => rfl
  · intro a1 a2 ha ha2ne
    rw [List.eq_nil_iff_forall_not_mem]
    intro st hst
    rw [mem_run_domain] at hst
    obtain ⟨k1, k2, q, hs, hk, -⟩ := hst
    have hk0 := (isDomainWord_iff k1 k2).1 hk
    have hs2 : (a2 ++ l1) ++ '.' :: (l2 ++ b) = k1 ++ '.' :: (k2 ++ q) := by
      rw [← hs]
      simp
    have hnd : '.' ∉ a2 ++ l1 := by
      intro hmem
      rcases List.mem_append.1 hmem with h | h
      · exact ha1 (by rw [ha]; exact List.mem_append_right _ h)
      · exact dot_not_mem_of_label _ hl1 h
    obtain ⟨h1, -⟩ := split_at_dot _ _ _ _ hnd (dot_not_mem_of_label _ hk0.1) hs2
    obtain ⟨x, e, hxe⟩ : ∃ x e, a2 = x ++ [e] := by
      rcases List.eq_nil_or_concat a2 with h | ⟨x, e, h⟩
      · exact absurd h ha2ne
      · exact ⟨x, e, by rw [h, List.concat_eq_append]⟩
    have hlab : isLabelChar e = true := hk0.1 e (by rw [← h1, hxe]; simp)
    have hlast : a.getLast? = some e := by
      rw [ha, hxe, ← List.append_assoc, List.getLast?_concat]
    obtain ⟨hnw, hnd2⟩ := ha2 e hlast
    unfold isLabelChar at hlab
    rcases Bool.or_eq_true_iff.1 hlab with h | h
    · have := lowerOrDigit_is_word e h
      rw [hnw] at this
      exact absurd this (by simp)
    · exact hnd2 (by simpa using h)

theorem stripUnknownDomains_data (t : Tokenizer) (text : String) :
    (t.stripUnknownDomains text).data =
      replaceFuncScan domainPattern t.redact none 0 text.data := rfl

theorem strip_unchanged (t : Tokenizer) (text : String)
    (h : ∀ p s1, s1 <:+ text.data → domainPattern.run (p, s1) = []) :
    t.stripUnknownDomains text = text := by
  apply String.ext
  rw [stripUnknownDomains_data]
  apply scan_copy_all
  intro p s1
  by_cases hs : s1 <:+ text.data
  · exact Or.inl (h p s1 hs)
  · exact Or.inr hs

theorem elem_position (u w pre rest : List Char) (d : Char) (h : u ++ w = pre ++ d :: rest) :
    (∃ u2, u = pre ++ d :: u2 ∧ rest = u2 ++ w) ∨ (∃ w1, pre = u ++ w1 ∧ w = w1 ++ d :: rest) := by
  rcases List.append_eq_append_iff.1 h with ⟨a1, h1, h2⟩ | ⟨c1, h1, h2⟩
  · exact Or.inr ⟨a1, h1, h2⟩
  · cases c1 with
    | nil =>
      rw [List.append_nil] at h1
      rw [List.nil_append] at h2
      exact Or.inr ⟨[], by rw [h1, List.append_nil], by rw [← h2]; rfl⟩
    | cons e c1 =>
      simp only [List.cons_append, List.cons.injEq] at h2
      obtain ⟨rfl, h3⟩ := h2
      exact Or.inl ⟨c1, h1, h3⟩

theorem no_match_around_upper (a x b s1 : List Char) (p : Option Char)
    (hx : ∀ ch ∈ x, ch.isLower = false) (hlast : x.getLast? ≠ some '.')
    (ha : '.' ∉ a) (hb : '.' ∉ b) (hs : s1 <:+ a ++ (x ++ b)) :
    domainPattern.run (p, s1) = [] := by
  rw [List.eq_nil_iff_forall_not_mem]
  intro st hst
  rw [mem_run_domain] at hst
  obtain ⟨l1, l2, r, hs1, hw, -⟩ := hst
  obtain ⟨-, -, -, -, hl2, hlen2⟩ := (isDomainWord_iff l1 l2).1 hw
  obtain ⟨pre, hpre⟩ := hs
  cases l2 with
  | nil => simp at hlen2
  | cons c l2 =>
    have hc : c.isLower = true := hl2 c (by simp)
    have heq : a ++ (x ++ b) = (pre ++ l1) ++ '.' :: (c :: (l2 ++ r)) := by
      rw [← hpre, hs1]
      simp
    rcases elem_position _ _ _ _ _ heq with ⟨u2, h1, -⟩ | ⟨w1, -, h2⟩
    · exact ha (by rw [h1]; simp)
    · rcases elem_position _ _ _ _ _ h2 with ⟨u2, h3, h4⟩ | ⟨w2, -, h4⟩
      · cases u2 with
        | nil =>
          apply hlast
          rw [h3]
          exact List.getLast?_concat _
        | cons e u2 =>
          simp only [List.cons_append, List.cons.injEq] at h4
          obtain ⟨rfl, -⟩ := h4
          have := hx c (by rw [h3]; simp)
          rw [hc] at this
          exact absurd this (by simp)
      · exact hb (by rw [h4]; simp)

/-! ## The scan of `strings.ReplaceAll` and the restoration of tokens -/

theorem replaceScan_skip (old new x r : List Char) :
    replaceScan old new x.length (x ++ r) = replaceScan old new 0 r := by
  induction x with
  | nil => rfl
  | cons c x ih =>
    show replaceScan old new (x.length + 1) (c :: (x ++ r)) = _
    rw [replaceScan]
    exact ih

theorem replaceScan_absent (old new s : List Char) (h : containsL old s = false) :
    replaceScan old new 0 s = s := by
  induction s with
  | nil => rfl
  | cons c s ih =>
    simp only [containsL, Bool.or_eq_false_iff] at h
    rw [replaceScan]
    · rw [if_neg (by rw [h.1]; simp), ih h.2]

theorem ReplaceAll_absent (s old new : String) (h : Contains s old = false) :
    ReplaceAll s old new = s := by
  unfold ReplaceAll
  by_cases h1 : old = new
  · rw [if_pos h1]
  · rw [if_neg h1]
    by_cases h2 : old.data = []
    · exfalso
      unfold Contains at h
      rw [h2] at h
      cases hs : s.data with
      | nil => rw [hs] at h; simp [containsL] at h
      | cons c cs => rw [hs] at h; simp [containsL] at h
    · rw [if_neg h2]
      apply String.ext
      exact replaceScan_absent _ _ _ h

theorem replaceTokens_absent (l : List (String × String)) (s : String)
    (h : ∀ e ∈ l, Contains s e.1 = false) : replaceTokens l s = s := by
  induction l with
  | nil => rfl
  | cons e l ih =>
    show replaceTokens l (ReplaceAll s e.1 e.2) = s
    rw [ReplaceAll_absent s e.1 e.2 (h e (by simp))]
    exact ih (fun e1 h1 => h e1 (by simp [h1]))

theorem replaceTokens_append (l1 l2 : List (String × String)) (s : String) :
    replaceTokens (l1 ++ l2) s = replaceTokens l2 (replaceTokens l1 s) := by
  simp [replaceTokens, List.foldl_append]

/-- The scan replaces the occurrence of `old` that stands after `a` when no
occurrence begins before it and none lies in `b`. -/
theorem replaceScan_at (old new a b : List Char) (hold : old ≠ [])
    (h1 : containsL old (a ++ old.dropLast) = false) (h2 : containsL old b = false) :
    replaceScan old new 0 (a ++ (old ++ b)) = a ++ (new ++ b) := by
  induction a with
  | nil =>
    cases old with
    | nil => exact absurd rfl hold
    | cons c o =>
      show replaceScan (c :: o) new 0 (c :: (o ++ b)) = new ++ b
      rw [replaceScan]
      · have hp : (c :: o).isPrefixOf (c :: (o ++ b)) = true := by
          rw [List.isPrefixOf_iff_prefix]
          exact ⟨b, rfl⟩
        rw [if_pos hp]
        show new ++ replaceScan (c :: o) new o.length (o ++ b) = new ++ b
        rw [replaceScan_skip, replaceScan_absent _ _ _ h2]
  | cons c a ih =>
    have h3 : containsL old (c :: (a ++ old.dropLast)) = false := h1
    simp only [containsL, Bool.or_eq_false_iff] at h3
    have hp : old.isPrefixOf (c :: (a ++ (old ++ b))) = false := by
      cases hpp : old.isPrefixOf (c :: (a ++ (old ++ b))) with
      | false => rfl
      | true =>
        exfalso
        rw [List.isPrefixOf_iff_prefix] at hpp
        have hsplit : c :: (a ++ (old ++ b)) =
            (c :: (a ++ old.dropLast)) ++ (old.getLast hold :: b) := by
          conv_lhs => rw [← List.dropLast_append_getLast hold]
          simp
        have hpre : (c :: (a ++ old.dropLast)) <+: c :: (a ++ (old ++ b)) :=
          ⟨_, hsplit.symm⟩
        have hlen : old.length ≤ (c :: (a ++ old.dropLast)).length := by
          simp only [List.length_cons, List.length_append, List.length_dropLast]
          omega
        have := List.prefix_of_prefix_length_le hpp hpre hlen
        rw [← List.isPrefixOf_iff_prefix] at this
        rw [this] at h3
        exact absurd h3.1 (by simp)
    show replaceScan old new 0 (c :: (a ++ (old ++ b))) = c :: (a ++ (new ++ b))
    rw [replaceScan]
    · rw [if_neg (by rw [hp]; simp), ih h3.2]

theorem ReplaceAll_at (a k x b : String) (hk : k ≠ "")
    (h1 : containsL k.data (a.data ++ k.data.dropLast) = false)
    (h2 : Contains b k = false) :
    ReplaceAll (a ++ k ++ b) k x = a ++ x ++ b := by
  unfold ReplaceAll
  by_cases h0 : k = x
  · rw [if_pos h0, h0]
  · rw [if_neg h0]
    have hkd : k.data ≠ [] := by
      intro h
      exact hk (String.ext h)
    rw [if_neg hkd]
    apply String.ext
    simp only [String.data_append, List.append_assoc]
    exact replaceScan_at _ _ _ _ hkd h1 h2

theorem GoMap.mem_of_get (m : GoMap) (k v : String) (h : m.get k = some v) : (k, v) ∈ m := by
  induction m with
  | nil => simp [GoMap.get] at h
  | cons e m ih =>
    obtain ⟨k0, v0⟩ := e
    by_cases h0 : k0 = k
    · simp only [GoMap.get, h0, if_true, Option.some.injEq] at h
      subst h0 h
      simp
    · simp only [GoMap.get, h0, if_false] at h
      exact List.mem_cons_of_mem _ (ih h)

/-- The loop of `Detokenize` restores a token in a text where no other token of
the table occurs, before and after the restoration. -/
theorem replaceTokens_at (order : List (String × String)) (k x a b : String)
    (hmem : (k, x) ∈ order) (hnodup : (order.map Prod.fst).Nodup) (hk : k ≠ "")
    (h1 : containsL k.data (a.data ++ k.data.dropLast) = false)
    (h2 : Contains b k = false)
    (hother : ∀ e ∈ order, e.1 ≠ k →
      Contains (a ++ k ++ b) e.1 = false ∧ Contains (a ++ x ++ b) e.1 = false) :
    replaceTokens order (a ++ k ++ b) = a ++ x ++ b := by
  obtain ⟨pre, post, hsplit⟩ := List.append_of_mem hmem
  subst hsplit
  rw [List.map_append, List.map_cons, List.nodup_append] at hnodup
  obtain ⟨-, hnd2, hdisj⟩ := hnodup
  have hpre : ∀ e ∈ pre, e.1 ≠ k := by
    intro e he h
    exact hdisj (List.mem_map_of_mem Prod.fst he) (by rw [h]; simp)
  have hpost : ∀ e ∈ post, e.1 ≠ k := by
    intro e he h
    rw [List.nodup_cons] at hnd2
    have hm := List.mem_map_of_mem Prod.fst he
    rw [h] at hm
    exact hnd2.1 hm
  rw [replaceTokens_append]
  rw [replaceTokens_absent pre _ (fun e he => (hother e (by simp [he]) (hpre e he)).1)]
  show replaceTokens post (ReplaceAll (a ++ k ++ b) k x) = _
  rw [ReplaceAll_at a k x b hk h1 h2]
  exact replaceTokens_absent post _ (fun e he => (hother e (by simp [he]) (hpost e he)).2)

/-! ## Collisions of tokens -/

theorem Sum256_two_bytes (msg : List Nat) :
    ∃ b0 b1 rest, Sha256.Sum256 msg = b0 :: b1 :: rest ∧ b0 < 256 ∧ b1 < 256 := by
  unfold Sha256.Sum256
  have h := digestWords_length msg
  match Sha256.digestWords msg, h with
  | [w, _, _, _, _, _, _, _], _ =>
    exact ⟨w / 16777216 % 256, w / 65536 % 256, _, rfl, Nat.mod_lt _ (by decide),
      Nat.mod_lt _ (by decide)⟩

/-- The suffix of a token is one of 65536 strings. -/
theorem tokenSuffix_range (tbl : Char → Char) (input salt : String) :
    ∃ n, n < 65536 ∧ tokenSuffix tbl input salt = suffixOfNat tbl n := by
  obtain ⟨b0, b1, rest, hd, h0, h1⟩ := Sum256_two_bytes (bytesOf (input ++ salt))
  refine ⟨b0 * 256 + b1, by omega, ?_⟩
  unfold tokenSuffix suffixOfNat
  rw [hd]
  have e1 : (b0 * 256 + b1) / 4096 % 16 = b0 / 16 := by omega
  have e2 : (b0 * 256 + b1) / 256 % 16 = b0 % 16 := by omega
  have e3 : (b0 * 256 + b1) / 16 % 16 = b1 / 16 := by omega
  have e4 : (b0 * 256 + b1) % 16 = b1 % 16 := by omega
  rw [e1, e2, e3, e4]
  rfl

/-- The tokens of a run of calls whose normalized identifiers are non-empty,
pairwise distinct and absent from the table: each call receives its own
prefix and the suffix of its identifier. -/
theorem tokens_of_fresh (tbl : Char → Char) (cs : List Call) (t : Tokenizer)
    (hne : ∀ c ∈ cs, c.ident ≠ "")
    (hnodup : (cs.map (fun c => c.key tbl)).Nodup)
    (hfresh : ∀ c ∈ cs, t.mapping.get (c.key tbl) = none) :
    t.tokens tbl cs = cs.map (fun c => c.pfx ++ tokenSuffix tbl (c.key tbl) t.salt) := by
  induction cs generalizing t with
  | nil => rfl
  | cons c cs ih =>
    have hc : c.ident ≠ "" := hne c (by simp)
    have hf : t.mapping.get (c.key tbl) = none := hfresh c (by simp)
    rw [List.map_cons, List.nodup_cons] at hnodup
    show (t.call tbl c).1 :: (t.call tbl c).2.tokens tbl cs = _
    rw [ih (t.call tbl c).2 (fun d hd => hne d (by simp [hd])) hnodup.2, call_salt]
    · rw [List.map_cons]
      congr 1
      rw [call_eq]
      simp only [hc, if_false]
      rw [generateToken_miss _ _ _ _ hf]
    · intro d hd
      rw [call_mapping_get _ _ _ hc, hfresh d (by simp [hd])]
      have hkd : c.key tbl ≠ d.key tbl := by
        intro h
        apply hnodup.1
        rw [h]
        exact List.mem_map_of_mem (fun c => c.key tbl) hd
      simp [hkd]

/-- A list without duplicates whose elements are tokens of one prefix has at
most 65536 elements. -/
theorem tokens_length_le (tbl : Char → Char) (p : String) (l : List String)
    (hl : ∀ x ∈ l, ∃ input salt, x = p ++ tokenSuffix tbl input salt) (hnd : l.Nodup) :
    l.length ≤ 65536 := by
  have hsub : l.toFinset ⊆ (Finset.range 65536).image (fun n => p ++ suffixOfNat tbl n) := by
    intro x hx
    rw [List.mem_toFinset] at hx
    obtain ⟨input, salt, rfl⟩ := hl x hx
    obtain ⟨n, hn, hs⟩ := tokenSuffix_range tbl input salt
    rw [Finset.mem_image]
    exact ⟨n, Finset.mem_range.2 hn, by rw [hs]⟩
  have h1 := Finset.card_le_card hsub
  rw [List.toFinset_card_of_nodup hnd] at h1
  have h2 := Finset.card_image_le (s := Finset.range 65536)
    (f := fun n => p ++ suffixOfNat tbl n)
  rw [Finset.card_range] at h2
  omega

theorem manyIdents_length (n : Nat) : (manyIdents n).length = n := by
  simp [manyIdents]

theorem manyIdents_ne (n : Nat) : ∀ x ∈ manyIdents n, x ≠ "" := by
  intro x hx h
  rw [manyIdents, List.mem_map] at hx
  obtain ⟨i, -, rfl⟩ := hx
  have := congrArg String.data h
  simp at this

theorem manyIdents_keys_nodup (tbl : Char → Char) (n : Nat) :
    ((manyIdents n).map (fun x => (Call.user "").withIdent x |>.key tbl)).Nodup := by
  rw [manyIdents, List.map_map]
  apply List.Nodup.map_on _ (List.nodup_range n)
  intro i _ j _ h
  have h1 := congrArg (fun s : String => s.data.length) h
  simp only [Function.comp, Call.withIdent, Call.key, Call.ident, ToUpper_length,
    List.length_replicate] at h1
  omega

/-! ## Further behaviour of `Detokenize`, evaluated -/

/-- Every order of visit of the table gives a result of `Detokenize`. -/
theorem Detokenize_of_order (t : Tokenizer) (order : List (String × String)) (text : String)
    (h : order.Perm t.reverse) : t.Detokenize text (t.DetokenizeIn order text) :=
  ⟨order, h, rfl⟩

/-- `Detokenize` returns a result on every text. -/
theorem Detokenize_total (t : Tokenizer) (text : String) : ∃ out, t.Detokenize text out :=
  ⟨_, Detokenize_of_order t t.reverse text (List.Perm.refl _)⟩

/-- A match of the domain pattern has at least 4 characters, so the pattern has
no empty match. -/
theorem domain_match_length (prev : Option Char) (s : List Char) (n : Nat)
    (h : domainPattern.matchLen prev s = some n) : 4 ≤ n := by
  unfold Regex.matchLen at h
  cases hrun : domainPattern.run (prev, s) with
  | nil =>
    rw [hrun] at h
    simp at h
  | cons st rest =>
    have hst : st ∈ domainPattern.run (prev, s) := by
      rw [hrun]
      simp
    rw [hrun] at h
    simp only [List.head?_cons, Option.map_some', Option.some.injEq] at h
    rw [mem_run_domain] at hst
    obtain ⟨l1, l2, r, hs, hw, -, -, rfl⟩ := hst
    obtain ⟨-, -, ⟨c0, hh, -⟩, -, -, hlen2⟩ := (isDomainWord_iff l1 l2).1 hw
    cases l1 with
    | nil => simp at hh
    | cons c l1 =>
      rw [hs] at h
      simp only [List.length_append, List.length_cons] at h
      omega

/-- The guard on lower-case texts that contain a string of the form of the
pattern which is not replaced as such: a second dot-separated pair after a
match, a pair followed by a word character, a pair preceded by a word
character, and a first label of more than 63 characters. -/
theorem guard_examples :
    NewTokenizer.stripUnknownDomains "a.bc.de" = "[REDACTED].de" ∧
    NewTokenizer.stripUnknownDomains "ab.cd1" = "ab.cd1" ∧
    NewTokenizer.stripUnknownDomains "x_ab.cd" = "x_ab.cd" ∧
    NewTokenizer.stripUnknownDomains "www.evil-site.co.uk" = "[REDACTED]-[REDACTED].uk" ∧
    NewTokenizer.stripUnknownDomains (⟨List.replicate 64 'a'⟩ ++ ".com") =
      ⟨List.replicate 64 'a'⟩ ++ ".com" := by
  decide

/-- The result of `Detokenize` can depend on the order in which the table
token → real is visited: the token of the user `user13` ends in `D`, so in the
text `ID_U_A2CDOM_BFD3` it overlaps the token of the domain `corp.local`. -/
theorem Detokenize_order_matters :
    (NewTokenizer.run asciiOnly [.user "user13", .domain "corp.local"]).reverse =
      [("ID_U_A2CD", "USER13"), ("DOM_BFD3", "CORP.LOCAL")] ∧
    (NewTokenizer.run asciiOnly [.user "user13", .domain "corp.local"]).DetokenizeIn
      [("ID_U_A2CD", "USER13"), ("DOM_BFD3", "CORP.LOCAL")] "ID_U_A2CDOM_BFD3" =
      "USER13OM_BFD3" ∧
    (NewTokenizer.run asciiOnly [.user "user13", .domain "corp.local"]).DetokenizeIn
      [("DOM_BFD3", "CORP.LOCAL"), ("ID_U_A2CD", "USER13")] "ID_U_A2CDOM_BFD3" =
      "ID_U_A2CCORP.LOCAL" := by
  decide

/-! ## The sampler: the loops as filters and a prefix -/

theorem categorize_eq (ltbl : Char → Char) (nodes : List Node) (b : Buckets) :
    categorize ltbl nodes b =
      { controlBased := b.controlBased ++ nodes.filter (isControlBased ltbl)
        highValue := b.highValue ++ nodes.filter (isHighValue ltbl)
        regular := b.regular ++ nodes.filter (isRegular ltbl)
        builtInAdmins := b.builtInAdmins ++ nodes.filter (isBuiltInAdmin ltbl) } := by
  induction nodes generalizing b with
  | nil => simp [categorize]
  | cons n rest ih =>
    unfold categorize
    cases h1 : isBuiltInAdmin ltbl n with
    | true =>
      simp [ih, isControlBased, isHighValue, isRegular, h1, List.filter]
    | false =>
      cases h2 : hasControlIndicators ltbl n with
      | true =>
        simp [ih, isControlBased, isHighValue, isRegular, h1, h2, List.filter]
      | false =>
        cases h3 : (n.Properties.AdminCount || n.Properties.HighValue) with
        | true =>
          simp [ih, isControlBased, isHighValue, isRegular, h1, h2, h3, List.filter]
        | false =>
          simp [ih, isControlBased, isHighValue, isRegular, h1, h2, h3, List.filter]

theorem fillFrom_eq (c : Nat) (src result : List Node) :
    fillFrom (c : Int) src result = result ++ src.take (c - result.length) := by
  induction src generalizing result with
  | nil => simp [fillFrom]
  | cons n rest ih =>
    unfold fillFrom
    by_cases h : (result.length : Int) ≥ (c : Int)
    · rw [if_pos h]
      have h1 : c - result.length = 0 := by omega
      rw [h1]
      simp
    · rw [if_neg h, ih]
      have h1 : c - result.length = (c - (result ++ [n]).length) + 1 := by
        simp only [List.length_append, List.length_singleton]
        omega
      rw [h1, List.take_succ_cons]
      simp

theorem fillFrom_take (c : Nat) (src acc : List Node) :
    fillFrom (c : Int) src (acc.take c) = (acc ++ src).take c := by
  rw [fillFrom_eq, List.take_append_eq_append_take, List.length_take]
  congr 2
  omega

/-- The result of `sampleNodes` when sampling applies and the cap is not
negative: the first `maxCount` nodes in the order of the tiers. -/
theorem sampleNodes_eq_take (ltbl : Char → Char) (nodes : List Node) (maxCount : Int)
    (h1 : maxCount < nodes.length) (h2 : 0 ≤ maxCount) :
    sampleNodes ltbl nodes maxCount = some ((byTier ltbl nodes).take maxCount.toNat) := by
  unfold sampleNodes
  rw [if_neg (by omega), if_neg (by omega)]
  obtain ⟨c, rfl⟩ := Int.eq_ofNat_of_zero_le h2
  simp only [categorize_eq, List.nil_append, Int.toNat_ofNat, byTier]
  have h0 : fillFrom (c : Int) (nodes.filter (isControlBased ltbl)) [] =
      (nodes.filter (isControlBased ltbl)).take c := by
    have := fillFrom_take c (nodes.filter (isControlBased ltbl)) []
    simpa using this
  rw [h0, fillFrom_take, fillFrom_take, fillFrom_take]

theorem sampleNodes_all (ltbl : Char → Char) (nodes : List Node) (maxCount : Int)
    (h : (nodes.length : Int) ≤ maxCount) : sampleNodes ltbl nodes maxCount = some nodes := by
  unfold sampleNodes
  rw [if_pos h]

theorem sampleNodes_negative (ltbl : Char → Char) (nodes : List Node) (maxCount : Int)
    (h : maxCount < 0) : sampleNodes ltbl nodes maxCount = none := by
  unfold sampleNodes
  rw [if_neg (by omega), if_pos h]

theorem tier_cases (ltbl : Char → Char) (n : Node) :
    isControlBased ltbl n = true ∨ isHighValue ltbl n = true ∨ isRegular ltbl n = true ∨
      isBuiltInAdmin ltbl n = true := by
  unfold isControlBased isHighValue isRegular
  cases isBuiltInAdmin ltbl n <;> cases hasControlIndicators ltbl n <;>
    cases (n.Properties.AdminCount || n.Properties.HighValue) <;> simp

theorem mem_byTier (ltbl : Char → Char) (nodes : List Node) (n : Node) :
    n ∈ byTier ltbl nodes ↔ n ∈ nodes := by
  unfold byTier
  simp only [List.mem_append, List.mem_filter]
  constructor
  · rintro (((h | h) | h) | h) <;> exact h.1
  · intro h
    rcases tier_cases ltbl n with h1 | h1 | h1 | h1
    · exact Or.inl (Or.inl (Or.inl ⟨h, h1⟩))
    · exact Or.inl (Or.inl (Or.inr ⟨h, h1⟩))
    · exact Or.inl (Or.inr ⟨h, h1⟩)
    · exact Or.inr ⟨h, h1⟩

/-! ## The sanitizer: the loops as truncations -/

theorem summaries_length (body : Int → Tokenizer → Node → SanitizedEntity × Tokenizer)
    (i : Int) (t : Tokenizer) (nodes : List Node) :
    (summaries body i t nodes).1.length = nodes.length := by
  induction nodes generalizing i t with
  | nil => rfl
  | cons n rest ih =>
    show ((body i t n).1 :: (summaries body (i + 1) (body i t n).2 rest).1).length = _
    rw [List.length_cons, ih, List.length_cons]

/-- A loop of the sanitizer handles the first nodes of the list, as many as
the counter leaves room for. -/
theorem sanitizeLoop_eq (body : Int → Tokenizer → Node → SanitizedEntity × Tokenizer)
    (maxEntitiesPerType : Int) (nodes : List Node) (st : LoopState) :
    sanitizeLoop body maxEntitiesPerType nodes st =
      { tokenizer :=
          (summaries body st.count st.tokenizer
            (nodes.take (maxEntitiesPerType - st.count).toNat)).2
        entities := st.entities ++
          (summaries body st.count st.tokenizer
            (nodes.take (maxEntitiesPerType - st.count).toNat)).1
        count := st.count + ((nodes.take (maxEntitiesPerType - st.count).toNat).length : Int) } := by
  induction nodes generalizing st with
  | nil => simp [sanitizeLoop, summaries]
  | cons n rest ih =>
    unfold sanitizeLoop
    by_cases h : st.count ≥ maxEntitiesPerType
    · rw [if_pos h]
      have h0 : (maxEntitiesPerType - st.count).toNat = 0 := by omega
      rw [h0]
      simp [summaries]
    · rw [if_neg h, ih]
      have h1 : (maxEntitiesPerType - st.count).toNat =
          (maxEntitiesPerType - (st.count + 1)).toNat + 1 := by omega
      rw [h1, List.take_succ_cons]
      simp only [summaries, List.length_cons, List.append_assoc, List.singleton_append,
        Nat.cast_add, Nat.cast_one]
      congr 1
      omega

theorem afterUsers_eq (tbl : Char → Char) (now : Int → Int) (data : BloodHoundData)
    (t : Tokenizer) (m : Int) :
    afterUsers tbl now data t m =
      { tokenizer := (summaries (fun i => userEntity tbl (now i)) 0 t (data.Users.take m.toNat)).2
        entities := (summaries (fun i => userEntity tbl (now i)) 0 t (data.Users.take m.toNat)).1
        count := ((data.Users.take m.toNat).length : Int) } := by
  unfold afterUsers
  rw [sanitizeLoop_eq]
  simp

theorem afterGroups_eq (tbl : Char → Char) (now : Int → Int) (data : BloodHoundData)
    (t : Tokenizer) (m : Int) :
    afterGroups tbl now data t m =
      { tokenizer := (summaries (fun _ => groupEntity tbl) 0 (afterUsers tbl now data t m).tokenizer
          (data.Groups.take m.toNat)).2
        entities := (afterUsers tbl now data t m).entities ++
          (summaries (fun _ => groupEntity tbl) 0 (afterUsers tbl now data t m).tokenizer
            (data.Groups.take m.toNat)).1
        count := ((data.Groups.take m.toNat).length : Int) } := by
  unfold afterGroups
  rw [sanitizeLoop_eq]
  simp

theorem afterComputers_eq (tbl : Char → Char) (now : Int → Int) (data : BloodHoundData)
    (t : Tokenizer) (m : Int) :
    afterComputers tbl now data t m =
      { tokenizer := (summaries (fun _ => computerEntity tbl) 0 (afterGroups tbl now data t m).tokenizer
          (data.Computers.take m.toNat)).2
        entities := (afterGroups tbl now data t m).entities ++
          (summaries (fun _ => computerEntity tbl) 0 (afterGroups tbl now data t m).tokenizer
            (data.Computers.take m.toNat)).1
        count := ((data.Computers.take m.toNat).length : Int) } := by
  unfold afterComputers
  rw [sanitizeLoop_eq]
  simp

/-- The entities of the payload: the users, then the groups, then the
computers, of each kind the first ones of the list of the graph. -/
theorem sanitize_entities (tbl : Char → Char) (now : Int → Int) (data : BloodHoundData)
    (t : Tokenizer) (m : Int) :
    (SanitizeBloodHoundData tbl now data t m).1.Entities =
      (summaries (fun i => userEntity tbl (now i)) 0 t (data.Users.take m.toNat)).1 ++
        (summaries (fun _ => groupEntity tbl) 0
          (summaries (fun i => userEntity tbl (now i)) 0 t (data.Users.take m.toNat)).2
          (data.Groups.take m.toNat)).1 ++
        (summaries (fun _ => computerEntity tbl) 0
          (summaries (fun _ => groupEntity tbl) 0
            (summaries (fun i => userEntity tbl (now i)) 0 t (data.Users.take m.toNat)).2
            (data.Groups.take m.toNat)).2
          (data.Computers.take m.toNat)).1 := by
  show (afterComputers tbl now data t m).entities = _
  rw [afterComputers_eq, afterGroups_eq, afterUsers_eq]

theorem summaries_all (body : Int → Tokenizer → Node → SanitizedEntity × Tokenizer)
    (P : SanitizedEntity → Prop) (h : ∀ i t n, P (body i t n).1) (i : Int) (t : Tokenizer)
    (nodes : List Node) : ∀ e ∈ (summaries body i t nodes).1, P e := by
  induction nodes generalizing i t with
  | nil =>
    intro e he
    simp [summaries] at he
  | cons n rest ih =>
    intro e he
    simp only [summaries, List.mem_cons] at he
    rcases he with rfl | he
    · exact h i t n
    · exact ih _ _ e he

/-! ## The relative age and the shape of the tokens of the payload -/

/-- The result of `formatRelativeAge` is one of the relative ages. -/
theorem formatRelativeAge_bucket (now ts : Int) : IsAgeBucket (formatRelativeAge now ts) := by
  unfold formatRelativeAge IsAgeBucket
  by_cases h0 : ts = 0
  · rw [if_pos h0]
    exact Or.inl rfl
  · rw [if_neg h0]
    by_cases h1 : wrap64 (now - ts) < 0
    · rw [if_pos h1]
      exact Or.inr (Or.inl rfl)
    · rw [if_neg h1]
      by_cases h2 : wrap64 (now - ts) / 86400 = 0
      · rw [if_pos h2]
        exact Or.inr (Or.inr (Or.inl rfl))
      · rw [if_neg h2]
        by_cases h3 : wrap64 (now - ts) / 86400 = 1
        · rw [if_pos h3]
          exact Or.inr (Or.inr (Or.inr (Or.inl rfl)))
        · rw [if_neg h3]
          right; right; right; right
          by_cases h4 : wrap64 (now - ts) / 86400 < 30
          · rw [if_pos h4]
            exact ⟨_, by omega, Or.inl rfl⟩
          · rw [if_neg h4]
            by_cases h5 : wrap64 (now - ts) / 86400 < 365
            · rw [if_pos h5]
              exact ⟨_, by omega, Or.inr (Or.inl rfl)⟩
            · rw [if_neg h5]
              exact ⟨_, by omega, Or.inr (Or.inr rfl)⟩

theorem formatRelativeAge_future (now ts : Int) (hnow : 0 ≤ now)
    (hts : ts < 9223372036854775808) (h : now < ts) : formatRelativeAge now ts = "future" := by
  unfold formatRelativeAge
  rw [if_neg (by omega), if_pos]
  unfold wrap64
  omega

theorem upperHex_of_digit (tbl : Char → Char) (k : Nat) (hk : k < 16) :
    isUpperHex (upperRune tbl (hexDigit k)) = true := by
  interval_cases k <;> rfl

theorem tokenSuffix_upperHex (tbl : Char → Char) (input salt : String) :
    ∀ c ∈ (tokenSuffix tbl input salt).data, isUpperHex c = true := by
  obtain ⟨n, -, hs⟩ := tokenSuffix_range tbl input salt
  rw [hs]
  intro c hc
  simp only [suffixOfNat, ToUpper_data, List.map_cons, List.map_nil, List.mem_cons,
    List.not_mem_nil, or_false] at hc
  rcases hc with rfl | rfl | rfl | rfl <;> exact upperHex_of_digit tbl _ (by omega)

theorem pfx_mem_kindPrefixes (c : Call) : c.pfx ∈ kindPrefixes := by
  cases c with
  | computer s tier =>
    show tierPfx tier ∈ kindPrefixes
    unfold tierPfx
    by_cases h0 : tier = 0
    · rw [if_pos h0]
      decide
    · rw [if_neg h0]
      by_cases h1 : tier = 1
      · rw [if_pos h1]
        decide
      · rw [if_neg h1]
        decide
  | _ => simp [Call.pfx, kindPrefixes]

theorem isTokenShape_token (tbl : Char → Char) (p input salt : String) (hp : p ∈ kindPrefixes) :
    isTokenShape (p ++ tokenSuffix tbl input salt) = true := by
  unfold isTokenShape
  rw [List.any_eq_true]
  refine ⟨p, hp, ?_⟩
  have hd : (p ++ tokenSuffix tbl input salt).data.drop p.data.length =
      (tokenSuffix tbl input salt).data := by
    rw [String.data_append, List.drop_left]
  rw [hd, HasPrefix_append, tokenSuffix_length]
  simp only [Bool.true_and, beq_self_eq_true, List.all_eq_true]
  exact tokenSuffix_upperHex tbl input salt

/-- A call returns the empty string or a token of the right shape, and keeps the
tokens of the table real → token of that shape. -/
theorem call_shape (tbl : Char → Char) (t : Tokenizer) (c : Call)
    (hinv : ∀ k v, t.mapping.get k = some v → isTokenShape v = true) :
    ((t.call tbl c).1 = "" ∨ isTokenShape (t.call tbl c).1 = true) ∧
      (∀ k v, (t.call tbl c).2.mapping.get k = some v → isTokenShape v = true) := by
  by_cases hc : c.ident = ""
  · rw [call_empty _ _ _ hc]
    exact ⟨Or.inl rfl, hinv⟩
  · constructor
    · right
      have h1 := call_fst t tbl c hc
      rw [call_mapping_get _ _ _ hc] at h1
      cases hg : t.mapping.get (c.key tbl) with
      | some v =>
        rw [hg] at h1
        simp only [Option.some.injEq] at h1
        rw [← h1]
        exact hinv _ _ hg
      | none =>
        rw [hg] at h1
        simp only [if_true, Option.some.injEq] at h1
        rw [← h1]
        exact isTokenShape_token tbl _ _ _ (pfx_mem_kindPrefixes c)
    · intro k v hk
      rw [call_mapping_get _ _ _ hc] at hk
      cases hg : t.mapping.get k with
      | some w =>
        rw [hg] at hk
        simp only [Option.some.injEq] at hk
        rw [← hk]
        exact hinv _ _ hg
      | none =>
        rw [hg] at hk
        by_cases hkk : c.key tbl = k
        · simp only [hkk, if_true, Option.some.injEq] at hk
          rw [← hk]
          exact isTokenShape_token tbl _ _ _ (pfx_mem_kindPrefixes c)
        · simp [hkk] at hk

/-- A property of the entities that holds for each loop body, together with an
invariant of the Tokenizer, holds for all the entities of a loop. -/
theorem summaries_inv (body : Int → Tokenizer → Node → SanitizedEntity × Tokenizer)
    (I : Tokenizer → Prop) (P : SanitizedEntity → Prop)
    (h : ∀ i t n, I t → P (body i t n).1 ∧ I (body i t n).2) (i : Int) (t : Tokenizer)
    (ht : I t) (nodes : List Node) :
    (∀ e ∈ (summaries body i t nodes).1, P e) ∧ I (summaries body i t nodes).2 := by
  induction nodes generalizing i t with
  | nil =>
    exact ⟨fun e he => by simp [summaries] at he, ht⟩
  | cons n rest ih =>
    obtain ⟨h1, h2⟩ := h i t n ht
    obtain ⟨h3, h4⟩ := ih (i + 1) (body i t n).2 h2
    refine ⟨?_, h4⟩
    intro e he
    simp only [summaries, List.mem_cons] at he
    rcases he with rfl | he
    · exact h1
    · exact h3 e he

theorem sanitizeLoop_scrub (body : Int → Tokenizer → Node → SanitizedEntity × Tokenizer)
    (h : ∀ i t n, body i t (scrub n) = body i t n) (m : Int) (nodes : List Node)
    (st : LoopState) :
    sanitizeLoop body m (nodes.map scrub) st = sanitizeLoop body m nodes st := by
  induction nodes generalizing st with
  | nil => rfl
  | cons n rest ih =>
    simp only [List.map_cons, sanitizeLoop, h, ih]

/-- The payload of a graph is the payload of the graph reduced to what the
sanitizer reads. -/
theorem sanitize_scrub (tbl : Char → Char) (now : Int → Int) (data : BloodHoundData)
    (t : Tokenizer) (m : Int) :
    SanitizeBloodHoundData tbl now (scrubGraph data) t m =
      SanitizeBloodHoundData tbl now data t m := by
  have hu : afterUsers tbl now (scrubGraph data) t m = afterUsers tbl now data t m :=
    sanitizeLoop_scrub (fun i => userEntity tbl (now i)) (fun _ _ _ => rfl) m data.Users _
  have hg : afterGroups tbl now (scrubGraph data) t m = afterGroups tbl now data t m := by
    unfold afterGroups
    rw [hu]
    exact sanitizeLoop_scrub (fun _ => groupEntity tbl) (fun _ _ _ => rfl) m data.Groups _
  have hc : afterComputers tbl now (scrubGraph data) t m = afterComputers tbl now data t m := by
    unfold afterComputers
    rw [hg]
    exact sanitizeLoop_scrub (fun _ => computerEntity tbl) (fun _ _ _ => rfl) m data.Computers _
  unfold SanitizeBloodHoundData
  rw [hu, hg, hc]

/-- Beyond the range of the 64-bit difference the comparison with the present
fails: a time stamp later than a clock far before 1970 is given an age in
years. -/
theorem formatRelativeAge_wraps :
    formatRelativeAge (-9223372036854775803) 10 = "~292471208677 years" := by
  decide

/-- A disabled user without an elevated flag and with a name that matches no
pattern is placed in the list `controlBased`: the source tests only the
`Enabled` flag there. -/
theorem disabled_plain_in_control_tier :
    (categorize asciiOnly [mkNode "bob" false false false, mkNode "carol" true false false]
      ⟨[], [], [], []⟩).controlBased = [mkNode "bob" false false false] ∧
    sampleNodes asciiOnly [mkNode "carol" true true true, mkNode "bob" false false false] 1 =
      some [mkNode "bob" false false false] := by
  decide

/-! ## The persistence of the mapping: the two tables -/

theorem GoMap.get_eq_none_iff (m : GoMap) (k : String) :
    m.get k = none ↔ k ∉ m.map Prod.fst := by
  induction m with
  | nil => simp [GoMap.get]
  | cons e m ih =>
    obtain ⟨k0, v0⟩ := e
    by_cases h0 : k0 = k
    · simp [GoMap.get, h0]
    · simp only [GoMap.get, h0, if_false, ih, List.map_cons, List.mem_cons, not_or]
      constructor
      · intro h
        exact ⟨fun h1 => h0 h1.symm, h⟩
      · intro h
        exact h.2

theorem GoMap.get_of_mem (m : GoMap) (k v : String) (hn : m.keysNodup) (h : (k, v) ∈ m) :
    m.get k = some v := by
  induction m with
  | nil => simp at h
  | cons e m ih =>
    obtain ⟨k0, v0⟩ := e
    unfold GoMap.keysNodup at hn
    rw [List.map_cons, List.nodup_cons] at hn
    rcases List.mem_cons.1 h with h1 | h1
    · simp only [Prod.mk.injEq] at h1
      obtain ⟨rfl, rfl⟩ := h1
      simp [GoMap.get]
    · have hk : k0 ≠ k := by
        rintro rfl
        exact hn.1 (List.mem_map.2 ⟨(k0, v), h1, rfl⟩)
      simp only [GoMap.get, hk, if_false]
      exact ih hn.2 h1

theorem GoMap.get_perm (m1 m2 : GoMap) (hp : m1.Perm m2) (hn : m1.keysNodup) (k : String) :
    m1.get k = m2.get k := by
  have hn2 : m2.keysNodup := (hp.map Prod.fst).nodup_iff.1 hn
  cases h : m1.get k with
  | none =>
    symm
    rw [GoMap.get_eq_none_iff] at h ⊢
    intro hk
    exact h ((hp.map Prod.fst).mem_iff.2 hk)
  | some v =>
    exact (GoMap.get_of_mem m2 k v hn2 (hp.mem_iff.1 (GoMap.mem_of_get m1 k v h))).symm

theorem GoMap.set_of_not_mem (m : GoMap) (k v : String) (h : k ∉ m.map Prod.fst) :
    m.set k v = m ++ [(k, v)] := by
  induction m with
  | nil => rfl
  | cons e m ih =>
    obtain ⟨k0, v0⟩ := e
    simp only [List.map_cons, List.mem_cons, not_or] at h
    have h0 : k0 ≠ k := fun h1 => h.1 h1.symm
    simp only [GoMap.set, h0, if_false, ih h.2, List.cons_append]

theorem GoMap.keys_set_of_mem (m : GoMap) (k v : String) (h : k ∈ m.map Prod.fst) :
    (m.set k v).map Prod.fst = m.map Prod.fst := by
  induction m with
  | nil => simp at h
  | cons e m ih =>
    obtain ⟨k0, v0⟩ := e
    by_cases h0 : k0 = k
    · simp [GoMap.set, h0]
    · simp only [List.map_cons, List.mem_cons] at h
      rcases h with h | h
      · exact absurd h.symm h0
      · simp only [GoMap.set, h0, if_false, List.map_cons, ih h]

theorem GoMap.keysNodup_set (m : GoMap) (k v : String) (hn : m.keysNodup) :
    (m.set k v).keysNodup := by
  unfold GoMap.keysNodup at hn ⊢
  by_cases h : k ∈ m.map Prod.fst
  · rw [GoMap.keys_set_of_mem m k v h]
    exact hn
  · rw [GoMap.set_of_not_mem m k v h, List.map_append, List.nodup_append]
    refine ⟨hn, by simp, ?_⟩
    intro a ha hb
    simp only [List.map_cons, List.map_nil, List.mem_singleton] at hb
    exact h (hb ▸ ha)

theorem NewTokenizer_consistent : NewTokenizer.Consistent := by
  refine ⟨List.nodup_nil, List.nodup_nil, ?_, ?_⟩ <;> intro a b h <;>
    simp [NewTokenizer, GoMap.get] at h

/-- A call keeps the consistency of the two tables. -/
theorem call_consistent (tbl : Char → Char) (t : Tokenizer) (c : Call) (h : t.Consistent) :
    (t.call tbl c).2.Consistent := by
  rw [call_eq]
  by_cases hc : c.ident = ""
  · simp only [hc, if_true]
    exact h
  · simp only [hc, if_false]
    cases hg : t.mapping.get (c.key tbl) with
    | some tok =>
      rw [generateToken_hit _ _ _ _ _ hg]
      exact h
    | none =>
      rw [generateToken_miss _ _ _ _ hg]
      obtain ⟨h1, h2, h3, h4⟩ := h
      refine ⟨GoMap.keysNodup_set _ _ _ h1, GoMap.keysNodup_set _ _ _ h2, ?_, ?_⟩
      · intro tok real hr
        simp only at hr ⊢
        by_cases ht : c.pfx ++ tokenSuffix tbl (c.key tbl) t.salt = tok
        · rw [← ht, GoMap.get_set_self] at hr
          simp only [Option.some.injEq] at hr
          rw [← hr, ← ht]
          exact GoMap.get_set_self _ _ _
        · rw [GoMap.get_set_ne _ _ _ _ ht] at hr
          have hm := h3 tok real hr
          have hne : c.key tbl ≠ real := by
            rintro rfl
            rw [hg] at hm
            exact absurd hm (by simp)
          rw [GoMap.get_set_ne _ _ _ _ hne]
          exact hm
      · intro real tok hm
        simp only at hm ⊢
        by_cases ht : c.pfx ++ tokenSuffix tbl (c.key tbl) t.salt = tok
        · rw [← ht]
          exact ⟨_, GoMap.get_set_self _ _ _⟩
        · rw [GoMap.get_set_ne _ _ _ _ ht]
          by_cases hne : c.key tbl = real
          · rw [← hne, GoMap.get_set_self] at hm
            simp only [Option.some.injEq] at hm
            exact absurd hm ht
          · rw [GoMap.get_set_ne _ _ _ _ hne] at hm
            exact h4 real tok hm

theorem run_consistent (tbl : Char → Char) (cs : List Call) (t : Tokenizer) (h : t.Consistent) :
    (t.run tbl cs).Consistent := by
  induction cs generalizing t with
  | nil => exact h
  | cons c cs ih => exact ih _ (call_consistent tbl t c h)

/-- When no two real names share a token, the table token → real holds the
entries of the table real → token, each turned around. -/
theorem reverse_perm_swap (t : Tokenizer) (hc : t.Consistent)
    (hinj : (t.mapping.map Prod.snd).Nodup) : t.reverse.Perm (t.mapping.map Prod.swap) := by
  obtain ⟨h1, h2, h3, h4⟩ := hc
  have hn1 : t.reverse.Nodup := List.Nodup.of_map Prod.fst h2
  have hn2 : (t.mapping.map Prod.swap).Nodup :=
    (List.Nodup.of_map Prod.fst h1).map Prod.swap_injective
  rw [List.perm_ext_iff_of_nodup hn1 hn2]
  rintro ⟨tok, real⟩
  rw [List.mem_map]
  constructor
  · intro h
    exact ⟨(real, tok), GoMap.mem_of_get _ _ _ (h3 tok real (GoMap.get_of_mem _ _ _ h2 h)), rfl⟩
  · rintro ⟨⟨r, tk⟩, hm, he⟩
    simp only [Prod.swap, Prod.mk.injEq] at he
    obtain ⟨rfl, rfl⟩ := he
    obtain ⟨r1, hr1⟩ := h4 r tk (GoMap.get_of_mem _ _ _ h1 hm)
    have hm1 := GoMap.mem_of_get _ _ _ (h3 _ _ hr1)
    have he := List.inj_on_of_nodup_map hinj hm1 hm rfl
    simp only [Prod.mk.injEq, and_true] at he
    rw [← he]
    exact GoMap.mem_of_get _ _ _ hr1

theorem foldl_set_fresh (order : List (String × String)) (acc : GoMap)
    (h : (acc.map Prod.fst ++ order.map Prod.snd).Nodup) :
    order.foldl (fun reverse e => GoMap.set reverse e.2 e.1) acc =
      acc ++ order.map Prod.swap := by
  induction order generalizing acc with
  | nil => simp
  | cons e rest ih =>
    have hfresh : e.2 ∉ acc.map Prod.fst := by
      intro hm
      rw [List.nodup_append] at h
      exact h.2.2 hm (by simp)
    rw [List.foldl_cons, GoMap.set_of_not_mem _ _ _ hfresh, ih]
    · simp [Prod.swap]
    · simpa [List.map_append] using h

/-- When no two real names share a token, the table rebuilt by `LoadMapping`
holds the entries of the loaded table, each turned around, in the order of the
visit. -/
theorem rebuildReverse_eq (order : List (String × String))
    (hinj : (order.map Prod.snd).Nodup) : rebuildReverse order = order.map Prod.swap := by
  unfold rebuildReverse
  rw [foldl_set_fresh order [] (by simpa using hinj)]
  rfl

theorem redact_congr (t t1 : Tokenizer) (h : ∀ m, t1.reverse.get m = t.reverse.get m) :
    t1.redact = t.redact := by
  funext m
  simp only [Tokenizer.redact, h]

/-- Two Tokenizers whose tables token → real hold the same entries have the
same results of `Detokenize`. -/
theorem Detokenize_congr (t t1 : Tokenizer) (hp : t1.reverse.Perm t.reverse)
    (hn : t.reverse.keysNodup) (text out : String) :
    t1.Detokenize text out ↔ t.Detokenize text out := by
  have hn1 : t1.reverse.keysNodup := (hp.map Prod.fst).nodup_iff.2 hn
  have hr : t1.redact = t.redact := redact_congr t t1 (fun m => GoMap.get_perm _ _ hp hn1 m)
  have hd : ∀ order, t1.DetokenizeIn order text = t.DetokenizeIn order text := by
    intro order
    simp only [Tokenizer.DetokenizeIn, Tokenizer.stripUnknownDomains, hr]
  constructor
  · rintro ⟨o, ho, rfl⟩
    exact ⟨o, ho.trans hp, hd o⟩
  · rintro ⟨o, ho, rfl⟩
    exact ⟨o, ho.trans hp.symm, (hd o).symm⟩

/-- Two Tokenizers with the same salt and the same lookups in the table
real → token return the same token on a call and keep the same salt and the
same lookups. -/
theorem call_congr (tbl : Char → Char) (t t1 : Tokenizer) (c : Call) (hs : t1.salt = t.salt)
    (hg : ∀ k, t1.mapping.get k = t.mapping.get k) :
    (t1.call tbl c).1 = (t.call tbl c).1 ∧ (t1.call tbl c).2.salt = (t.call tbl c).2.salt ∧
      ∀ k, (t1.call tbl c).2.mapping.get k = (t.call tbl c).2.mapping.get k := by
  by_cases hc : c.ident = ""
  · rw [call_empty _ _ _ hc, call_empty _ _ _ hc]
    exact ⟨rfl, hs, hg⟩
  · have hk : ∀ k, (t1.call tbl c).2.mapping.get k = (t.call tbl c).2.mapping.get k := by
      intro k
      rw [call_mapping_get _ _ _ hc, call_mapping_get _ _ _ hc, hg, hs]
    refine ⟨?_, by rw [call_salt, call_salt, hs], hk⟩
    have h1 := call_fst t1 tbl c hc
    have h2 := call_fst t tbl c hc
    rw [hk, h2] at h1
    exact (Option.some.inj h1).symm

theorem run_congr (tbl : Char → Char) (cs : List Call) (t t1 : Tokenizer)
    (hs : t1.salt = t.salt) (hg : ∀ k, t1.mapping.get k = t.mapping.get k) :
    (t1.run tbl cs).salt = (t.run tbl cs).salt ∧
      ∀ k, (t1.run tbl cs).mapping.get k = (t.run tbl cs).mapping.get k := by
  induction cs generalizing t t1 with
  | nil => exact ⟨hs, hg⟩
  | cons c cs ih =>
    obtain ⟨-, h2, h3⟩ := call_congr tbl t t1 c hs hg
    exact ih _ _ h2 h3

/-- After a successful save, the file of the run holds the record of the
Tokenizer. -/
theorem SaveMapping_file (t : Tokenizer) (marshal : MappingFile → String)
    (join : List String → String) (osOk : String → Bool) (files : GoMap)
    (createdAt runID : String)
    (h : (t.SaveMapping marshal join osOk files createdAt runID).1 = none) :
    (t.SaveMapping marshal join osOk files createdAt runID).2.get (mappingFilename join runID) =
      some (marshal { RunID := runID, CreatedAt := createdAt, Salt := t.salt,
                      Mappings := t.mapping }) := by
  unfold Tokenizer.SaveMapping at h ⊢
  split_ifs at h ⊢ <;> exact GoMap.get_set_self _ _ _

/-- The round trip of a consistent Tokenizer through `SaveMapping` and
`LoadMapping`, for a codec that gives back the salt and the entries of the
table of the record. -/
theorem load_save (tbl : Char → Char) (t t0 : Tokenizer) (hc : t.Consistent)
    (marshal : MappingFile → String) (unmarshal : String → Option MappingFile)
    (join : List String → String) (osOk : String → Bool) (files : GoMap)
    (createdAt runID : String) (loaded : MappingFile) (order : List (String × String))
    (hsave : (t.SaveMapping marshal join osOk files createdAt runID).1 = none)
    (hdec : unmarshal (marshal
      { RunID := runID, CreatedAt := createdAt, Salt := t.salt, Mappings := t.mapping }) =
        some loaded)
    (hsalt : loaded.Salt = t.salt) (hmap : loaded.Mappings.Perm t.mapping)
    (horder : order.Perm loaded.Mappings) :
    (t0.LoadMappingIn unmarshal join
        (t.SaveMapping marshal join osOk files createdAt runID).2 order runID).1 = none ∧
      (t0.LoadMappingIn unmarshal join
        (t.SaveMapping marshal join osOk files createdAt runID).2 order runID).2.salt = t.salt ∧
      (t0.LoadMappingIn unmarshal join
        (t.SaveMapping marshal join osOk files createdAt runID).2 order runID).2.mapping.Perm
          t.mapping ∧
      (∀ k, (t0.LoadMappingIn unmarshal join
        (t.SaveMapping marshal join osOk files createdAt runID).2 order runID).2.mapping.get k =
          t.mapping.get k) ∧
      (∀ cs c, (((t0.LoadMappingIn unmarshal join
        (t.SaveMapping marshal join osOk files createdAt runID).2 order runID).2.run tbl cs).call
          tbl c).1 = ((t.run tbl cs).call tbl c).1) ∧
      ((t.mapping.map Prod.snd).Nodup → ∀ text out,
        (t0.LoadMappingIn unmarshal join
          (t.SaveMapping marshal join osOk files createdAt runID).2 order runID).2.Detokenize
            text out ↔ t.Detokenize text out) := by
  have hload : t0.LoadMappingIn unmarshal join
      (t.SaveMapping marshal join osOk files createdAt runID).2 order runID =
      (none, { salt := loaded.Salt, mapping := loaded.Mappings,
               reverse := rebuildReverse order }) := by
    unfold Tokenizer.LoadMappingIn
    rw [SaveMapping_file t marshal join osOk files createdAt runID hsave]
    simp only [hdec]
  rw [hload]
  have hn : loaded.Mappings.keysNodup := (hmap.map Prod.fst).nodup_iff.2 hc.1
  have hget : ∀ k, loaded.Mappings.get k = t.mapping.get k :=
    fun k => GoMap.get_perm _ _ hmap hn k
  refine ⟨rfl, hsalt, hmap, hget, ?_, ?_⟩
  · intro cs c
    obtain ⟨h1, h2⟩ := run_congr tbl cs t
      { salt := loaded.Salt, mapping := loaded.Mappings, reverse := rebuildReverse order }
      hsalt hget
    exact (call_congr tbl _ _ c h1 h2).1
  · intro hinj text out
    refine Detokenize_congr t _ ?_ hc.2.1 text out
    show (rebuildReverse order).Perm t.reverse
    have hp : order.Perm t.mapping := horder.trans hmap
    rw [rebuildReverse_eq order ((hp.map Prod.snd).nodup_iff.2 hinj)]
    exact (hp.map Prod.swap).trans (reverse_perm_swap t hc hinj).symm

/-- The entities of the payload are, in order, the tokenized summaries of the
first `cap` users of the graph, then of the first `cap` groups, then of the
first `cap` computers, each kind in the order of its list (all of them when the
list has at most `cap` entities, none when the cap is negative), the Tokenizer
passing from each entity to the next.  For a kind whose list has at most `cap`
entities this is the selection of the Sampler. -/
theorem payload_is_truncation (tbl ltbl : Char → Char) (now : Int → Int) (data : BloodHoundData)
    (t : Tokenizer) (m : Int) :
    (SanitizeBloodHoundData tbl now data t m).1.Entities =
      (summaries (fun i => userEntity tbl (now i)) 0 t (data.Users.take m.toNat)).1 ++
        (summaries (fun _ => groupEntity tbl) 0
          (summaries (fun i => userEntity tbl (now i)) 0 t (data.Users.take m.toNat)).2
          (data.Groups.take m.toNat)).1 ++
        (summaries (fun _ => computerEntity tbl) 0
          (summaries (fun _ => groupEntity tbl) 0
            (summaries (fun i => userEntity tbl (now i)) 0 t (data.Users.take m.toNat)).2
            (data.Groups.take m.toNat)).2
          (data.Computers.take m.toNat)).1 ∧
    ((data.Users.length : Int) ≤ m →
      sampleNodes ltbl data.Users m = some (data.Users.take m.toNat)) ∧
    ((data.Groups.length : Int) ≤ m →
      sampleNodes ltbl data.Groups m = some (data.Groups.take m.toNat)) ∧
    ((data.Computers.length : Int) ≤ m →
      sampleNodes ltbl data.Computers m = some (data.Computers.take m.toNat)) := by
  refine ⟨sanitize_entities tbl now data t m, ?_, ?_, ?_⟩
  · intro h
    rw [sampleNodes_all ltbl _ m h, List.take_of_length_le (by omega)]
  · intro h
    rw [sampleNodes_all ltbl _ m h, List.take_of_length_le (by omega)]
  · intro h
    rw [sampleNodes_all ltbl _ m h, List.take_of_length_le (by omega)]

/-! ## The ordering of the findings: the loops as passes over the list -/

theorem bubble_zero (l : List ZombiePath) : bubble 0 l = l := by
  unfold bubble
  rfl

theorem bubble_short (k : Nat) (p : ZombiePath) : bubble k [p] = [p] := by
  cases k <;> rfl

theorem bubble_nil (k : Nat) : bubble k [] = [] := by
  cases k <;> rfl

theorem bubble_cons_cons (k : Nat) (p q : ZombiePath) (rest : List ZombiePath) :
    bubble (k + 1) (p :: q :: rest) =
      if riskOrder p.Probability < riskOrder q.Probability then q :: bubble k (p :: rest)
      else p :: bubble k (q :: rest) := rfl

theorem bubble_perm (k : Nat) (l : List ZombiePath) : (bubble k l).Perm l := by
  induction k generalizing l with
  | zero => rw [bubble_zero]
  | succ k ih =>
    rcases l with _ | ⟨p, _ | ⟨q, rest⟩⟩
    · rw [bubble_nil]
    · rw [bubble_short]
    · rw [bubble_cons_cons]
      split_ifs
      · exact ((ih (p :: rest)).cons q).trans (List.Perm.swap p q rest)
      · exact (ih (q :: rest)).cons p

/-- A pass keeps the order of the findings of each risk. -/
theorem bubble_filter (r : Int) (k : Nat) (l : List ZombiePath) :
    (bubble k l).filter (fun p => decide (riskOrder p.Probability = r)) =
      l.filter (fun p => decide (riskOrder p.Probability = r)) := by
  induction k generalizing l with
  | zero => rw [bubble_zero]
  | succ k ih =>
    rcases l with _ | ⟨p, _ | ⟨q, rest⟩⟩
    · rw [bubble_nil]
    · rw [bubble_short]
    · rw [bubble_cons_cons]
      split_ifs with h
      · rw [List.filter_cons, ih (p :: rest)]
        by_cases hp : riskOrder p.Probability = r
        · have hq : ¬ riskOrder q.Probability = r := by omega
          simp [List.filter_cons, hp, hq]
        · simp [List.filter_cons, hp]
      · simp only [List.filter_cons, ih (q :: rest)]

theorem bubble_append (k : Nat) (xs ys : List ZombiePath) (h : k < xs.length) :
    bubble k (xs ++ ys) = bubble k xs ++ ys := by
  induction k generalizing xs with
  | zero => rw [bubble_zero, bubble_zero]
  | succ k ih =>
    rcases xs with _ | ⟨p, _ | ⟨q, rest⟩⟩
    · simp at h
    · simp at h
    · simp only [List.length_cons] at h
      rw [List.cons_append, List.cons_append, bubble_cons_cons, bubble_cons_cons]
      split_ifs
      · rw [← List.cons_append, ih (p :: rest) (by simp; omega), List.cons_append]
      · rw [← List.cons_append, ih (q :: rest) (by simp; omega), List.cons_append]

/-- A pass over a whole list leaves a finding of the lowest risk at the end. -/
theorem bubble_last (k : Nat) (xs : List ZombiePath) (h : xs.length = k + 1) :
    ∃ front m, bubble k xs = front ++ [m] ∧
      ∀ x ∈ xs, riskOrder m.Probability ≤ riskOrder x.Probability := by
  induction k generalizing xs with
  | zero =>
    rcases xs with _ | ⟨p, _ | ⟨q, rest⟩⟩
    · simp at h
    · exact ⟨[], p, by rw [bubble_zero]; rfl, by simp⟩
    · simp at h
  | succ k ih =>
    rcases xs with _ | ⟨p, _ | ⟨q, rest⟩⟩
    · simp at h
    · simp at h
    · simp only [List.length_cons] at h
      rw [bubble_cons_cons]
      split_ifs with hpq
      · obtain ⟨front, m, h1, h2⟩ := ih (p :: rest) (by simp; omega)
        refine ⟨q :: front, m, by rw [h1]; rfl, ?_⟩
        intro x hx
        have hp := h2 p (by simp)
        simp only [List.mem_cons] at hx
        rcases hx with rfl | rfl | hx
        · exact hp
        · omega
        · exact h2 x (by simp [hx])
      · obtain ⟨front, m, h1, h2⟩ := ih (q :: rest) (by simp; omega)
        refine ⟨p :: front, m, by rw [h1]; rfl, ?_⟩
        intro x hx
        have hq := h2 q (by simp)
        simp only [List.mem_cons] at hx
        rcases hx with rfl | rfl | hx
        · omega
        · exact hq
        · exact h2 x (by simp [hx])

theorem swapStep_cons (a : ZombiePath) (l : List ZombiePath) (j : Nat) :
    swapStep (a :: l) (j + 1) = a :: swapStep l j := by
  unfold swapStep
  simp only [List.getElem?_cons_succ]
  split
  · split_ifs
    · simp only [List.set_cons_succ]
    · rfl
  · rfl

theorem swapStep_append (front : List ZombiePath) (p q : ZombiePath) (rest : List ZombiePath) :
    swapStep (front ++ p :: q :: rest) front.length =
      front ++ (if riskOrder p.Probability < riskOrder q.Probability then q :: p :: rest
        else p :: q :: rest) := by
  induction front with
  | nil =>
    unfold swapStep
    simp only [List.nil_append, List.length_nil, List.getElem?_cons_zero, zero_add,
      List.getElem?_cons_succ]
    split_ifs <;> rfl
  | cons a front ih =>
    rw [List.cons_append, List.length_cons, swapStep_cons, ih, List.cons_append]

theorem foldl_swapStep (k : Nat) (front l : List ZombiePath) (h : k < l.length) :
    (List.range' front.length k).foldl swapStep (front ++ l) = front ++ bubble k l := by
  induction k generalizing front l with
  | zero => rw [bubble_zero]; rfl
  | succ k ih =>
    rcases l with _ | ⟨p, _ | ⟨q, rest⟩⟩
    · simp at h
    · simp at h
    · simp only [List.length_cons] at h
      rw [List.range'_succ, List.foldl_cons, swapStep_append, bubble_cons_cons]
      split_ifs
      · have h1 := ih (front ++ [q]) (p :: rest) (by simp; omega)
        simp only [List.length_append, List.length_singleton, List.append_assoc,
          List.singleton_append] at h1
        exact h1
      · have h1 := ih (front ++ [p]) (q :: rest) (by simp; omega)
        simp only [List.length_append, List.length_singleton, List.append_assoc,
          List.singleton_append] at h1
        exact h1

/-- The inner loop is one pass over the first `len(paths) - i` findings. -/
theorem innerLoop_eq (paths : List ZombiePath) (i : Nat) :
    innerLoop paths i = bubble (paths.length - i - 1) paths := by
  unfold innerLoop
  rcases paths with _ | ⟨p, rest⟩
  · rw [bubble_nil]
    simp
  · rw [List.range_eq_range']
    exact foldl_swapStep _ [] (p :: rest) (by simp; omega)

theorem foldl_innerLoop_succ (paths : List ZombiePath) (n : Nat) :
    (List.range (n + 1)).foldl innerLoop paths =
      innerLoop ((List.range n).foldl innerLoop paths) n := by
  rw [List.range_succ, List.foldl_append]
  rfl

theorem foldl_innerLoop_perm (paths : List ZombiePath) (n : Nat) :
    ((List.range n).foldl innerLoop paths).Perm paths := by
  induction n with
  | zero => exact List.Perm.refl _
  | succ n ih =>
    rw [foldl_innerLoop_succ, innerLoop_eq]
    exact (bubble_perm _ _).trans ih

theorem foldl_innerLoop_filter (r : Int) (paths : List ZombiePath) (n : Nat) :
    ((List.range n).foldl innerLoop paths).filter
        (fun p => decide (riskOrder p.Probability = r)) =
      paths.filter (fun p => decide (riskOrder p.Probability = r)) := by
  induction n with
  | zero => rfl
  | succ n ih => rw [foldl_innerLoop_succ, innerLoop_eq, bubble_filter, ih]

/-- After `n` passes of the outer loop the last `n` findings are in their final
place: they are in the order of the risks and no finding before them has a
lower risk. -/
theorem foldl_innerLoop_tail (paths : List ZombiePath) (n : Nat) (hn : n + 1 ≤ paths.length) :
    ∃ xs ys, (List.range n).foldl innerLoop paths = xs ++ ys ∧ ys.length = n ∧
      ys.Pairwise (fun p q => riskOrder q.Probability ≤ riskOrder p.Probability) ∧
      ∀ x ∈ xs, ∀ y ∈ ys, riskOrder y.Probability ≤ riskOrder x.Probability := by
  induction n with
  | zero => exact ⟨paths, [], by simp, rfl, List.Pairwise.nil, by simp⟩
  | succ n ih =>
    obtain ⟨xs, ys, h1, h2, h3, h4⟩ := ih (by omega)
    have hlen : ((List.range n).foldl innerLoop paths).length = paths.length :=
      (foldl_innerLoop_perm paths n).length_eq
    have hxs : xs.length = paths.length - n := by
      rw [h1, List.length_append] at hlen
      omega
    rw [foldl_innerLoop_succ, innerLoop_eq, hlen, h1,
      bubble_append _ xs ys (by omega)]
    obtain ⟨front, m, h5, h6⟩ := bubble_last (paths.length - n - 1) xs (by omega)
    have hmem : ∀ x, x ∈ front ++ [m] → x ∈ xs := fun x hx =>
      (bubble_perm (paths.length - n - 1) xs).mem_iff.1 (h5 ▸ hx)
    refine ⟨front, m :: ys, by rw [h5]; simp, by simp [h2], ?_, ?_⟩
    · rw [List.pairwise_cons]
      exact ⟨fun y hy => h4 m (hmem m (by simp)) y hy, h3⟩
    · intro x hx y hy
      rcases List.mem_cons.1 hy with rfl | hy
      · exact h6 x (hmem x (by simp [hx]))
      · exact h4 x (hmem x (by simp [hx])) y hy

theorem sortByRisk_perm (paths : List ZombiePath) : (sortByRisk paths).Perm paths :=
  foldl_innerLoop_perm paths _

theorem sortByRisk_filter (r : Int) (paths : List ZombiePath) :
    (sortByRisk paths).filter (fun p => decide (riskOrder p.Probability = r)) =
      paths.filter (fun p => decide (riskOrder p.Probability = r)) :=
  foldl_innerLoop_filter r paths _

theorem sortByRisk_sorted (paths : List ZombiePath) :
    (sortByRisk paths).Pairwise
      (fun p q => riskOrder q.Probability ≤ riskOrder p.Probability) := by
  rcases paths with _ | ⟨p, rest⟩
  · exact List.Pairwise.nil
  · obtain ⟨xs, ys, h1, h2, h3, h4⟩ :=
      foldl_innerLoop_tail (p :: rest) ((p :: rest).length - 1) (by simp)
    have hlen := (foldl_innerLoop_perm (p :: rest) ((p :: rest).length - 1)).length_eq
    rw [h1, List.length_append, h2] at hlen
    unfold sortByRisk
    rw [h1, List.pairwise_append]
    refine ⟨?_, h3, h4⟩
    rcases xs with _ | ⟨x, _ | ⟨x1, xs⟩⟩
    · exact List.Pairwise.nil
    · exact List.pairwise_singleton _ _
    · simp only [List.length_cons] at hlen
      omega

theorem riskOrder_values (probability : String) :
    (probability = "Critical" ∧ riskOrder probability = 4) ∨
      (probability = "High" ∧ riskOrder probability = 3) ∨
      (probability = "Medium" ∧ riskOrder probability = 2) ∨
      (probability = "Low" ∧ riskOrder probability = 1) ∨
      (probability ≠ "Critical" ∧ probability ≠ "High" ∧ probability ≠ "Medium" ∧
        probability ≠ "Low" ∧ riskOrder probability = 0) := by
  unfold riskOrder
  by_cases h4 : probability = "Critical"
  · exact Or.inl ⟨h4, by rw [if_pos h4]⟩
  · by_cases h3 : probability = "High"
    · exact Or.inr (Or.inl ⟨h3, by rw [if_neg h4, if_pos h3]⟩)
    · by_cases h2 : probability = "Medium"
      · exact Or.inr (Or.inr (Or.inl ⟨h2, by rw [if_neg h4, if_neg h3, if_pos h2]⟩))
      · by_cases h1 : probability = "Low"
        · exact Or.inr (Or.inr (Or.inr (Or.inl
            ⟨h1, by rw [if_neg h4, if_neg h3, if_neg h2, if_pos h1]⟩)))
        · exact Or.inr (Or.inr (Or.inr (Or.inr
            ⟨h4, h3, h2, h1, by rw [if_neg h4, if_neg h3, if_neg h2, if_neg h1]⟩)))

/-! ## The sampler: the tiers share out the list -/

theorem byTier_cons_perm (ltbl : Char → Char) (n : Node) (rest : List Node) :
    (byTier ltbl (n :: rest)).Perm (n :: byTier ltbl rest) := by
  unfold byTier
  cases hb : isBuiltInAdmin ltbl n <;> cases hi : hasControlIndicators ltbl n <;>
    cases hf : (n.Properties.AdminCount || n.Properties.HighValue) <;>
    simp only [List.filter_cons, isControlBased, isHighValue, isRegular, hb, hi, hf,
      Bool.not_true, Bool.not_false, Bool.and_true, Bool.and_false, Bool.true_and,
      Bool.false_and, if_true, if_false, Bool.false_eq_true, List.append_assoc,
      List.cons_append] <;>
    first
      | exact List.Perm.refl _
      | exact List.perm_middle
      | exact (List.perm_append_left_iff _).2 List.perm_middle |>.trans List.perm_middle
      | exact (List.perm_append_left_iff _).2
          ((List.perm_append_left_iff _).2 List.perm_middle |>.trans List.perm_middle)
          |>.trans List.perm_middle

/-- The four tiers share out the list: their concatenation is a permutation of
the list. -/
theorem byTier_perm (ltbl : Char → Char) (nodes : List Node) :
    (byTier ltbl nodes).Perm nodes := by
  induction nodes with
  | nil => exact List.Perm.refl _
  | cons n rest ih => exact (byTier_cons_perm ltbl n rest).trans (ih.cons n)

/-! ## The Tokenizer: the tokens of the table -/

theorem run_shape (tbl : Char → Char) (cs : List Call) (t : Tokenizer)
    (hinv : ∀ k v, t.mapping.get k = some v → isTokenShape v = true) :
    ∀ k v, (t.run tbl cs).mapping.get k = some v → isTokenShape v = true := by
  induction cs generalizing t with
  | nil => exact hinv
  | cons c cs ih => exact ih _ (call_shape tbl t c hinv).2

theorem run_no_empty_key (tbl : Char → Char) (cs : List Call) (t : Tokenizer)
    (h : t.mapping.get "" = none) : (t.run tbl cs).mapping.get "" = none := by
  induction cs generalizing t with
  | nil => exact h
  | cons c cs ih =>
    apply ih
    by_cases hc : c.ident = ""
    · rw [call_empty _ _ _ hc]
      exact h
    · rw [call_mapping_get _ _ _ hc, h]
      have hk : ¬ c.key tbl = "" := fun hk => hc ((key_eq_empty tbl c).1 hk)
      simp only [hk, if_false]

theorem containsL_split (old s : List Char) (h : containsL old s = true) :
    ∃ front back, s = front ++ old ++ back := by
  induction s with
  | nil =>
    simp only [containsL] at h
    obtain ⟨back, hb⟩ := List.isPrefixOf_iff_prefix.1 h
    exact ⟨[], back, by simpa using hb.symm⟩
  | cons c cs ih =>
    simp only [containsL, Bool.or_eq_true] at h
    rcases h with h | h
    · obtain ⟨back, hb⟩ := List.isPrefixOf_iff_prefix.1 h
      exact ⟨[], back, by simpa using hb.symm⟩
    · obtain ⟨front, back, hb⟩ := ih h
      exact ⟨c :: front, back, by rw [hb]; simp⟩

theorem isTokenShape_split (tok : String) (h : isTokenShape tok = true) :
    ∃ p ∈ kindPrefixes, ∃ s : List Char, tok.data = p.data ++ s ∧ s.length = 4 ∧
      ∀ c ∈ s, isUpperHex c = true := by
  unfold isTokenShape at h
  rw [List.any_eq_true] at h
  obtain ⟨p, hp, h⟩ := h
  simp only [Bool.and_eq_true, beq_iff_eq, List.all_eq_true] at h
  obtain ⟨⟨h1, h2⟩, h3⟩ := h
  obtain ⟨s, hs⟩ := List.isPrefixOf_iff_prefix.1 h1
  rw [← hs, List.drop_left] at h2 h3
  exact ⟨p, hp, s, hs.symm, h2, h3⟩

theorem upperHex_ne_underscore (c : Char) (h : isUpperHex c = true) : c ≠ '_' := by
  rintro rfl
  exact absurd h (by decide)

theorem kindPrefix_last (p : String) (hp : p ∈ kindPrefixes) :
    ∃ front, p.data = front ++ ['_'] := by
  simp only [kindPrefixes, List.mem_cons, List.mem_singleton, List.not_mem_nil, or_false] at hp
  rcases hp with rfl | rfl | rfl | rfl | rfl | rfl | rfl | rfl | rfl | rfl | rfl
  · exact ⟨['D', 'O', 'M'], rfl⟩
  · exact ⟨['I', 'D', '_', 'U'], rfl⟩
  · exact ⟨['I', 'D', '_', 'G'], rfl⟩
  · exact ⟨['H', '_', 'T', '0'], rfl⟩
  · exact ⟨['H', '_', 'T', '1'], rfl⟩
  · exact ⟨['H'], rfl⟩
  · exact ⟨['O', 'U'], rfl⟩
  · exact ⟨['G', 'P', 'O'], rfl⟩
  · exact ⟨['S', 'I', 'D'], rfl⟩
  · exact ⟨['T', 'M', 'P', 'L'], rfl⟩
  · exact ⟨['C', 'A'], rfl⟩

/-- Inside the prefix of a kind no hexadecimal digit follows an underscore. -/
theorem kindPrefix_after_underscore (p : String) (hp : p ∈ kindPrefixes) (x y : List Char)
    (c : Char) (h : p.data = x ++ '_' :: c :: y) : isUpperHex c = false := by
  simp only [kindPrefixes, List.mem_cons, List.mem_singleton, List.not_mem_nil, or_false] at hp
  rcases hp with rfl | rfl | rfl | rfl | rfl | rfl | rfl | rfl | rfl | rfl | rfl <;>
    rcases x with _ | ⟨x0, _ | ⟨x1, _ | ⟨x2, _ | ⟨x3, _ | ⟨x4, x⟩⟩⟩⟩⟩ <;>
    simp only [List.nil_append, List.cons_append, List.cons.injEq, Char.reduceEq, false_and,
      and_false, true_and, and_true, List.nil_eq, List.append_eq_nil, List.cons_ne_self,
      reduceCtorEq] at h <;>
    first
      | exact h.elim
      | (obtain ⟨-, -, rfl, -⟩ := h; rfl)
      | (obtain ⟨-, rfl, -⟩ := h; rfl)

theorem kindPrefix_suffix :
    ∀ pa ∈ kindPrefixes, ∀ pb ∈ kindPrefixes, pa.data <:+ pb.data → pa = pb := by
  decide

/-- A token that occurs in a token is that token: the underscore before the
four digits of the first can only lie on the last underscore of the second. -/
theorem token_not_nested (a b : String) (ha : isTokenShape a = true)
    (hb : isTokenShape b = true) (hc : Contains b a = true) : a = b := by
  obtain ⟨pa, hpa, sa, hda, hla, hxa⟩ := isTokenShape_split a ha
  obtain ⟨pb, hpb, sb, hdb, hlb, hxb⟩ := isTokenShape_split b hb
  obtain ⟨front, back, hsplit⟩ := containsL_split a.data b.data hc
  obtain ⟨ia, hia⟩ := kindPrefix_last pa hpa
  have hsb : ∀ x y, sb ≠ x ++ '_' :: y := by
    intro x y h
    exact upperHex_ne_underscore '_' (hxb '_' (by rw [h]; simp)) rfl
  have heq : pb.data ++ sb = (front ++ ia) ++ '_' :: (sa ++ back) := by
    rw [← hdb, hsplit, hda, hia]
    simp
  rcases List.append_eq_append_iff.1 heq with ⟨m, h1, h2⟩ | ⟨m, h1, h2⟩
  · exact absurd h2 (hsb _ _)
  · rcases m with _ | ⟨d, m⟩
    · rw [List.nil_append] at h2
      exact absurd h2.symm (hsb [] _)
    · rw [List.cons_append, List.cons.injEq] at h2
      obtain ⟨hd, h2⟩ := h2
      subst hd
      rcases m with _ | ⟨e, m⟩
      · rw [List.nil_append] at h2
        have hsuf : pa.data <:+ pb.data := ⟨front, by rw [h1, hia]; simp⟩
        have hp : pa = pb := kindPrefix_suffix pa hpa pb hpb hsuf
        have hback : back = [] := by
          have hl := congrArg List.length h2
          rw [List.length_append, hla, hlb] at hl
          exact List.length_eq_zero.1 (by omega)
        rw [hback, List.append_nil] at h2
        have hdata : a.data = b.data := by rw [hda, hdb, hp, h2]
        cases a
        cases b
        simp only at hdata
        rw [hdata]
      · exfalso
        have he : isUpperHex e = true := by
          rcases sa with _ | ⟨s0, sa⟩
          · simp at hla
          · rw [List.cons_append, List.cons_append, List.cons.injEq] at h2
            rw [← h2.1]
            exact hxa s0 (by simp)
        have := kindPrefix_after_underscore pb hpb (front ++ ia) m e h1
        rw [this] at he
        exact absurd he (by simp)

/-- In the Tokenizer after a sequence of calls, every token of the table
real → token has the shape of a token. -/
theorem reachable_shape (tbl : Char → Char) (cs : List Call) :
    ∀ k v, (NewTokenizer.run tbl cs).mapping.get k = some v → isTokenShape v = true :=
  run_shape tbl cs NewTokenizer (fun k v h => by simp [NewTokenizer, GoMap.get] at h)

theorem take_min_cap (l : List Node) (m : Int) :
    l.take (min (l.length : Int) (max m 0)).toNat = l.take m.toNat := by
  by_cases h : m.toNat ≤ l.length
  · have : (min (l.length : Int) (max m 0)).toNat = m.toNat := by omega
    rw [this]
  · have : (min (l.length : Int) (max m 0)).toNat = l.length := by omega
    rw [this, List.take_length, List.take_of_length_le (by omega)]

theorem exec_consistent (tbl : Char → Char) (os : List Op) (t : Tokenizer)
    (h : t.Consistent) : (t.exec tbl os).Consistent := by
  induction os generalizing t with
  | nil => exact h
  | cons o os ih =>
    cases o with
    | tokenize c => exact ih _ (call_consistent tbl t c h)
    | detokenize text => exact ih _ h

theorem isTokenShape_ne_empty (tok : String) (h : isTokenShape tok = true) : tok ≠ "" := by
  rintro rfl
  exact absurd h (by decide)

/-! ## Concurrent calls: the history and the sequential Tokenizer -/

theorem returned_append (a b : List Event) : returned (a ++ b) = returned a ++ returned b := by
  induction a with
  | nil => rfl
  | cons e a ih => cases e <;> simp [returned, ih]

theorem exec_append (tbl : Char → Char) (a b : List Op) (t : Tokenizer) :
    t.exec tbl (a ++ b) = (t.exec tbl a).exec tbl b := by
  induction a generalizing t with
  | nil => rfl
  | cons o a ih => exact ih _

theorem accepts_append (tbl : Char → Char) (a b : List (Op × String)) (t : Tokenizer) :
    t.accepts tbl (a ++ b) ↔
      t.accepts tbl a ∧ (t.exec tbl (a.map Prod.fst)).accepts tbl b := by
  induction a generalizing t with
  | nil => simp [Tokenizer.accepts, Tokenizer.exec]
  | cons e a ih =>
    obtain ⟨op, r⟩ := e
    cases op with
    | tokenize c =>
      simp only [List.cons_append, Tokenizer.accepts, List.map_cons, Tokenizer.exec,
        Tokenizer.step]
      exact (and_congr_right fun _ => ih _).trans and_assoc.symm
    | detokenize text =>
      simp only [List.cons_append, Tokenizer.accepts, List.map_cons, Tokenizer.exec,
        Tokenizer.step]
      exact (and_congr_right fun _ => ih _).trans and_assoc.symm

theorem specState_inv (tbl : Char → Char) (ev : List Event) (i : Nat) (op : Op) :
    specState tbl (ev ++ [.inv i op]) = specState tbl ev := by
  unfold specState
  rw [returned_append]
  simp [returned]

theorem specState_ret_tokenize (tbl : Char → Char) (ev : List Event) (i : Nat) (c : Call)
    (r : String) :
    specState tbl (ev ++ [.ret i (.tokenize c) r]) = ((specState tbl ev).call tbl c).2 := by
  unfold specState
  rw [returned_append, List.map_append, exec_append]
  rfl

theorem specState_ret_detokenize (tbl : Char → Char) (ev : List Event) (i : Nat)
    (text r : String) :
    specState tbl (ev ++ [.ret i (.detokenize text) r]) = specState tbl ev := by
  unfold specState
  rw [returned_append, List.map_append, exec_append]
  rfl

theorem specState_consistent (tbl : Char → Char) (ev : List Event) :
    (specState tbl ev).Consistent :=
  exec_consistent tbl _ NewTokenizer NewTokenizer_consistent

theorem call_hit (tbl : Char → Char) (t : Tokenizer) (c : Call) (token : String)
    (hc : c.ident ≠ "") (h : t.mapping.get (c.key tbl) = some token) :
    t.call tbl c = (token, t) := by
  rw [call_eq, if_neg hc, generateToken_hit _ _ _ _ _ h]

theorem call_miss (tbl : Char → Char) (t : Tokenizer) (c : Call) (hc : c.ident ≠ "")
    (h : t.mapping.get (c.key tbl) = none) :
    t.call tbl c =
      (c.pfx ++ tokenSuffix tbl (c.key tbl) t.salt,
        { t with
          mapping := t.mapping.set (c.key tbl) (c.pfx ++ tokenSuffix tbl (c.key tbl) t.salt)
          reverse :=
            t.reverse.set (c.pfx ++ tokenSuffix tbl (c.key tbl) t.salt) (c.key tbl) }) := by
  rw [call_eq, if_neg hc, generateToken_miss _ _ _ _ h]

/-! ## Concurrent calls: the goroutines that do not move -/

theorem PcInv_lock (tbl : Char → Char) (s tok : Tokenizer) (i j : Nat) (pc : Pc)
    (h : PcInv tbl s tok none [] j pc) (hne : j ≠ i) : PcInv tbl s tok (some i) [] j pc := by
  have hne1 : ¬ i = j := fun e => hne e.symm
  cases pc <;> simp_all [PcInv]

theorem PcInv_held (tbl : Char → Char) (s tok : Tokenizer) (i j : Nat) (pc : Pc)
    (h : PcInv tbl s tok (some i) [] j pc) (hne : j ≠ i) (s1 tok1 : Tokenizer) :
    PcInv tbl s1 tok1 (some i) [] j pc ∧ PcInv tbl s1 tok1 none [] j pc := by
  have hne1 : ¬ i = j := fun e => hne e.symm
  cases pc <;> simp_all [PcInv]

theorem PcInv_rlock (tbl : Char → Char) (s tok : Tokenizer) (readers : List Nat) (i j : Nat)
    (pc : Pc) (h : PcInv tbl s tok none readers j pc) (hne : j ≠ i) :
    PcInv tbl s tok none (i :: readers) j pc := by
  cases pc <;> simp_all [PcInv]

theorem PcInv_runlock (tbl : Char → Char) (s tok : Tokenizer) (w : Option Nat)
    (readers : List Nat) (i j : Nat) (pc : Pc) (h : PcInv tbl s tok w readers j pc)
    (hne : j ≠ i) : PcInv tbl s tok w (readers.erase i) j pc := by
  have hmem : j ∈ readers.erase i ↔ j ∈ readers := List.mem_erase_of_ne hne
  cases pc <;> simp_all [PcInv]

/-! ## Concurrent calls: the steps keep the invariant -/

theorem Inv.of_returned (tbl : Char → Char) (ev ev1 : List Event) (cfg : Config)
    (h : Inv tbl ev cfg) (hr : returned ev1 = returned ev) : Inv tbl ev1 cfg := by
  have hs : specState tbl ev1 = specState tbl ev := by
    unfold specState
    rw [hr]
  exact ⟨hr ▸ h.accepted, h.excl, h.nodup, fun hw => (h.free hw).trans hs.symm,
    fun j => hs ▸ h.places j⟩

/-- A goroutine moves to a place that fits the lock and the memory, which stay
as they are. -/
theorem Inv.move (tbl : Char → Char) (ev : List Event) (cfg : Config) (i : Nat) (pc : Pc)
    (h : Inv tbl ev cfg)
    (hpc : PcInv tbl (specState tbl ev) cfg.tok cfg.writer cfg.readers i pc) :
    Inv tbl ev { cfg with pcs := Function.update cfg.pcs i pc } := by
  refine ⟨h.accepted, h.excl, h.nodup, h.free, ?_⟩
  intro j
  by_cases hj : j = i
  · subst hj
    simp only [Function.update_same]
    exact hpc
  · simp only [Function.update_noteq hj]
    exact h.places j

theorem Inv.tok_eq_of_reader (tbl : Char → Char) (ev : List Event) (cfg : Config) (i : Nat)
    (h : Inv tbl ev cfg) (hi : i ∈ cfg.readers) : cfg.tok = specState tbl ev := by
  apply h.free
  by_contra hw
  rw [h.excl hw] at hi
  exact absurd hi (by simp)

theorem invoke_inv (tbl : Char → Char) (ev : List Event) (cfg : Config) (i : Nat) (op : Op)
    (h : Inv tbl ev cfg) : Inv tbl (ev ++ (cfg.invoke i op).1) (cfg.invoke i op).2 := by
  have hi := h.places i
  unfold Config.invoke
  split
  · rename_i hpc
    rw [hpc] at hi
    simp only [PcInv] at hi
    cases op with
    | tokenize c =>
      simp only
      by_cases hc : c.ident = ""
      · rw [if_pos hc]
        have hs : specState tbl (ev ++ [.inv i (.tokenize c), .ret i (.tokenize c) ""]) =
            specState tbl ev := by
          have : ev ++ [.inv i (.tokenize c), .ret i (.tokenize c) ""] =
              (ev ++ [.inv i (.tokenize c)]) ++ [.ret i (.tokenize c) ""] := by simp
          rw [this, specState_ret_tokenize, specState_inv, call_empty _ _ _ hc]
        refine ⟨?_, h.excl, h.nodup, fun hw => (h.free hw).trans hs.symm,
          fun j => hs ▸ h.places j⟩
        rw [returned_append, accepts_append]
        refine ⟨h.accepted, ?_⟩
        show "" = ((specState tbl ev).call tbl c).1 ∧ True
        rw [call_empty _ _ _ hc]
        exact ⟨rfl, trivial⟩
      · rw [if_neg hc]
        apply Inv.of_returned tbl ev
        · exact Inv.move tbl ev cfg i _ h ⟨hi.1, hi.2, hc⟩
        · rw [returned_append]
          simp [returned]
    | detokenize text =>
      simp only
      apply Inv.of_returned tbl ev
      · exact Inv.move tbl ev cfg i _ h ⟨hi.1, hi.2⟩
      · rw [returned_append]
        simp [returned]
  · rw [List.append_nil]
    exact h

theorem visit_inv (tbl : Char → Char) (ev : List Event) (cfg : Config) (i : Nat)
    (e : String × String) (h : Inv tbl ev cfg) :
    Inv tbl (ev ++ (cfg.visit i e).1) (cfg.visit i e).2 := by
  have hi := h.places i
  unfold Config.visit
  split
  · rename_i text result seen hpc
    rw [hpc] at hi
    simp only [PcInv] at hi
    obtain ⟨h1, h2, h3, h4⟩ := hi
    by_cases he : e ∈ cfg.tok.reverse ∧ e ∉ seen
    · rw [if_pos he, List.append_nil]
      apply Inv.move tbl ev cfg i _ h
      refine ⟨h1, ?_, ?_, ?_⟩
      · rw [List.nodup_append]
        refine ⟨h2, List.nodup_singleton _, ?_⟩
        intro a ha hb
        rw [List.mem_singleton] at hb
        exact he.2 (hb ▸ ha)
      · intro a ha
        rcases List.mem_append.1 ha with ha | ha
        · exact h3 a ha
        · rw [List.mem_singleton] at ha
          rw [ha, ← Inv.tok_eq_of_reader tbl ev cfg i h h1]
          exact he.1
      · rw [replaceTokens_append, ← h4]
        rfl
    · rw [if_neg he, List.append_nil]
      exact h
  · rw [List.append_nil]
    exact h

theorem advance_inv (tbl : Char → Char) (ev : List Event) (cfg : Config) (i : Nat)
    (h : Inv tbl ev cfg) : Inv tbl (ev ++ (cfg.advance tbl i).1) (cfg.advance tbl i).2 := by
  have hi := h.places i
  unfold Config.advance
  split
  · -- `t.mu.Lock()`
    rename_i c hpc
    rw [hpc] at hi
    simp only [PcInv] at hi
    by_cases hl : cfg.writer = none ∧ cfg.readers = []
    · rw [if_pos hl, List.append_nil]
      refine ⟨h.accepted, fun _ => hl.2, h.nodup, fun hw => absurd hw (by simp), ?_⟩
      intro j
      by_cases hj : j = i
      · subst hj
        simp only [Function.update_same, PcInv]
        exact ⟨trivial, hi.2.2, h.free hl.1⟩
      · simp only [Function.update_noteq hj]
        have hp := h.places j
        rw [hl.1, hl.2] at hp
        rw [hl.2]
        exact PcInv_lock tbl _ _ i j _ hp hj
    · rw [if_neg hl, List.append_nil]
      exact h
  · -- the lookup `t.mapping[input]`
    rename_i c hpc
    rw [hpc] at hi
    simp only [PcInv] at hi
    obtain ⟨h1, h2, h3⟩ := hi
    split
    · rename_i token hget
      rw [List.append_nil]
      apply Inv.move tbl ev cfg i _ h
      rw [h3] at hget
      have hcall := call_hit tbl _ c token h2 hget
      simp only [PcInv]
      rw [hcall]
      exact ⟨h1, h3, rfl⟩
    · rename_i hget
      rw [List.append_nil]
      apply Inv.move tbl ev cfg i _ h
      simp only [PcInv]
      rw [h3] at hget ⊢
      exact ⟨h1, h2, rfl, hget, rfl⟩
  · -- `t.mapping[input] = token`
    rename_i c token hpc
    rw [hpc] at hi
    simp only [PcInv] at hi
    obtain ⟨h1, h2, h3, h4, h5⟩ := hi
    rw [List.append_nil]
    have hr := h.excl (by rw [h1]; simp)
    refine ⟨h.accepted, h.excl, h.nodup, fun hw => absurd (h1.symm.trans hw) (by simp), ?_⟩
    intro j
    by_cases hj : j = i
    · subst hj
      simp only [Function.update_same, PcInv]
      exact ⟨h1, h2, h4, h5, by rw [h3]⟩
    · simp only [Function.update_noteq hj]
      have hp := h.places j
      rw [h1, hr] at hp ⊢
      exact (PcInv_held tbl _ _ i j _ hp hj _ _).1
  · -- `t.reverse[token] = input`
    rename_i c token hpc
    rw [hpc] at hi
    simp only [PcInv] at hi
    obtain ⟨h1, h2, h3, h4, h5⟩ := hi
    rw [List.append_nil]
    have hr := h.excl (by rw [h1]; simp)
    refine ⟨h.accepted, h.excl, h.nodup, fun hw => absurd (h1.symm.trans hw) (by simp), ?_⟩
    intro j
    by_cases hj : j = i
    · subst hj
      simp only [Function.update_same, PcInv]
      rw [call_miss tbl _ c h2 h3, h5, ← h4]
      exact ⟨h1, rfl, rfl⟩
    · simp only [Function.update_noteq hj]
      have hp := h.places j
      rw [h1, hr] at hp ⊢
      exact (PcInv_held tbl _ _ i j _ hp hj _ _).1
  · -- the return, with `t.mu.Unlock()`
    rename_i c token hpc
    rw [hpc] at hi
    simp only [PcInv] at hi
    obtain ⟨h1, h2, h3⟩ := hi
    have hr := h.excl (by rw [h1]; simp)
    have hs := specState_ret_tokenize tbl ev i c token
    refine ⟨?_, fun hw => absurd rfl hw, h.nodup, fun _ => h2.trans hs.symm, ?_⟩
    · rw [returned_append, accepts_append]
      exact ⟨h.accepted, h3, trivial⟩
    · intro j
      by_cases hj : j = i
      · subst hj
        simp only [Function.update_same, PcInv]
        rw [hr]
        exact ⟨by simp, by simp⟩
      · simp only [Function.update_noteq hj]
        have hp := h.places j
        rw [h1, hr] at hp
        rw [hr]
        exact (PcInv_held tbl _ _ i j _ hp hj _ _).2
  · -- `t.mu.RLock()`
    rename_i text hpc
    rw [hpc] at hi
    simp only [PcInv] at hi
    by_cases hw : cfg.writer = none
    · rw [if_pos hw, List.append_nil]
      refine ⟨h.accepted, fun hne => absurd hw hne, List.nodup_cons.2 ⟨hi.2, h.nodup⟩,
        h.free, ?_⟩
      intro j
      by_cases hj : j = i
      · subst hj
        simp only [Function.update_same, PcInv]
        exact ⟨by simp, List.nodup_nil, by simp, rfl⟩
      · simp only [Function.update_noteq hj]
        have hp := h.places j
        rw [hw] at hp ⊢
        exact PcInv_rlock tbl _ _ _ i j _ hp hj
    · rw [if_neg hw, List.append_nil]
      exact h
  · -- the end of the loop and `stripUnknownDomains`
    rename_i text result seen hpc
    rw [hpc] at hi
    simp only [PcInv] at hi
    obtain ⟨h1, h2, h3, h4⟩ := hi
    by_cases hall : ∀ e ∈ cfg.tok.reverse, e ∈ seen
    · rw [if_pos hall, List.append_nil]
      apply Inv.move tbl ev cfg i _ h
      have htok := Inv.tok_eq_of_reader tbl ev cfg i h h1
      rw [htok] at hall ⊢
      have hn : (specState tbl ev).reverse.Nodup :=
        List.Nodup.of_map Prod.fst (specState_consistent tbl ev).2.1
      refine ⟨h1, seen, (List.perm_ext_iff_of_nodup h2 hn).2 fun a => ⟨h3 a, hall a⟩, ?_⟩
      rw [h4]
      rfl
    · rw [if_neg hall, List.append_nil]
      exact h
  · -- the return, with `t.mu.RUnlock()`
    rename_i text out hpc
    rw [hpc] at hi
    simp only [PcInv] at hi
    obtain ⟨h1, h2⟩ := hi
    have hs := specState_ret_detokenize tbl ev i text out
    have hw : cfg.writer = none := by
      by_contra hw
      rw [h.excl hw] at h1
      exact absurd h1 (by simp)
    refine ⟨?_, fun hne => absurd hw hne, h.nodup.erase i,
      fun hw1 => (h.free hw1).trans hs.symm, ?_⟩
    · rw [returned_append, accepts_append]
      exact ⟨h.accepted, h2, trivial⟩
    · intro j
      rw [hs]
      by_cases hj : j = i
      · subst hj
        simp only [Function.update_same, PcInv]
        rw [hw]
        exact ⟨by simp, h.nodup.not_mem_erase⟩
      · simp only [Function.update_noteq hj]
        exact PcInv_runlock tbl _ _ _ _ i j _ (h.places j) hj
  · rw [List.append_nil]
    exact h

theorem step_inv (tbl : Char → Char) (ev : List Event) (cfg : Config) (i : Nat) (ch : Choice)
    (h : Inv tbl ev cfg) : Inv tbl (ev ++ (cfg.step tbl i ch).1) (cfg.step tbl i ch).2 := by
  cases ch with
  | invoke op => exact invoke_inv tbl ev cfg i op h
  | advance => exact advance_inv tbl ev cfg i h
  | visit e => exact visit_inv tbl ev cfg i e h

theorem run_inv (tbl : Char → Char) (sched : List (Nat × Choice)) (ev : List Event)
    (cfg : Config) (h : Inv tbl ev cfg) :
    Inv tbl (ev ++ (cfg.run tbl sched).1) (cfg.run tbl sched).2 := by
  induction sched generalizing ev cfg with
  | nil =>
    simp only [Config.run, List.append_nil]
    exact h
  | cons a rest ih =>
    obtain ⟨i, ch⟩ := a
    simp only [Config.run]
    rw [← List.append_assoc]
    exact ih _ _ (step_inv tbl ev cfg i ch h)

theorem initial_inv (tbl : Char → Char) : Inv tbl [] Config.initial :=
  ⟨trivial, fun _ => rfl, List.nodup_nil, fun _ => rfl,
    fun j => ⟨by simp [Config.initial], by simp [Config.initial]⟩⟩

/-! ## Concurrent calls: the history is well formed -/

theorem Tracked.same_call (ev : List Event) (pcs : Nat → Pc) (i : Nat) (pc : Pc)
    (h : Tracked ev pcs) (hop : pc.op = (pcs i).op) : Tracked ev (Function.update pcs i pc) := by
  obtain ⟨p, h1, h2⟩ := h
  refine ⟨p, h1, fun j => ?_⟩
  by_cases hj : j = i
  · subst hj
    rw [Function.update_same, hop]
    exact h2 j
  · rw [Function.update_noteq hj]
    exact h2 j

theorem Tracked.inv (ev : List Event) (pcs : Nat → Pc) (i : Nat) (pc : Pc) (op : Op)
    (h : Tracked ev pcs) (hidle : (pcs i).op = none) (hop : pc.op = some op) :
    Tracked (ev ++ [.inv i op]) (Function.update pcs i pc) := by
  obtain ⟨p, h1, h2⟩ := h
  refine ⟨Function.update p i (some op), ?_, fun j => ?_⟩
  · rw [List.foldl_append, h1]
    simp only [List.foldl_cons, List.foldl_nil, track]
    rw [if_pos ((h2 i).trans hidle)]
  · by_cases hj : j = i
    · subst hj
      rw [Function.update_same, Function.update_same, hop]
    · rw [Function.update_noteq hj, Function.update_noteq hj]
      exact h2 j

theorem Tracked.ret (ev : List Event) (pcs : Nat → Pc) (i : Nat) (op : Op) (r : String)
    (h : Tracked ev pcs) (hcur : (pcs i).op = some op) :
    Tracked (ev ++ [.ret i op r]) (Function.update pcs i .idle) := by
  obtain ⟨p, h1, h2⟩ := h
  refine ⟨Function.update p i none, ?_, fun j => ?_⟩
  · rw [List.foldl_append, h1]
    simp only [List.foldl_cons, List.foldl_nil, track]
    rw [if_pos ((h2 i).trans hcur)]
  · by_cases hj : j = i
    · subst hj
      rw [Function.update_same, Function.update_same]
      rfl
    · rw [Function.update_noteq hj, Function.update_noteq hj]
      exact h2 j

theorem invoke_tracked (ev : List Event) (cfg : Config) (i : Nat) (op : Op)
    (h : Tracked ev cfg.pcs) :
    Tracked (ev ++ (cfg.invoke i op).1) (cfg.invoke i op).2.pcs := by
  unfold Config.invoke
  split
  · rename_i hpc
    have hidle : (cfg.pcs i).op = none := by rw [hpc]; rfl
    cases op with
    | tokenize c =>
      simp only
      by_cases hc : c.ident = ""
      · rw [if_pos hc]
        have h1 := Tracked.inv ev cfg.pcs i (.genEnter c) (.tokenize c) h hidle rfl
        have h2 := Tracked.ret _ _ i (.tokenize c) "" h1 (by rw [Function.update_same]; rfl)
        rw [Function.update_idem, ← hpc, Function.update_eq_self] at h2
        simpa using h2
      · rw [if_neg hc]
        exact Tracked.inv ev cfg.pcs i _ _ h hidle rfl
    | detokenize text => exact Tracked.inv ev cfg.pcs i _ _ h hidle rfl
  · rw [List.append_nil]
    exact h

theorem advance_tracked (tbl : Char → Char) (ev : List Event) (cfg : Config) (i : Nat)
    (h : Tracked ev cfg.pcs) :
    Tracked (ev ++ (cfg.advance tbl i).1) (cfg.advance tbl i).2.pcs := by
  unfold Config.advance
  split
  · rename_i c hpc
    split_ifs
    · rw [List.append_nil]
      exact Tracked.same_call ev cfg.pcs i _ h (by rw [hpc]; rfl)
    · rw [List.append_nil]
      exact h
  · rename_i c hpc
    split
    · rw [List.append_nil]
      exact Tracked.same_call ev cfg.pcs i _ h (by rw [hpc]; rfl)
    · rw [List.append_nil]
      exact Tracked.same_call ev cfg.pcs i _ h (by rw [hpc]; rfl)
  · rename_i c token hpc
    rw [List.append_nil]
    exact Tracked.same_call ev cfg.pcs i _ h (by rw [hpc]; rfl)
  · rename_i c token hpc
    rw [List.append_nil]
    exact Tracked.same_call ev cfg.pcs i _ h (by rw [hpc]; rfl)
  · rename_i c token hpc
    exact Tracked.ret ev cfg.pcs i _ _ h (by rw [hpc]; rfl)
  · rename_i text hpc
    split_ifs
    · rw [List.append_nil]
      exact Tracked.same_call ev cfg.pcs i _ h (by rw [hpc]; rfl)
    · rw [List.append_nil]
      exact h
  · rename_i text result seen hpc
    split_ifs
    · rw [List.append_nil]
      exact Tracked.same_call ev cfg.pcs i _ h (by rw [hpc]; rfl)
    · rw [List.append_nil]
      exact h
  · rename_i text out hpc
    exact Tracked.ret ev cfg.pcs i _ _ h (by rw [hpc]; rfl)
  · rw [List.append_nil]
    exact h

theorem visit_tracked (ev : List Event) (cfg : Config) (i : Nat) (e : String × String)
    (h : Tracked ev cfg.pcs) :
    Tracked (ev ++ (cfg.visit i e).1) (cfg.visit i e).2.pcs := by
  unfold Config.visit
  split
  · rename_i text result seen hpc
    split_ifs
    · rw [List.append_nil]
      exact Tracked.same_call ev cfg.pcs i _ h (by rw [hpc]; rfl)
    · rw [List.append_nil]
      exact h
  · rw [List.append_nil]
    exact h

theorem run_tracked (tbl : Char → Char) (sched : List (Nat × Choice)) (ev : List Event)
    (cfg : Config) (h : Tracked ev cfg.pcs) :
    Tracked (ev ++ (cfg.run tbl sched).1) (cfg.run tbl sched).2.pcs := by
  induction sched generalizing ev cfg with
  | nil =>
    simp only [Config.run, List.append_nil]
    exact h
  | cons a rest ih =>
    obtain ⟨i, ch⟩ := a
    simp only [Config.run]
    rw [← List.append_assoc]
    apply ih
    cases ch with
    | invoke op => exact invoke_tracked ev cfg i op h
    | advance => exact advance_tracked tbl ev cfg i h
    | visit e => exact visit_tracked ev cfg i e h

/-- Every history of the goroutines is well formed. -/
theorem run_wellFormed (tbl : Char → Char) (sched : List (Nat × Choice)) :
    wellFormed (Config.initial.run tbl sched).1 := by
  obtain ⟨p, h1, -⟩ := run_tracked tbl sched [] Config.initial ⟨_, rfl, fun _ => rfl⟩
  unfold wellFormed
  rw [List.nil_append] at h1
  rw [h1]
  rfl

/-- While a goroutine holds the read lock, the Tokenizer in memory is the one
after the calls that have returned and no goroutine is inside
`generateToken`. -/
theorem Inv.reading (tbl : Char → Char) (ev : List Event) (cfg : Config) (h : Inv tbl ev cfg)
    (i : Nat) (hi : (cfg.pcs i).reading = true) :
    cfg.tok = specState tbl ev ∧ ∀ j, (cfg.pcs j).writing = false := by
  have hp := h.places i
  have hmem : i ∈ cfg.readers := by
    cases hpc : cfg.pcs i <;> rw [hpc] at hi hp <;> simp only [Pc.reading] at hi <;>
      first
        | exact hp.1
        | exact absurd hi (by simp)
  refine ⟨Inv.tok_eq_of_reader tbl ev cfg i h hmem, fun j => ?_⟩
  have hw : cfg.writer = none := by
    by_contra hw
    rw [h.excl hw] at hmem
    exact absurd hmem (by simp)
  have hq := h.places j
  rw [hw] at hq
  cases hpc : cfg.pcs j <;> rw [hpc] at hq <;> simp only [PcInv] at hq <;>
    first
      | rfl
      | exact absurd hq.1 (by simp)

/-- At most one goroutine is inside `generateToken`. -/
theorem Inv.one_writer (tbl : Char → Char) (ev : List Event) (cfg : Config)
    (h : Inv tbl ev cfg) (i j : Nat) (hi : (cfg.pcs i).writing = true)
    (hj : (cfg.pcs j).writing = true) : i = j := by
  have hwi : cfg.writer = some i := by
    have hp := h.places i
    cases hpc : cfg.pcs i <;> rw [hpc] at hi hp <;> simp only [Pc.writing] at hi <;>
      first
        | exact hp.1
        | exact absurd hi (by simp)
  have hwj : cfg.writer = some j := by
    have hp := h.places j
    cases hpc : cfg.pcs j <;> rw [hpc] at hj hp <;> simp only [Pc.writing] at hj <;>
      first
        | exact hp.1
        | exact absurd hj (by simp)
  exact Option.some.inj (hwi.symm.trans hwj)

/-- Three goroutines: the call for `alice` holds the write lock while
`Detokenize` waits for the read lock; the calls return in the order of the
locks, with the results of the sequential Tokenizer. -/
theorem concurrent_example :
    returned (Config.initial.run asciiOnly
      [(0, .invoke (.tokenize (.user "alice"))), (1, .invoke (.detokenize "x ID_U_CAD3 y")),
        (2, .invoke (.tokenize (.user "bob"))), (0, .advance), (1, .advance), (2, .advance),
        (0, .advance), (0, .advance), (1, .advance), (0, .advance), (0, .advance),
        (1, .advance), (2, .advance), (1, .visit ("ID_U_CAD3", "ALICE")), (2, .advance),
        (1, .advance), (1, .advance), (2, .advance), (2, .advance), (2, .advance),
        (2, .advance), (2, .advance)]).1 =
      [(.tokenize (.user "alice"), "ID_U_CAD3"), (.detokenize "x ID_U_CAD3 y", "x ALICE y"),
        (.tokenize (.user "bob"), "ID_U_053B")] := by
  decide

/-! ## The sampler: the tiers of the source and of the specification -/

theorem tiers_agree (ltbl : Char → Char) (n : Node) (h : isDisabledPlain ltbl n = false) :
    isControlBased ltbl n = specControlBearing ltbl n ∧
    isHighValue ltbl n = specHighValue ltbl n ∧ isRegular ltbl n = specRegular ltbl n := by
  revert h
  unfold isDisabledPlain isControlBased isHighValue isRegular specRegular specHighValue
    specControlBearing hasControlIndicators specElevated
  cases isBuiltInAdmin ltbl n <;> cases matchesControlName ltbl n <;>
    cases n.Properties.Enabled <;> cases n.Properties.AdminCount <;>
    cases n.Properties.HighValue <;> simp

theorem tiers_differ (ltbl : Char → Char) (n : Node) (h : isDisabledPlain ltbl n = true) :
    isControlBased ltbl n = true ∧ specControlBearing ltbl n = false ∧
    specHighValue ltbl n = false ∧ specRegular ltbl n = true := by
  revert h
  unfold isDisabledPlain isControlBased specRegular specHighValue
    specControlBearing hasControlIndicators specElevated
  cases isBuiltInAdmin ltbl n <;> cases matchesControlName ltbl n <;>
    cases n.Properties.Enabled <;> cases n.Properties.AdminCount <;>
    cases n.Properties.HighValue <;> simp

/-- Away from the disabled entities without elevated flag and without matching
name, `sampleNodes` returns the selection of the specification. -/
theorem sampleNodes_eq_sampleSpec (ltbl : Char → Char) (nodes : List Node) (maxCount : Int)
    (h0 : 0 ≤ maxCount) (h1 : maxCount < nodes.length)
    (h : ∀ n ∈ nodes, isDisabledPlain ltbl n = false) :
    sampleNodes ltbl nodes maxCount = some (sampleSpec ltbl nodes maxCount.toNat) := by
  rw [sampleNodes_eq_take ltbl nodes maxCount h1 h0]
  unfold byTier sampleSpec
  rw [List.filter_congr (fun n hn => (tiers_agree ltbl n (h n hn)).1),
    List.filter_congr (fun n hn => (tiers_agree ltbl n (h n hn)).2.1),
    List.filter_congr (fun n hn => (tiers_agree ltbl n (h n hn)).2.2)]

/-- For every list and every cap smaller than its length, when the lists
`controlBased` and `highValue` of the source together hold at least `cap`
entities, every entity that `sampleNodes` returns is in one of these two lists
and none is in the list `regular` or in the list `builtInAdmins`; and
`sampleNodes` returns a list when the cap is not negative. -/
theorem own_lists_fill_cap (ltbl : Char → Char) (nodes : List Node) (maxCount : Int)
    (h1 : maxCount < nodes.length)
    (h3 : maxCount ≤ ((categorize ltbl nodes ⟨[], [], [], []⟩).controlBased.length : Int) +
      ((categorize ltbl nodes ⟨[], [], [], []⟩).highValue.length : Int)) :
    (∀ r, sampleNodes ltbl nodes maxCount = some r → ∀ n ∈ r,
      (n ∈ (categorize ltbl nodes ⟨[], [], [], []⟩).controlBased ∨
        n ∈ (categorize ltbl nodes ⟨[], [], [], []⟩).highValue) ∧
      n ∉ (categorize ltbl nodes ⟨[], [], [], []⟩).regular ∧
      n ∉ (categorize ltbl nodes ⟨[], [], [], []⟩).builtInAdmins) ∧
    (0 ≤ maxCount → ∃ r, sampleNodes ltbl nodes maxCount = some r) := by
  constructor
  · intro r hr n hn
    by_cases h2 : 0 ≤ maxCount
    · rw [sampleNodes_eq_take ltbl nodes maxCount h1 h2] at hr
      cases hr
      rw [categorize_eq] at h3 ⊢
      simp only [List.nil_append] at h3 ⊢
      unfold byTier at hn
      rw [List.append_assoc, List.append_assoc, ← List.append_assoc,
        List.take_append_eq_append_take] at hn
      have h0 : maxCount.toNat - (nodes.filter (isControlBased ltbl) ++
          nodes.filter (isHighValue ltbl)).length = 0 := by
        rw [List.length_append]
        omega
      rw [h0, List.take_zero, List.append_nil] at hn
      have hn2 := List.mem_of_mem_take hn
      rw [List.mem_append] at hn2
      refine ⟨hn2, ?_, ?_⟩
      · intro hreg
        simp only [List.mem_filter, isControlBased, isHighValue, isRegular, Bool.and_eq_true,
          Bool.not_eq_true', Bool.or_eq_true] at hn2 hreg
        rcases hn2 with hn2 | hn2
        · rw [hreg.2.1.2] at hn2
          exact absurd hn2.2.2 (by simp)
        · rcases hn2.2.2 with h | h
          · have := hreg.2.2
            simp [h] at this
          · have := hreg.2.2
            simp [h] at this
      · intro hbi
        simp only [List.mem_filter, isControlBased, isHighValue, Bool.and_eq_true,
          Bool.not_eq_true'] at hn2 hbi
        rcases hn2 with hn2 | hn2
        · rw [hbi.2] at hn2
          exact absurd hn2.2.1 (by simp)
        · rw [hbi.2] at hn2
          exact absurd hn2.2.1.1 (by simp)
    · rw [sampleNodes_negative ltbl nodes maxCount (by omega)] at hr
      cases hr
  · intro h2
    exact ⟨_, sampleNodes_eq_take ltbl nodes maxCount h1 h2⟩

/-! ## The sanitizer: the fields of the entities of the payload -/

theorem tokens_append (tbl : Char → Char) (cs ds : List Call) (t : Tokenizer) :
    t.tokens tbl (cs ++ ds) = t.tokens tbl cs ++ (t.run tbl cs).tokens tbl ds := by
  induction cs generalizing t with
  | nil => rfl
  | cons c cs ih =>
    show (t.call tbl c).1 :: ((t.call tbl c).2).tokens tbl (cs ++ ds) = _
    rw [ih]
    rfl

/-- The tokens of the entities of a loop whose body makes the call `mk n` for
the node `n`, and the Tokenizer after the loop. -/
theorem summaries_tokens (tbl : Char → Char)
    (body : Int → Tokenizer → Node → SanitizedEntity × Tokenizer) (mk : Node → Call)
    (h : ∀ i t n, (body i t n).1.Token = (t.call tbl (mk n)).1 ∧
      (body i t n).2 = (t.call tbl (mk n)).2)
    (i : Int) (t : Tokenizer) (nodes : List Node) :
    (summaries body i t nodes).1.map (fun e => e.Token) = t.tokens tbl (nodes.map mk) ∧
      (summaries body i t nodes).2 = t.run tbl (nodes.map mk) := by
  induction nodes generalizing i t with
  | nil => exact ⟨rfl, rfl⟩
  | cons n rest ih =>
    obtain ⟨h1, h2⟩ := ih (i + 1) (body i t n).2
    rw [(h i t n).2] at h1 h2
    refine ⟨?_, ?_⟩
    · show (body i t n).1.Token ::
        (summaries body (i + 1) (body i t n).2 rest).1.map (fun e => e.Token) = _
      rw [(h i t n).1, (h i t n).2, h1]
      rfl
    · show (summaries body (i + 1) (body i t n).2 rest).2 = _
      rw [(h i t n).2, h2]
      rfl

/-- A field of the entities of a loop that the body computes from the number of
the iteration and the node. -/
theorem summaries_field {β : Type} (body : Int → Tokenizer → Node → SanitizedEntity × Tokenizer)
    (f : SanitizedEntity → β) (g : Int → Node → β)
    (h : ∀ i t n, f (body i t n).1 = g i n) (k : Nat) (t : Tokenizer) (nodes : List Node) :
    (summaries body (k : Int) t nodes).1.map f =
      (nodes.enumFrom k).map (fun p => g (p.1 : Int) p.2) := by
  induction nodes generalizing k t with
  | nil => rfl
  | cons n rest ih =>
    show f (body (k : Int) t n).1 ::
      (summaries body ((k : Int) + 1) (body (k : Int) t n).2 rest).1.map f = _
    have h1 := ih (k + 1) (body (k : Int) t n).2
    rw [Nat.cast_add, Nat.cast_one] at h1
    rw [h, h1]
    rfl

/-- A field of the entities of a loop that the body computes from the node
alone. -/
theorem summaries_field_node {β : Type}
    (body : Int → Tokenizer → Node → SanitizedEntity × Tokenizer)
    (f : SanitizedEntity → β) (g : Node → β)
    (h : ∀ i t n, f (body i t n).1 = g n) (t : Tokenizer) (nodes : List Node) :
    (summaries body 0 t nodes).1.map f = nodes.map g := by
  have h1 := summaries_field body f (fun _ => g) h 0 t nodes
  rw [Nat.cast_zero] at h1
  have h2 : (fun p : Nat × Node => g p.2) = g ∘ Prod.snd := rfl
  rw [h1, h2, ← List.map_map, List.enumFrom_map_snd]

/-- The Tokenizer that `SanitizeBloodHoundData` leaves. -/
theorem sanitize_tokenizer (tbl : Char → Char) (now : Int → Int) (data : BloodHoundData)
    (t : Tokenizer) (m : Int) :
    (SanitizeBloodHoundData tbl now data t m).2 =
      (summaries (fun _ => computerEntity tbl) 0
        (summaries (fun _ => groupEntity tbl) 0
          (summaries (fun i => userEntity tbl (now i)) 0 t (data.Users.take m.toNat)).2
          (data.Groups.take m.toNat)).2
        (data.Computers.take m.toNat)).2 := by
  show (afterComputers tbl now data t m).tokenizer = _
  rw [afterComputers_eq, afterGroups_eq, afterUsers_eq]

/-! ## The guard: the text before a character that no match can hold -/

theorem atBoundary_append (prev : Option Char) (u v : List Char) (h : u ≠ []) :
    atBoundary prev (u ++ v) = atBoundary prev u := by
  cases u with
  | nil => exact absurd rfl h
  | cons c u => rfl

/-- The characters of a match of the domain pattern: those of the class
`[a-z0-9-]`, and the dot. -/
theorem domain_word_chars (l1 l2 : List Char) (hw : isDomainWord l1 l2 = true) :
    ∀ c ∈ l1 ++ '.' :: l2, isLabelChar c = true ∨ c = '.' := by
  obtain ⟨h1, -, -, -, h2, -⟩ := (isDomainWord_iff l1 l2).1 hw
  intro c hc
  rcases List.mem_append.1 hc with h | h
  · exact Or.inl (h1 c h)
  · rcases List.mem_cons.1 h with h | h
    · exact Or.inr h
    · exact Or.inl (lower_is_label c (h2 c h))

/-- A match that begins in a text `x` whose last character is none that a match
can hold ends in `x`, before that character, whatever follows `x`. -/
theorem match_ends_before (prev : Option Char) (x rest : List Char) (e : Char)
    (hx : x.getLast? = some e) (he : isLabelChar e = false) (hd : e ≠ '.')
    (st : Option Char × List Char) (hst : st ∈ domainPattern.run (prev, x ++ rest)) :
    ∃ l1 l2 r, r ≠ [] ∧ x = l1 ++ '.' :: (l2 ++ r) ∧ isDomainWord l1 l2 = true ∧
      atBoundary prev x = true ∧ atBoundary (lastOr none l2) r = true := by
  have hxne : x ≠ [] := by
    intro h0
    rw [h0] at hx
    simp at hx
  rw [mem_run_domain] at hst
  obtain ⟨l1, l2, r, hs, hw, hb1, hb2, -⟩ := hst
  have hch := domain_word_chars l1 l2 hw
  have hnot : e ∉ l1 ++ '.' :: l2 := by
    intro hmem
    rcases hch e hmem with h | h
    · rw [he] at h
      exact absurd h (by simp)
    · exact hd h
  have hs2 : x ++ rest = (l1 ++ '.' :: l2) ++ r := by
    rw [hs]
    simp
  rcases List.append_eq_append_iff.1 hs2 with ⟨a1, h1, -⟩ | ⟨c1, h1, h2⟩
  · exfalso
    apply hnot
    rw [h1]
    exact List.mem_append_left _ (List.mem_of_getLast?_eq_some hx)
  · have hc1 : c1 ≠ [] := by
      intro h0
      rw [h0, List.append_nil] at h1
      apply hnot
      rw [← h1]
      exact List.mem_of_getLast?_eq_some hx
    refine ⟨l1, l2, c1, hc1, by rw [h1]; simp, hw, ?_, ?_⟩
    · rw [← atBoundary_append prev x rest hxne]
      exact hb1
    · rw [← atBoundary_append _ c1 rest hc1, ← h2]
      exact hb2

/-- The match at a position of a text `x` whose last character is none that a
match can hold: it is the same whatever follows `x`, and it is shorter than
`x`. -/
theorem matchLen_cut (prev : Option Char) (x rest : List Char) (e : Char)
    (hx : x.getLast? = some e) (he : isLabelChar e = false) (hd : e ≠ '.') :
    domainPattern.matchLen prev (x ++ rest) = domainPattern.matchLen prev x ∧
      ∀ n, domainPattern.matchLen prev x = some n → n < x.length := by
  have key : ∀ rest1 st, st ∈ domainPattern.run (prev, x ++ rest1) →
      ∃ k, k < x.length ∧ ∀ rest2, domainPattern.matchLen prev (x ++ rest2) = some k := by
    intro rest1 st hst
    obtain ⟨l1, l2, r, hr, hxe, hw, hb1, hb2⟩ := match_ends_before prev x rest1 e hx he hd st hst
    refine ⟨(l1 ++ '.' :: l2).length, ?_, ?_⟩
    · have hlen := congrArg List.length hxe
      have hrl : 0 < r.length := List.length_pos.2 hr
      simp only [List.length_append, List.length_cons] at hlen ⊢
      omega
    · intro rest2
      have hxne : x ≠ [] := by
        intro h0
        rw [h0] at hx
        simp at hx
      have h3 := matchLen_domain prev l1 l2 (r ++ rest2) hw
        (by
          have h4 : l1 ++ '.' :: (l2 ++ (r ++ rest2)) = x ++ rest2 := by
            rw [hxe]
            simp
          rw [h4, atBoundary_append prev x rest2 hxne]
          exact hb1)
        (by
          rw [atBoundary_append _ r rest2 hr]
          exact hb2)
      have h4 : l1 ++ '.' :: (l2 ++ (r ++ rest2)) = x ++ rest2 := by
        rw [hxe]
        simp
      rw [h4] at h3
      exact h3
  have hx0 : domainPattern.matchLen prev x = domainPattern.matchLen prev (x ++ []) := by
    rw [List.append_nil]
  cases hrun : domainPattern.run (prev, x ++ rest) with
  | nil =>
    have h1 : domainPattern.matchLen prev (x ++ rest) = none :=
      matchLen_of_run_nil _ _ _ hrun
    cases hrun0 : domainPattern.run (prev, x ++ []) with
    | nil =>
      have h2 : domainPattern.matchLen prev (x ++ []) = none :=
        matchLen_of_run_nil _ _ _ hrun0
      rw [hx0, h1, h2]
      exact ⟨rfl, fun n hn => by cases hn⟩
    | cons st l =>
      obtain ⟨k, -, hk⟩ := key [] st (by rw [hrun0]; simp)
      rw [hk rest] at h1
      cases h1
  | cons st l =>
    obtain ⟨k, hlt, hk⟩ := key rest st (by rw [hrun]; simp)
    rw [hx0, hk rest, hk []]
    refine ⟨rfl, fun n hn => ?_⟩
    cases hn
    exact hlt

theorem scan_nil (re : Regex) (repl : String → String) (prev : Option Char) (skip : Nat) :
    replaceFuncScan re repl prev skip [] = [] := by
  cases skip <;> rfl

/-- The scan of a text `x ++ rest`, where the last character of `x` is none that
a match can hold, is the scan of `x` followed by the scan of `rest`. -/
theorem scan_cut (repl : String → String) (x rest : List Char) (prev : Option Char)
    (skip : Nat) (hskip : skip ≤ x.length - 1)
    (hx : ∀ e, x.getLast? = some e → isLabelChar e = false ∧ e ≠ '.') :
    replaceFuncScan domainPattern repl prev skip (x ++ rest) =
      replaceFuncScan domainPattern repl prev skip x ++
        replaceFuncScan domainPattern repl (lastOr prev x) 0 rest := by
  induction x generalizing prev skip with
  | nil =>
    have h0 : skip = 0 := by simpa using hskip
    subst h0
    rw [scan_nil]
    rfl
  | cons c x ih =>
    have hx1 : ∀ e, x.getLast? = some e → isLabelChar e = false ∧ e ≠ '.' := by
      intro e h
      apply hx e
      rw [List.getLast?_cons, h]
      rfl
    cases skip with
    | succ s =>
      show replaceFuncScan domainPattern repl prev (s + 1) (c :: (x ++ rest)) = _
      rw [replaceFuncScan, ih (some c) s (by simp only [List.length_cons] at hskip; omega) hx1]
      · rfl
    | zero =>
      obtain ⟨e, hlast⟩ : ∃ e, (c :: x).getLast? = some e := by
        cases h : (c :: x).getLast? with
        | none => simp at h
        | some e => exact ⟨e, rfl⟩
      obtain ⟨hcut, hlt⟩ := matchLen_cut prev (c :: x) rest e hlast (hx e hlast).1 (hx e hlast).2
      show replaceFuncScan domainPattern repl prev 0 (c :: (x ++ rest)) = _
      rw [replaceFuncScan, replaceFuncScan]
      rw [← List.cons_append, hcut]
      cases hm : domainPattern.matchLen prev (c :: x) with
      | none =>
        show c :: replaceFuncScan domainPattern repl (some c) 0 (x ++ rest) = _
        rw [ih (some c) 0 (Nat.zero_le _) hx1]
        rfl
      | some k =>
        cases k with
        | zero =>
          show c :: replaceFuncScan domainPattern repl (some c) 0 (x ++ rest) = _
          rw [ih (some c) 0 (Nat.zero_le _) hx1]
          rfl
        | succ n =>
          have hn := hlt (n + 1) hm
          simp only [List.length_cons] at hn
          show (repl ⟨(c :: (x ++ rest)).take (n + 1)⟩).data ++
            replaceFuncScan domainPattern repl (some c) n (x ++ rest) = _
          rw [ih (some c) n (by omega) hx1]
          have ht : (c :: (x ++ rest)).take (n + 1) = (c :: x).take (n + 1) := by
            rw [← List.cons_append, List.take_append_of_le_length]
            simp only [List.length_cons]
            omega
          rw [ht, List.append_assoc]
          rfl

/-- The guard on a text `a ++ m ++ b` where `m` is a word, a dot and a word of
the pattern, the character before `m` is neither a word character nor a hyphen
nor a dot, and the character after `m` is not a word character: the guard has
its way with `a`, replaces `m` and goes on with `b`. -/
theorem strip_word_after (t : Tokenizer) (a l1 l2 b : List Char)
    (hw : isDomainWord l1 l2 = true)
    (ha : ∀ c, a.getLast? = some c → isWordChar c = false ∧ c ≠ '-' ∧ c ≠ '.')
    (hb : ∀ c, b.head? = some c → isWordChar c = false) :
    replaceFuncScan domainPattern t.redact none 0 (a ++ ((l1 ++ '.' :: l2) ++ b)) =
      replaceFuncScan domainPattern t.redact none 0 a ++ ((t.redact ⟨l1 ++ '.' :: l2⟩).data ++
        replaceFuncScan domainPattern t.redact (l1 ++ '.' :: l2).getLast? 0 b) := by
  have hcut := scan_cut t.redact a ((l1 ++ '.' :: l2) ++ b) none 0 (Nat.zero_le _) (by
    intro e h
    obtain ⟨h1, h2, h3⟩ := ha e h
    refine ⟨?_, h3⟩
    cases hl : isLabelChar e with
    | false => rfl
    | true =>
      exfalso
      unfold isLabelChar at hl
      rcases Bool.or_eq_true_iff.1 hl with h4 | h4
      · have := lowerOrDigit_is_word e h4
        rw [h1] at this
        exact absurd this (by simp)
      · exact h2 (by simpa using h4))
  rw [hcut]
  congr 1
  have hw0 := (isDomainWord_iff l1 l2).1 hw
  obtain ⟨hl1, -, ⟨c0, hh, hc0⟩, -, hl2, hlen2⟩ := hw0
  have hl2ne : l2 ≠ [] := by
    intro h0
    rw [h0] at hlen2
    simp at hlen2
  have hb1 : atBoundary (lastOr none a) (l1 ++ '.' :: (l2 ++ b)) = true := by
    cases l1 with
    | nil => simp at hh
    | cons c l1 =>
      simp only [List.head?_cons, Option.some.injEq] at hh
      subst hh
      rw [lastOr_none]
      cases hg : a.getLast? with
      | none => simp [atBoundary, lowerOrDigit_is_word c hc0]
      | some e => simp [atBoundary, lowerOrDigit_is_word c hc0, (ha e hg).1]
  have hb2 : atBoundary (lastOr none l2) b = true := by
    rw [lastOr_none]
    obtain ⟨x, e, hxe⟩ : ∃ x e, l2 = x ++ [e] := by
      rcases List.eq_nil_or_concat l2 with h | ⟨x, e, h⟩
      · exact absurd h hl2ne
      · exact ⟨x, e, by rw [h, List.concat_eq_append]⟩
    have he : isWordChar e = true := lower_is_word e (hl2 e (by rw [hxe]; simp))
    rw [hxe, List.getLast?_concat]
    cases hg : b.head? with
    | none => simp [atBoundary, he, hg]
    | some d => simp [atBoundary, he, hg, hb d hg]
  have hlen := matchLen_domain (lastOr none a) l1 l2 b hw hb1 hb2
  have happ : (l1 ++ '.' :: l2) ++ b = l1 ++ '.' :: (l2 ++ b) := by simp
  rw [← happ] at hlen
  rw [scan_match domainPattern t.redact (l1 ++ '.' :: l2) b (lastOr none a) (by simp) hlen]
  congr 2
  rw [lastOr_eq_getLast]
  have : (l1 ++ '.' :: l2).getLast? ≠ none := by simp
  cases hg : (l1 ++ '.' :: l2).getLast? with
  | none => exact absurd hg this
  | some e => rfl

theorem isPrefixOf_append_cases (old u v : List Char) (h : old.isPrefixOf (u ++ v) = true) :
    old.isPrefixOf u = true ∨ ∃ w, w ≠ [] ∧ old = u ++ w ∧ w <+: v := by
  rw [List.isPrefixOf_iff_prefix] at h
  obtain ⟨t, ht⟩ := h
  rcases List.append_eq_append_iff.1 ht with ⟨a1, h1, -⟩ | ⟨c1, h1, h2⟩
  · left
    rw [List.isPrefixOf_iff_prefix]
    exact ⟨a1, h1.symm⟩
  · cases c1 with
    | nil =>
      left
      rw [List.isPrefixOf_iff_prefix, h1, List.append_nil]
    | cons d c1 =>
      right
      exact ⟨d :: c1, by simp, h1, ⟨t, h2.symm⟩⟩

theorem isPrefixOf_append_left (old u v : List Char) (h : old.isPrefixOf u = true) :
    old.isPrefixOf (u ++ v) = true := by
  rw [List.isPrefixOf_iff_prefix] at h ⊢
  exact h.trans (List.prefix_append u v)

theorem replaceScan_nil (old new : List Char) (skip : Nat) : replaceScan old new skip [] = [] := by
  cases skip <;> rfl

/-- The scan of `strings.ReplaceAll` over `u ++ v`, when every occurrence that
begins in `u` ends in `u`: the scan of `u`, then the scan of `v`. -/
theorem replaceScan_split (old new u v : List Char) (skip : Nat) (hskip : skip ≤ u.length)
    (hno : ∀ u1 u2, u = u1 ++ u2 → u2 ≠ [] → old.isPrefixOf (u2 ++ v) = true →
      old.isPrefixOf u2 = true) :
    replaceScan old new skip (u ++ v) = replaceScan old new skip u ++ replaceScan old new 0 v := by
  induction u generalizing skip with
  | nil =>
    have h0 : skip = 0 := by simpa using hskip
    subst h0
    rw [replaceScan_nil]
    rfl
  | cons c u ih =>
    have hno1 : ∀ u1 u2, u = u1 ++ u2 → u2 ≠ [] → old.isPrefixOf (u2 ++ v) = true →
        old.isPrefixOf u2 = true := by
      intro u1 u2 h1 h2 h3
      exact hno (c :: u1) u2 (by rw [h1]; rfl) h2 h3
    cases skip with
    | succ s =>
      show replaceScan old new (s + 1) (c :: (u ++ v)) = _
      rw [replaceScan, ih s (by simp only [List.length_cons] at hskip; omega) hno1]
      · rfl
    | zero =>
      show replaceScan old new 0 (c :: (u ++ v)) = replaceScan old new 0 (c :: u) ++ _
      rw [replaceScan, replaceScan]
      by_cases hp : old.isPrefixOf (c :: (u ++ v)) = true
      · have hp1 : old.isPrefixOf (c :: u) = true := hno [] (c :: u) rfl (by simp) hp
        rw [if_pos hp, if_pos hp1]
        have hlen : old.length ≤ u.length + 1 := by
          rw [List.isPrefixOf_iff_prefix] at hp1
          simpa using hp1.length_le
        rw [ih (old.length - 1) (by omega) hno1, List.append_assoc]
      · have hp1 : ¬ old.isPrefixOf (c :: u) = true := by
          intro h
          exact hp (isPrefixOf_append_left old (c :: u) v h)
        rw [if_neg hp, if_neg hp1, ih 0 (Nat.zero_le _) hno1]
        rfl

/-- No occurrence goes over the end of a text whose last character is none of
`old`. -/
theorem no_straddle_left (old u v : List Char) (d : Char) (hu : u.getLast? = some d)
    (hd : d ∉ old) :
    ∀ u1 u2, u = u1 ++ u2 → u2 ≠ [] → old.isPrefixOf (u2 ++ v) = true →
      old.isPrefixOf u2 = true := by
  intro u1 u2 h1 h2 h3
  rcases isPrefixOf_append_cases old u2 v h3 with h | ⟨w, -, hw, -⟩
  · exact h
  · exfalso
    apply hd
    have hl : u2.getLast? = some d := by
      rw [h1, List.getLast?_append] at hu
      cases hg : u2.getLast? with
      | none =>
        cases u2 with
        | nil => exact absurd rfl h2
        | cons y u2 => simp at hg
      | some y =>
        rw [hg] at hu
        exact hu
    rw [hw]
    exact List.mem_append_left _ (List.mem_of_getLast?_eq_some hl)

/-- No occurrence goes over the start of a text whose first character is none
of `old`. -/
theorem no_straddle_right (old u v : List Char) (hv : ∀ d, v.head? = some d → d ∉ old) :
    ∀ u1 u2, u = u1 ++ u2 → u2 ≠ [] → old.isPrefixOf (u2 ++ v) = true →
      old.isPrefixOf u2 = true := by
  intro u1 u2 _ _ h3
  rcases isPrefixOf_append_cases old u2 v h3 with h | ⟨w, hw1, hw2, hw3⟩
  · exact h
  · exfalso
    cases w with
    | nil => exact hw1 rfl
    | cons d w =>
      obtain ⟨t, ht⟩ := hw3
      apply hv d (by rw [← ht]; rfl)
      rw [hw2]
      simp

theorem replaceScan_self (old new : List Char) (hold : old ≠ []) :
    replaceScan old new 0 old = new := by
  cases old with
  | nil => exact absurd rfl hold
  | cons c o =>
    rw [replaceScan]
    have hp : (c :: o).isPrefixOf (c :: o) = true := by
      rw [List.isPrefixOf_iff_prefix]
    rw [if_pos hp]
    have h := replaceScan_skip (c :: o) new o []
    rw [List.append_nil] at h
    show new ++ replaceScan (c :: o) new o.length o = new
    rw [h]
    simp [replaceScan]

theorem prefix_chars_token : ∀ p ∈ kindPrefixes, ∀ c ∈ p.data, isTokenChar c = true := by
  decide

theorem upperHex_chars_token : ∀ c ∈ "0123456789ABCDEF".data, isTokenChar c = true := by
  decide

theorem upperHex_tokenChar (c : Char) (h : isUpperHex c = true) : isTokenChar c = true :=
  upperHex_chars_token c (by simpa [isUpperHex] using h)

/-- A token is made of token characters. -/
theorem token_chars (tok : String) (h : isTokenShape tok = true) :
    ∀ c ∈ tok.data, isTokenChar c = true := by
  obtain ⟨p, hp, s, hd, -, hs⟩ := isTokenShape_split tok h
  intro c hc
  rw [hd] at hc
  rcases List.mem_append.1 hc with h1 | h1
  · exact prefix_chars_token p hp c h1
  · exact upperHex_tokenChar c (hs c h1)

/-- The scan of `strings.ReplaceAll` for a token `k` over a text of mentions
that stand apart: the scan works on each mention by itself and leaves the text
between them. -/
theorem replaceScan_mentions (k x : List Char) (r r2 : String → Bool)
    (hkc : ∀ c ∈ k, isTokenChar c = true) (ms : List Mention) (before : String)
    (hdel : delimited before ms = true)
    (hbefore : containsL k before.data = false)
    (hafter : ∀ m ∈ ms, containsL k m.after.data = false)
    (hpiece : ∀ m ∈ ms,
      replaceScan k x 0 (if r m.token then m.real else m.token).data =
        (if r2 m.token then m.real else m.token).data) :
    replaceScan k x 0 (mentionsText r before ms).data = (mentionsText r2 before ms).data := by
  induction ms generalizing before with
  | nil =>
    show replaceScan k x 0 (before.data ++ []) = before.data ++ []
    rw [List.append_nil]
    exact replaceScan_absent _ _ _ hbefore
  | cons m rest ih =>
    simp only [delimited, Bool.and_eq_true, Bool.or_eq_true, List.isEmpty_iff] at hdel
    obtain ⟨⟨⟨hd1, hd2⟩, hd3⟩, hd4⟩ := hdel
    have hih := ih m.after hd4 (hafter m (by simp))
      (fun m1 h1 => hafter m1 (by simp [h1])) (fun m1 h1 => hpiece m1 (by simp [h1]))
    have hsplit1 : replaceScan k x 0 (mentionsText r before (m :: rest)).data =
        replaceScan k x 0 before.data ++
          replaceScan k x 0 ((if r m.token then m.real else m.token).data ++
            (mentionsText r m.after rest).data) := by
      show replaceScan k x 0 (before.data ++ _) = _
      have e1 : (m :: rest).flatMap (fun m => (if r m.token then m.real else m.token).data ++
          m.after.data) = (if r m.token then m.real else m.token).data ++
            (mentionsText r m.after rest).data := by
        simp [mentionsText, List.flatMap_cons]
      rw [e1]
      apply replaceScan_split _ _ _ _ 0 (Nat.zero_le _)
      cases hl : before.data.getLast? with
      | none =>
        have h0 : before.data = [] := by
          cases hb : before.data with
          | nil => rfl
          | cons y l => rw [hb] at hl; simp at hl
        intro u1 u2 h1 h2 _
        rw [h0] at h1
        have : u2 = [] := by
          cases u1 <;> cases u2 <;> simp at h1 ⊢
        exact absurd this h2
      | some d =>
        apply no_straddle_left _ _ _ d hl
        intro hmem
        have h1 := hkc d hmem
        simp only [endsClear, hl, Option.elim, Bool.not_eq_true', h1] at hd1
        exact absurd hd1 (by simp)
    have hsplit2 : replaceScan k x 0 ((if r m.token then m.real else m.token).data ++
          (mentionsText r m.after rest).data) =
        replaceScan k x 0 (if r m.token then m.real else m.token).data ++
          replaceScan k x 0 (mentionsText r m.after rest).data := by
      apply replaceScan_split _ _ _ _ 0 (Nat.zero_le _)
      apply no_straddle_right
      intro d hd hmem
      have h1 := hkc d hmem
      have hhead : m.after.data.head? = some d := by
        cases ha : m.after.data with
        | nil =>
          rcases hd3 with h | h
          · rw [h] at hd
            simp [mentionsText, ha] at hd
          · exact absurd (String.ext ha) (bne_iff_ne.1 h)
        | cons y l =>
          simp only [mentionsText, ha, List.cons_append, List.head?_cons] at hd
          rw [List.head?_cons]
          exact hd
      simp only [startsClear, hhead, Option.elim, Bool.not_eq_true', h1] at hd2
      exact absurd hd2 (by simp)
    rw [hsplit1, hsplit2, hih, hpiece m (by simp), replaceScan_absent _ _ _ hbefore]
    simp [mentionsText, List.flatMap_cons]

theorem mentionsText_congr (r r2 : String → Bool) (first : String) (ms : List Mention)
    (h : ∀ m ∈ ms, r m.token = r2 m.token) : mentionsText r first ms = mentionsText r2 first ms := by
  unfold mentionsText
  congr 2
  induction ms with
  | nil => rfl
  | cons m rest ih =>
    rw [List.flatMap_cons, List.flatMap_cons, h m (by simp),
      ih (fun m1 h1 => h m1 (by simp [h1]))]

/-- One step of the loop of `Detokenize` on a text of mentions that stand
apart: the token `k` is restored in its mentions and nothing else changes. -/
theorem ReplaceAll_mentions (k x : String) (r : String → Bool) (first : String)
    (ms : List Mention) (hk : isTokenShape k = true)
    (hshape : ∀ m ∈ ms, isTokenShape m.token = true)
    (hval : ∀ m ∈ ms, m.token = k → m.real = x)
    (hdel : delimited first ms = true)
    (hfirst : Contains first k = false)
    (hclean : ∀ m ∈ ms, Contains m.real k = false ∧ Contains m.after k = false) :
    ReplaceAll (mentionsText r first ms) k x =
      mentionsText (fun t => r t || k == t) first ms := by
  unfold ReplaceAll
  by_cases h0 : k = x
  · rw [if_pos h0]
    unfold mentionsText
    congr 2
    apply List.flatMap_congr
    intro m hm
    by_cases h1 : k = m.token
    · have h2 := hval m hm h1.symm
      have h3 : m.real = m.token := by rw [h2, ← h0, h1]
      simp [h3]
    · have h2 : (k == m.token) = false := by simpa using h1
      simp [h2]
  · rw [if_neg h0]
    have hkd : k.data ≠ [] := by
      intro h
      exact isTokenShape_ne_empty k hk (String.ext h)
    rw [if_neg hkd]
    apply String.ext
    apply replaceScan_mentions k.data x.data r _ (token_chars k hk) ms first hdel hfirst
      (fun m hm => (hclean m hm).2)
    intro m hm
    by_cases hr : r m.token = true
    · simp only [hr, if_true, Bool.true_or]
      exact replaceScan_absent _ _ _ (hclean m hm).1
    · have hr2 : r m.token = false := by simpa using hr
      by_cases h1 : k = m.token
      · have h2 := hval m hm h1.symm
        simp only [hr2, Bool.false_or, h1, beq_self_eq_true, if_true, h2]
        simp only [Bool.false_eq_true, if_false]
        rw [← h1]
        exact replaceScan_self _ _ hkd
      · have h2 : (k == m.token) = false := by simpa using h1
        simp only [hr2, Bool.false_or, h2, Bool.false_eq_true, if_false]
        apply replaceScan_absent
        cases hc : containsL k.data m.token.data with
        | false => rfl
        | true => exact absurd (token_not_nested k m.token hk (hshape m hm) hc) h1

/-- The loop of `Detokenize` on a text of mentions that stand apart: the tokens
visited are restored in their mentions, whatever the order of the visit. -/
theorem replaceTokens_mentions (order : List (String × String)) (r : String → Bool)
    (first : String) (ms : List Mention)
    (hk : ∀ e ∈ order, isTokenShape e.1 = true)
    (hshape : ∀ m ∈ ms, isTokenShape m.token = true)
    (hval : ∀ e ∈ order, ∀ m ∈ ms, m.token = e.1 → m.real = e.2)
    (hdel : delimited first ms = true)
    (hclean : ∀ e ∈ order, Contains first e.1 = false ∧
      ∀ m ∈ ms, Contains m.real e.1 = false ∧ Contains m.after e.1 = false) :
    replaceTokens order (mentionsText r first ms) =
      mentionsText (fun t => r t || order.any (fun e => e.1 == t)) first ms := by
  induction order generalizing r with
  | nil =>
    show mentionsText r first ms = _
    apply mentionsText_congr
    intro m _
    simp
  | cons e rest ih =>
    show replaceTokens rest (ReplaceAll (mentionsText r first ms) e.1 e.2) = _
    rw [ReplaceAll_mentions e.1 e.2 r first ms (hk e (by simp)) hshape (hval e (by simp)) hdel
      (hclean e (by simp)).1 (hclean e (by simp)).2]
    rw [ih _ (fun e1 h1 => hk e1 (by simp [h1])) (fun e1 h1 => hval e1 (by simp [h1]))
      (fun e1 h1 => hclean e1 (by simp [h1]))]
    apply mentionsText_congr
    intro m _
    simp [Bool.or_assoc]

/-- For every Tokenizer reached from a fresh one by `Tokenize*` calls, every token `k` of the table with its real name `x`, and all texts `a`
and `b` such that no occurrence of `k` begins before the one that follows `a`,
none lies in `b`, and no other token of the table occurs in `a ++ k ++ b` or in
`a ++ x ++ b`, every order of the replacements gives the same output of
`Detokenize` on `a ++ k ++ b`: the guard applied to `a ++ x ++ b`. -/
theorem single_token_any_order (tbl : Char → Char) (calls : List Call) (k x a b : String)
    (hget : (NewTokenizer.run tbl calls).reverse.get k = some x)
    (h1 : containsL k.data (a.data ++ k.data.dropLast) = false)
    (h2 : Contains b k = false)
    (hother : ∀ e ∈ (NewTokenizer.run tbl calls).reverse, e.1 ≠ k →
      Contains (a ++ k ++ b) e.1 = false ∧ Contains (a ++ x ++ b) e.1 = false)
    (out : String) :
    (NewTokenizer.run tbl calls).Detokenize (a ++ k ++ b) out ↔
      out = (NewTokenizer.run tbl calls).stripUnknownDomains (a ++ x ++ b) := by
  have hc := run_consistent tbl calls NewTokenizer NewTokenizer_consistent
  have hk : k ≠ "" :=
    isTokenShape_ne_empty k (reachable_shape tbl calls _ _ (hc.2.2.1 _ _ hget))
  have hall : ∀ order : List (String × String),
      order.Perm (NewTokenizer.run tbl calls).reverse →
      (NewTokenizer.run tbl calls).DetokenizeIn order (a ++ k ++ b) =
        (NewTokenizer.run tbl calls).stripUnknownDomains (a ++ x ++ b) := by
    intro order hperm
    rw [Tokenizer.DetokenizeIn,
      replaceTokens_at order k x a b (hperm.mem_iff.2 (GoMap.mem_of_get _ _ _ hget))
        ((hperm.map Prod.fst).nodup_iff.2 hc.2.1) hk h1 h2
        (fun e he => hother e (hperm.mem_iff.1 he))]
  constructor
  · rintro ⟨order, hperm, rfl⟩
    exact hall order hperm
  · intro h
    exact ⟨_, List.Perm.refl _, h.trans (hall _ (List.Perm.refl _)).symm⟩

/-! ## The claims of the specification on the Tokenizer and its guard -/

/-- A counterexample to C1: the users `user50` and `user210`, distinct after
normalization, receive the same token on a new Tokenizer. -/
theorem C1_counterexample :
    ToUpper asciiOnly "user50" ≠ ToUpper asciiOnly "user210" ∧
    (NewTokenizer.TokenizeUser asciiOnly "user50").1 = "ID_U_AD2A" ∧
    ((NewTokenizer.TokenizeUser asciiOnly "user50").2.TokenizeUser asciiOnly "user210").1 =
      "ID_U_AD2A" := by
  decide

/-- C1, amended: on a Tokenizer with empty tables, after any run of `Tokenize*`
calls two non-empty identifiers receive the same token exactly when the
prefixes of their first tokenization are equal and the first 4 hexadecimal
characters of their salted digests are equal, so identifiers that are distinct
after normalization receive distinct tokens only when no such collision
occurs.  There is no retry on a collision: every run that tokenizes more than
65536 identifiers of one kind, distinct after normalization, returns a
duplicate token. -/
theorem C1_tokens_collide_iff (tbl : Char → Char) (salt : String) :
    (∀ (cs : List Call) (c1 c2 : Call), c1.ident ≠ "" → c2.ident ≠ "" →
      ((((Tokenizer.mk [] [] salt).run tbl cs).call tbl c1).1 =
          (((Tokenizer.mk [] [] salt).run tbl (cs ++ [c1])).call tbl c2).1 ↔
        firstPfx tbl cs c1 = firstPfx tbl (cs ++ [c1]) c2 ∧
          tokenSuffix tbl (c1.key tbl) salt = tokenSuffix tbl (c2.key tbl) salt)) ∧
    (∀ (c : Call) (ids : List String), (∀ x ∈ ids, x ≠ "") →
      (ids.map (fun x => (c.withIdent x).key tbl)).Nodup → 65536 < ids.length →
      ¬ ((Tokenizer.mk [] [] salt).tokens tbl (ids.map c.withIdent)).Nodup) := by
  constructor
  · intro cs c1 c2 h1 h2
    rw [token_after_run tbl salt cs c1 h1, token_after_run tbl salt (cs ++ [c1]) c2 h2]
    exact token_eq_iff tbl _ _ _ _ salt
  · intro c ids hne hnodup hlen hnd
    have hne2 : ∀ d ∈ ids.map c.withIdent, d.ident ≠ "" := by
      intro d hd
      rw [List.mem_map] at hd
      obtain ⟨x, hx, rfl⟩ := hd
      rw [withIdent_ident]
      exact hne x hx
    have hnodup2 : ((ids.map c.withIdent).map (fun d => d.key tbl)).Nodup := by
      rw [List.map_map]
      exact hnodup
    rw [tokens_of_fresh tbl _ (Tokenizer.mk [] [] salt) hne2 hnodup2 (fun _ _ => rfl)] at hnd
    have hle := tokens_length_le tbl c.pfx _ (by
      intro x hx
      rw [List.mem_map] at hx
      obtain ⟨d, hd, rfl⟩ := hx
      rw [List.mem_map] at hd
      obtain ⟨y, -, rfl⟩ := hd
      exact ⟨_, _, by rw [withIdent_pfx]⟩) hnd
    simp only [List.length_map] at hle
    omega

/-- A witness of C1, amended: the 65537 users `A`, `AA`, `AAA`, ... tokenized on
a new Tokenizer receive a duplicate token. -/
theorem C1_tokens_collide_iff_witness :
    ¬ ((Tokenizer.mk [] [] "1737234000").tokens asciiOnly
      ((manyIdents 65537).map (Call.user "").withIdent)).Nodup :=
  (C1_tokens_collide_iff asciiOnly "1737234000").2 (Call.user "") (manyIdents 65537)
    (manyIdents_ne 65537) (manyIdents_keys_nodup asciiOnly 65537)
    (by rw [manyIdents_length]; decide)

/-- A counterexample to C2: the user `alice` is tokenized on a new Tokenizer;
`Detokenize` of the token returns `ALICE`, the normalized identifier, and not
the identifier as it was given. -/
theorem C2_counterexample :
    (NewTokenizer.TokenizeUser asciiOnly "alice").1 = "ID_U_CAD3" ∧
    (NewTokenizer.TokenizeUser asciiOnly "alice").2.reverse = [("ID_U_CAD3", "ALICE")] ∧
    (NewTokenizer.TokenizeUser asciiOnly "alice").2.DetokenizeIn
      [("ID_U_CAD3", "ALICE")] ("" ++ "ID_U_CAD3" ++ "") = "ALICE" ∧
    "ALICE" ≠ "" ++ "alice" ++ "" := by
  decide

/-- C2, amended: for every entry `k ↦ x` of the table token → real (so `x` is a
normalized identifier, in upper case for every kind but SID) with `k`
non-empty, and all texts `a` and `b` such that no occurrence of `k` begins
before the one that follows `a`, none lies in `b`, no other key of the table
occurs in `a ++ k ++ b` or in `a ++ x ++ b`, and the guard leaves `a ++ x ++ b`
as it is, `Detokenize (a ++ k ++ b) = a ++ x ++ b` in every order of visit of
the table; in particular `Detokenize k = x`. -/
theorem C2_token_restored (t : Tokenizer) (order : List (String × String)) (k x a b : String)
    (hperm : order.Perm t.reverse) (hnodup : (t.reverse.map Prod.fst).Nodup)
    (hget : t.reverse.get k = some x) (hk : k ≠ "")
    (h1 : containsL k.data (a.data ++ k.data.dropLast) = false)
    (h2 : Contains b k = false)
    (hother : ∀ e ∈ t.reverse, e.1 ≠ k →
      Contains (a ++ k ++ b) e.1 = false ∧ Contains (a ++ x ++ b) e.1 = false)
    (hguard : t.stripUnknownDomains (a ++ x ++ b) = a ++ x ++ b) :
    t.DetokenizeIn order (a ++ k ++ b) = a ++ x ++ b := by
  rw [Tokenizer.DetokenizeIn]
  rw [replaceTokens_at order k x a b (hperm.mem_iff.2 (GoMap.mem_of_get _ _ _ hget))
    ((hperm.map Prod.fst).nodup_iff.2 hnodup) hk h1 h2
    (fun e he => hother e (hperm.mem_iff.1 he))]
  exact hguard

/-- A witness of C2, amended: two users are tokenized and the token of the first
is restored in a sentence, the table being visited in the reverse order. -/
theorem C2_token_restored_witness :
    (NewTokenizer.run asciiOnly [.user "alice", .user "bob"]).DetokenizeIn
      [("ID_U_053B", "BOB"), ("ID_U_CAD3", "ALICE")] ("user " ++ "ID_U_CAD3" ++ " logged in") =
      "user " ++ "ALICE" ++ " logged in" :=
  C2_token_restored (NewTokenizer.run asciiOnly [.user "alice", .user "bob"])
    [("ID_U_053B", "BOB"), ("ID_U_CAD3", "ALICE")] "ID_U_CAD3" "ALICE" "user " " logged in"
    (by decide) (by decide) (by decide) (by decide) (by decide) (by decide) (by decide)
    (by decide)

/-- C3: once an identifier has a token (after a call `c` with a non-empty
identifier), every later `Tokenize*` call `c2` with the same normalized
identifier, after any sequence of `Tokenize*` and `Detokenize` operations,
returns that same token and leaves the Tokenizer (both tables and the salt) as
it was before the repeated call. -/
theorem C3_token_is_stable (tbl : Char → Char) (t : Tokenizer) (c c2 : Call) (ops : List Op)
    (hc : c.ident ≠ "") (hc2 : c2.ident ≠ "") (hkey : c2.key tbl = c.key tbl) :
    (((t.call tbl c).2.exec tbl ops).call tbl c2).1 = (t.call tbl c).1 ∧
    (((t.call tbl c).2.exec tbl ops).call tbl c2).2 = (t.call tbl c).2.exec tbl ops ∧
    (((t.call tbl c).2.exec tbl ops).call tbl c2).2.mapping =
      ((t.call tbl c).2.exec tbl ops).mapping ∧
    (((t.call tbl c).2.exec tbl ops).call tbl c2).2.reverse =
      ((t.call tbl c).2.exec tbl ops).reverse := by
  have h1 := exec_mapping_keep tbl ops _ _ _ (call_fst t tbl c hc)
  have h2 : ((t.call tbl c).2.exec tbl ops).call tbl c2 =
      ((t.call tbl c).1, (t.call tbl c).2.exec tbl ops) := by
    rw [call_eq]
    simp only [hc2, if_false]
    rw [hkey]
    exact generateToken_hit _ _ _ _ _ h1
  rw [h2]
  exact ⟨rfl, rfl, rfl, rfl⟩

/-- A witness of C3: a user is tokenized, then a group, a text is detokenized
and a SID is tokenized; the user, now written in another case, gets the same
token again. -/
theorem C3_token_is_stable_witness :
    (((NewTokenizer.call asciiOnly (.user "alice")).2.exec asciiOnly
        [.tokenize (.group "admins"), .detokenize "x", .tokenize (.sid "S-1-5")]).call
        asciiOnly (.user "Alice")).1 = (NewTokenizer.call asciiOnly (.user "alice")).1 :=
  (C3_token_is_stable asciiOnly NewTokenizer (.user "alice") (.user "Alice")
    [.tokenize (.group "admins"), .detokenize "x", .tokenize (.sid "S-1-5")]
    (by decide) (by decide) (by decide)).1

/-- The failing input of C4: `TokenizeSID` hashes the SID as given, so a SID and
its upper-cased form receive different tokens (every other kind upper-cases the
identifier first). -/
theorem C4_sid_case_variants_differ :
    (NewTokenizer.TokenizeSID asciiOnly "s-1-5-21").1 = "SID_2B37" ∧
    ToUpper asciiOnly "s-1-5-21" = "S-1-5-21" ∧
    (NewTokenizer.TokenizeSID asciiOnly (ToUpper asciiOnly "s-1-5-21")).1 = "SID_9F6E" := by
  decide

/-- C5: for every kind (and every tier), tokenizing the empty identifier returns
the empty string and leaves the table real → token, the table token → real and
the mapping count as they were. -/
theorem C5_empty_identifier (tbl : Char → Char) (t : Tokenizer) (tier : Int) :
    t.TokenizeDomain tbl "" = ("", t) ∧ t.TokenizeUser tbl "" = ("", t) ∧
    t.TokenizeGroup tbl "" = ("", t) ∧ t.TokenizeComputer tbl "" tier = ("", t) ∧
    t.TokenizeOU tbl "" = ("", t) ∧ t.TokenizeGPO tbl "" = ("", t) ∧
    t.TokenizeSID tbl "" = ("", t) ∧ t.TokenizeTemplate tbl "" = ("", t) ∧
    t.TokenizeCA tbl "" = ("", t) ∧
    (∀ c : Call, (t.call tbl (c.withIdent "")).1 = "" ∧
      (t.call tbl (c.withIdent "")).2.mapping = t.mapping ∧
      (t.call tbl (c.withIdent "")).2.reverse = t.reverse ∧
      (t.call tbl (c.withIdent "")).2.GetMappingCount = t.GetMappingCount) := by
  refine ⟨rfl, rfl, rfl, rfl, rfl, rfl, rfl, rfl, rfl, ?_⟩
  intro c
  rw [call_empty _ _ _ (withIdent_ident c "")]
  exact ⟨rfl, rfl, rfl, rfl⟩

/-- A counterexample to C7: the name `admin` is tokenized as a user and then as
a group; the second call returns the token of the user, which does not begin
with the prefix `ID_G_` of groups. -/
theorem C7_counterexample :
    ((NewTokenizer.TokenizeUser asciiOnly "admin").2.TokenizeGroup asciiOnly "admin").1 =
      "ID_U_DCDE" ∧
    HasPrefix ((NewTokenizer.TokenizeUser asciiOnly "admin").2.TokenizeGroup
      asciiOnly "admin").1 "ID_G_" = false := by
  decide

/-- C7, amended: after any run of `Tokenize*` calls on a Tokenizer with empty
tables, the token returned for a non-empty identifier is the 4-character suffix
preceded by the prefix of the first call of the run that had the same
normalized identifier, whatever its kind or tier, and by the prefix of the call
itself when no earlier call had it; in the latter case the token begins with the
prefix of the kind of the call. -/
theorem C7_first_kind_decides (tbl : Char → Char) (salt : String) (cs : List Call) (c : Call)
    (hc : c.ident ≠ "") :
    (((Tokenizer.mk [] [] salt).run tbl cs).call tbl c).1 =
      firstPfx tbl cs c ++ tokenSuffix tbl (c.key tbl) salt ∧
    HasPrefix (((Tokenizer.mk [] [] salt).run tbl cs).call tbl c).1 (firstPfx tbl cs c) = true ∧
    ((∀ c0 ∈ cs, c0.key tbl ≠ c.key tbl) →
      HasPrefix (((Tokenizer.mk [] [] salt).run tbl cs).call tbl c).1 c.pfx = true) := by
  have h := token_after_run tbl salt cs c hc
  refine ⟨h, ?_, ?_⟩
  · rw [h]
    exact HasPrefix_append _ _
  · intro hall
    have hf : cs.find? (fun c0 => decide (c0.key tbl = c.key tbl)) = none := by
      rw [List.find?_eq_none]
      intro c0 h0
      simpa using hall c0 h0
    rw [h, firstPfx, hf]
    exact HasPrefix_append _ _

/-- A witness of C7, amended: a computer tokenized in tier 1 after a user. -/
theorem C7_first_kind_decides_witness :
    HasPrefix (((Tokenizer.mk [] [] "1737234000").run asciiOnly [.user "admin"]).call asciiOnly
      (.computer "dc01" 1)).1 (firstPfx asciiOnly [.user "admin"] (.computer "dc01" 1)) = true :=
  (C7_first_kind_decides asciiOnly "1737234000" [.user "admin"] (.computer "dc01" 1) (by decide)).2.1

/-- A counterexample to C8: on a new Tokenizer, whose tables are empty, the
domain `EVIL.COM` in upper case is returned as it is; so is a domain in lower
case that follows or precedes a word character (`Xevil.com`, `_evil.com`,
`evil.com_x`); and after a label and a dot the marker takes the place of
`x.evil` and `.com` is left in the output. -/
theorem C8_counterexample :
    NewTokenizer.reverse = [] ∧ NewTokenizer.mapping = [] ∧
    NewTokenizer.DetokenizeIn [] "contact EVIL.COM now" = "contact EVIL.COM now" ∧
    NewTokenizer.DetokenizeIn [] "Xevil.com" = "Xevil.com" ∧
    NewTokenizer.DetokenizeIn [] "_evil.com" = "_evil.com" ∧
    NewTokenizer.DetokenizeIn [] "evil.com_x" = "evil.com_x" ∧
    NewTokenizer.DetokenizeIn [] "x.evil.com" = "[REDACTED].com" ∧
    NewTokenizer.DetokenizeIn [] "a-evil.com" = "[REDACTED]" := by
  decide

/-- C8, amended: when the token-restored text is `a ++ m ++ b`, where `m` has
the form of the pattern in lower case (a label of 1 to 63 characters of
`[a-z0-9-]` beginning and ending in `[a-z0-9]`, a dot, a final label of 2 or
more characters of `[a-z]`), `m` is not a key of the table token → real, the
character before `m`, if any, is neither a word character `[0-9A-Za-z_]` nor a
hyphen nor a dot, and the character after `m`, if any, is not a word
character, then `Detokenize` returns the text that the guard makes of `a`, the
marker `[REDACTED]` in place of `m`, and the text that the guard makes of `b`;
`a` and `b` are any texts, with or without dots and domains. -/
theorem C8_lower_case_domain_redacted (t : Tokenizer) (order : List (String × String))
    (text a m b : String)
    (hrep : replaceTokens order text = a ++ m ++ b)
    (hm : isDomainLike m = true)
    (hkey : t.reverse.get m = none)
    (ha : ∀ c, a.data.getLast? = some c → isWordChar c = false ∧ c ≠ '-' ∧ c ≠ '.')
    (hb : ∀ c, b.data.head? = some c → isWordChar c = false) :
    t.DetokenizeIn order text =
      t.stripUnknownDomains a ++ "[REDACTED]" ++
        ⟨replaceFuncScan domainPattern t.redact m.data.getLast? 0 b.data⟩ := by
  obtain ⟨l1, l2, hml, hw⟩ := isDomainLike_split m hm
  have hred := redact_domain_word t m l1 l2 hml hw hkey
  apply String.ext
  rw [Tokenizer.DetokenizeIn, hrep, stripUnknownDomains_data]
  simp only [String.data_append]
  rw [List.append_assoc, hml, strip_word_after t a.data l1 l2 b.data hw ha hb]
  have hm2 : (⟨l1 ++ '.' :: l2⟩ : String) = m := String.ext hml.symm
  rw [hm2, hred, List.append_assoc, stripUnknownDomains_data]

/-- A witness of C8, amended: a fabricated domain in prose, after a sentence
with a dot and another domain. -/
theorem C8_lower_case_domain_redacted_witness :
    NewTokenizer.DetokenizeIn [] "Step 1. See foo.org. Then contact evil.com now." =
        NewTokenizer.stripUnknownDomains "Step 1. See foo.org. Then contact " ++ "[REDACTED]" ++
          ⟨replaceFuncScan domainPattern NewTokenizer.redact "evil.com".data.getLast? 0
            " now.".data⟩ ∧
      NewTokenizer.DetokenizeIn [] "Step 1. See foo.org. Then contact evil.com now." =
        "Step 1. See [REDACTED]. Then contact [REDACTED] now." :=
  ⟨C8_lower_case_domain_redacted NewTokenizer []
      "Step 1. See foo.org. Then contact evil.com now." "Step 1. See foo.org. Then contact "
      "evil.com" " now." (by decide) (by decide) (by decide) (by decide) (by decide),
    by decide⟩

/-- C10: when the token-restored text has no dot, `Detokenize` returns exactly
the token-restored text, whatever the order in which the tokens were replaced:
the guard introduces no marker and changes no character. -/
theorem C10_no_dot_unchanged (t : Tokenizer) (order : List (String × String)) (text : String)
    (h : '.' ∉ (replaceTokens order text).data) :
    t.DetokenizeIn order text = replaceTokens order text := by
  rw [Tokenizer.DetokenizeIn]
  apply strip_unchanged
  intro p s1 hs
  apply run_domain_nil_of_no_dot
  intro hd
  exact h (hs.subset hd)

/-- A witness of C10: a token restored in a sentence without a dot. -/
theorem C10_no_dot_unchanged_witness :
    ((NewTokenizer.TokenizeUser asciiOnly "alice").2).DetokenizeIn
      [("ID_U_CAD3", "ALICE")] "user ID_U_CAD3 is an admin" =
      replaceTokens [("ID_U_CAD3", "ALICE")] "user ID_U_CAD3 is an admin" :=
  C10_no_dot_unchanged _ _ _ (by decide)

/-- C11: for every list of entities and every cap that is not negative,
`sampleNodes` returns a list, of at most `cap` entities. -/
theorem C11_sample_at_most_cap (ltbl : Char → Char) (nodes : List Node) (maxCount : Int)
    (h : 0 ≤ maxCount) :
    ∃ r, sampleNodes ltbl nodes maxCount = some r ∧ (r.length : Int) ≤ maxCount := by
  by_cases h1 : (nodes.length : Int) ≤ maxCount
  · exact ⟨nodes, sampleNodes_all ltbl nodes maxCount h1, h1⟩
  · refine ⟨_, sampleNodes_eq_take ltbl nodes maxCount (by omega) h, ?_⟩
    rw [List.length_take]
    omega

/-- A witness of C11: three entities and the cap 2. -/
theorem C11_sample_at_most_cap_witness :
    ∃ r, sampleNodes asciiOnly
        [mkNode "bob" true false false, mkNode "svc_sql" true false false,
          mkNode "carol" true true false] 2 = some r ∧ (r.length : Int) ≤ 2 :=
  C11_sample_at_most_cap asciiOnly _ 2 (by decide)

/-- C12: when the list has at most `cap` entities, `sampleNodes` returns the
list itself, the same entities in the same order, whatever their tiers. -/
theorem C12_small_input_unchanged (ltbl : Char → Char) (nodes : List Node) (maxCount : Int)
    (h : (nodes.length : Int) ≤ maxCount) : sampleNodes ltbl nodes maxCount = some nodes :=
  sampleNodes_all ltbl nodes maxCount h

/-- A witness of C12: a built-in administrator before a service account, with
the cap 2. -/
theorem C12_small_input_unchanged_witness :
    sampleNodes asciiOnly
        [mkNode "Administrator@corp.local" true true false, mkNode "svc_sql" true false false]
        2 =
      some [mkNode "Administrator@corp.local" true true false,
        mkNode "svc_sql" true false false] :=
  C12_small_input_unchanged asciiOnly _ 2 (by decide)

/-- A counterexample to C13: the name of the built-in administrator matches the
administrative naming pattern (`admin`), but the entity is placed in the last
tier and not in the control-bearing tier; with the cap 1 the regular user is
sampled and the administrator is not. -/
theorem C13_counterexample :
    matchesControlName asciiOnly (mkNode "Administrator@corp.local" true true false) = true ∧
    (categorize asciiOnly
      [mkNode "Administrator@corp.local" true true false, mkNode "bob" true false false]
      ⟨[], [], [], []⟩).controlBased = [] ∧
    (categorize asciiOnly
      [mkNode "Administrator@corp.local" true true false, mkNode "bob" true false false]
      ⟨[], [], [], []⟩).builtInAdmins = [mkNode "Administrator@corp.local" true true false] ∧
    sampleNodes asciiOnly
      [mkNode "Administrator@corp.local" true true false, mkNode "bob" true false false] 1 =
      some [mkNode "bob" true false false] := by
  decide

/-- C13, amended: an entity that is enabled, or holds an elevated flag
(`AdminCount` or `HighValue`), or has a name that matches a control naming
pattern, is placed in the control-bearing tier exactly when it is not a
built-in administrator (lower-cased name with `administrator@` and without
`domain admins`) and its name matches a control naming pattern (`svc_`,
`service`, `admin`, `delegate`, `gpo`) or it is disabled while holding an
elevated flag.  The statement is silent on a disabled entity with no elevated
flag and no matching name. -/
theorem C13_control_tier (ltbl : Char → Char) (nodes : List Node) (n : Node)
    (hx : n.Properties.Enabled = true ∨ n.Properties.AdminCount = true ∨
      n.Properties.HighValue = true ∨ matchesControlName ltbl n = true) :
    n ∈ (categorize ltbl nodes ⟨[], [], [], []⟩).controlBased ↔
      n ∈ nodes ∧ isBuiltInAdmin ltbl n = false ∧
        (matchesControlName ltbl n = true ∨
          (n.Properties.Enabled = false ∧
            (n.Properties.AdminCount = true ∨ n.Properties.HighValue = true))) := by
  rw [categorize_eq]
  simp only [List.nil_append, List.mem_filter, isControlBased, hasControlIndicators,
    Bool.and_eq_true, Bool.or_eq_true, Bool.not_eq_true', beq_iff_eq]
  constructor
  · rintro ⟨h1, h2, h3⟩
    refine ⟨h1, h2, ?_⟩
    rcases h3 with h3 | h3
    · exact Or.inl h3
    · rcases hx with hx | hx | hx | hx
      · rw [h3] at hx
        exact absurd hx (by simp)
      · exact Or.inr ⟨h3, Or.inl hx⟩
      · exact Or.inr ⟨h3, Or.inr hx⟩
      · exact Or.inl hx
  · rintro ⟨h1, h2, h3⟩
    refine ⟨h1, h2, ?_⟩
    rcases h3 with h3 | ⟨h3, -⟩
    · exact Or.inl h3
    · exact Or.inr h3

/-- A witness of C13, amended: a disabled high-value account without a control
name is in the control-bearing tier. -/
theorem C13_control_tier_witness :
    mkNode "carol" false false true ∈
        (categorize asciiOnly [mkNode "bob" true false false, mkNode "carol" false false true]
          ⟨[], [], [], []⟩).controlBased ↔
      mkNode "carol" false false true ∈
          [mkNode "bob" true false false, mkNode "carol" false false true] ∧
        isBuiltInAdmin asciiOnly (mkNode "carol" false false true) = false ∧
        (matchesControlName asciiOnly (mkNode "carol" false false true) = true ∨
          ((mkNode "carol" false false true).Properties.Enabled = false ∧
            ((mkNode "carol" false false true).Properties.AdminCount = true ∨
              (mkNode "carol" false false true).Properties.HighValue = true))) :=
  C13_control_tier asciiOnly _ _ (by decide)

/-- A counterexample to C14: the name of the first entity contains
`administrator@` and also `domain admins`, so it is placed in the
control-bearing tier; with the cap 1 it is returned while the regular user,
which is not a built-in administrator, is not. -/
theorem C14_counterexample :
    Contains (ToLower asciiOnly "domain admins administrator@corp.local") "administrator@" =
      true ∧
    Contains (ToLower asciiOnly "bob") "administrator@" = false ∧
    sampleNodes asciiOnly
      [mkNode "bob" true false false,
        mkNode "domain admins administrator@corp.local" true false false] 1 =
      some [mkNode "domain admins administrator@corp.local" true false false] := by
  decide

/-- C14, amended: a built-in administrator is an entity whose lower-cased name
contains `administrator@` and does not contain `domain admins`.  When sampling
applies and the cap is not negative, if the result of `sampleNodes` contains a
built-in administrator, then every entity of the input that is not a built-in
administrator is in the result. -/
theorem C14_builtin_admins_last (ltbl : Char → Char) (nodes : List Node) (maxCount : Int)
    (h1 : maxCount < nodes.length) (h2 : 0 ≤ maxCount) :
    ∃ r, sampleNodes ltbl nodes maxCount = some r ∧
      ((∃ b ∈ r, isBuiltInAdmin ltbl b = true) →
        ∀ n ∈ nodes, isBuiltInAdmin ltbl n = false → n ∈ r) := by
  refine ⟨_, sampleNodes_eq_take ltbl nodes maxCount h1 h2, ?_⟩
  rintro ⟨b, hb, hbi⟩ n hn hni
  unfold byTier at hb ⊢
  rw [List.take_append_eq_append_take, List.mem_append] at hb
  have hnot : ∀ x ∈ nodes.filter (isControlBased ltbl) ++ nodes.filter (isHighValue ltbl) ++
      nodes.filter (isRegular ltbl), isBuiltInAdmin ltbl x = false := by
    intro x hx
    simp only [List.mem_append, List.mem_filter, isControlBased, isHighValue, isRegular,
      Bool.and_eq_true, Bool.not_eq_true'] at hx
    rcases hx with (hx | hx) | hx
    · exact hx.2.1
    · exact hx.2.1.1
    · exact hx.2.1.1
  rcases hb with hb | hb
  · have := hnot b (List.mem_of_mem_take hb)
    rw [hbi] at this
    exact absurd this (by simp)
  · have hlen : (nodes.filter (isControlBased ltbl) ++ nodes.filter (isHighValue ltbl) ++
        nodes.filter (isRegular ltbl)).length < maxCount.toNat := by
      by_contra hle
      have h0 : maxCount.toNat - (nodes.filter (isControlBased ltbl) ++
          nodes.filter (isHighValue ltbl) ++ nodes.filter (isRegular ltbl)).length = 0 := by
        omega
      rw [h0] at hb
      simp at hb
    rw [List.take_append_eq_append_take, List.mem_append]
    left
    rw [List.take_of_length_le (by omega)]
    have hmem := (mem_byTier ltbl nodes n).2 hn
    unfold byTier at hmem
    rw [List.mem_append] at hmem
    rcases hmem with hmem | hmem
    · exact hmem
    · rw [List.mem_filter] at hmem
      rw [hni] at hmem
      exact absurd hmem.2 (by simp)

/-- A witness of C14, amended: with the cap 2 the built-in administrator fills
the room left by the only other entity. -/
theorem C14_builtin_admins_last_witness :
    ∃ r, sampleNodes asciiOnly
        [mkNode "Administrator@corp.local" true true false, mkNode "bob" true false false,
          mkNode "administrator@lab.local" true true false] 2 = some r ∧
      ((∃ b ∈ r, isBuiltInAdmin asciiOnly b = true) →
        ∀ n ∈ [mkNode "Administrator@corp.local" true true false,
            mkNode "bob" true false false, mkNode "administrator@lab.local" true true false],
          isBuiltInAdmin asciiOnly n = false → n ∈ r) :=
  C14_builtin_admins_last asciiOnly _ 2 (by decide) (by decide)

/-- C15 fails on the code for the tiers of the specification: in the list of
the high-value user `carol` and the disabled user `bob`, who holds no elevated
flag and whose name matches no pattern, the cap 1 is smaller than the length
and the control-bearing and high-value tiers hold one entity, `carol`; yet
`sampleNodes` returns `bob`, which is neither control-bearing nor high-value
but regular. -/
theorem C15_disabled_plain_entity_returned :
    ((1 : Int) < ([mkNode "carol" true false true, mkNode "bob" false false false].length : Int)) ∧
    1 ≤ ([mkNode "carol" true false true, mkNode "bob" false false false].filter
          (specControlBearing asciiOnly)).length +
        ([mkNode "carol" true false true, mkNode "bob" false false false].filter
          (specHighValue asciiOnly)).length ∧
    sampleNodes asciiOnly [mkNode "carol" true false true, mkNode "bob" false false false] 1 =
      some [mkNode "bob" false false false] ∧
    specControlBearing asciiOnly (mkNode "bob" false false false) = false ∧
    specHighValue asciiOnly (mkNode "bob" false false false) = false ∧
    specRegular asciiOnly (mkNode "bob" false false false) = true ∧
    specHighValue asciiOnly (mkNode "carol" true false true) = true := by
  decide

/-- C16: `SanitizeBloodHoundData` does not apply the Sampler.  With the cap 1
the Sampler selects the service account, the second user of the graph, whose
summary has the token `ID_U_84E4`, while the payload holds the summary of the
first user, `bob`. -/
theorem C16_payload_skips_sampler :
    sampleNodes asciiOnly [mkNode "bob" true false false, mkNode "svc_sql" true false false] 1 =
      some [mkNode "svc_sql" true false false] ∧
    (summaries (fun _ => userEntity asciiOnly 1737234000) 0 NewTokenizer
      [mkNode "svc_sql" true false false]).1 =
      [{ Token := "ID_U_84E4", Type_ := "User", Tier := 0, HighValue := false,
         AdminCount := false, AgeRelative := "" }] ∧
    (SanitizeBloodHoundData asciiOnly (fun _ => 1737234000)
      (mkGraph [mkNode "bob" true false false, mkNode "svc_sql" true false false] [] [])
      NewTokenizer 1).1.Entities =
      [{ Token := "ID_U_053B", Type_ := "User", Tier := 0, HighValue := false,
         AdminCount := false, AgeRelative := "" }] := by
  decide

/-- C17: for every graph and every cap that is not negative, the counts of the
summary are the numbers of entities of the payload of type User, Group and
Computer, each is the minimum of the length of the list of its kind and of the
cap, and the total is their sum and the length of the list of entities. -/
theorem C17_summary_counts (tbl : Char → Char) (now : Int → Int) (data : BloodHoundData)
    (t : Tokenizer) (m : Int) (hm : 0 ≤ m) :
    (SanitizeBloodHoundData tbl now data t m).1.Summary.UserCount =
      (((SanitizeBloodHoundData tbl now data t m).1.Entities.filter
        (fun e => decide (e.Type_ = "User"))).length : Int) ∧
    (SanitizeBloodHoundData tbl now data t m).1.Summary.GroupCount =
      (((SanitizeBloodHoundData tbl now data t m).1.Entities.filter
        (fun e => decide (e.Type_ = "Group"))).length : Int) ∧
    (SanitizeBloodHoundData tbl now data t m).1.Summary.ComputerCount =
      (((SanitizeBloodHoundData tbl now data t m).1.Entities.filter
        (fun e => decide (e.Type_ = "Computer"))).length : Int) ∧
    (SanitizeBloodHoundData tbl now data t m).1.Summary.UserCount =
      min (data.Users.length : Int) m ∧
    (SanitizeBloodHoundData tbl now data t m).1.Summary.GroupCount =
      min (data.Groups.length : Int) m ∧
    (SanitizeBloodHoundData tbl now data t m).1.Summary.ComputerCount =
      min (data.Computers.length : Int) m ∧
    (SanitizeBloodHoundData tbl now data t m).1.Summary.TotalEntities =
      (SanitizeBloodHoundData tbl now data t m).1.Summary.UserCount +
        (SanitizeBloodHoundData tbl now data t m).1.Summary.GroupCount +
        (SanitizeBloodHoundData tbl now data t m).1.Summary.ComputerCount ∧
    (SanitizeBloodHoundData tbl now data t m).1.Summary.TotalEntities =
      ((SanitizeBloodHoundData tbl now data t m).1.Entities.length : Int) := by
  have hU : ∀ (t0 : Tokenizer) (l : List Node),
      ∀ e ∈ (summaries (fun i => userEntity tbl (now i)) 0 t0 l).1, e.Type_ = "User" :=
    summaries_all _ (fun e => e.Type_ = "User") (fun _ _ _ => rfl) 0
  have hG : ∀ (t0 : Tokenizer) (l : List Node),
      ∀ e ∈ (summaries (fun _ => groupEntity tbl) 0 t0 l).1, e.Type_ = "Group" :=
    summaries_all _ (fun e => e.Type_ = "Group") (fun _ _ _ => rfl) 0
  have hC : ∀ (t0 : Tokenizer) (l : List Node),
      ∀ e ∈ (summaries (fun _ => computerEntity tbl) 0 t0 l).1, e.Type_ = "Computer" :=
    summaries_all _ (fun e => e.Type_ = "Computer") (fun _ _ _ => rfl) 0
  have fall : ∀ (l : List SanitizedEntity) (s : String), (∀ e ∈ l, e.Type_ = s) →
      l.filter (fun e => decide (e.Type_ = s)) = l := by
    intro l s h
    rw [List.filter_eq_self]
    intro e he
    simp [h e he]
  have fnone : ∀ (l : List SanitizedEntity) (s s2 : String), s ≠ s2 →
      (∀ e ∈ l, e.Type_ = s) → l.filter (fun e => decide (e.Type_ = s2)) = [] := by
    intro l s s2 hs h
    rw [List.filter_eq_nil_iff]
    intro e he
    simp [h e he, hs]
  have hent := sanitize_entities tbl now data t m
  have hcu : (SanitizeBloodHoundData tbl now data t m).1.Summary.UserCount =
      ((data.Users.take m.toNat).length : Int) := by
    show (afterUsers tbl now data t m).count = _
    rw [afterUsers_eq]
  have hcg : (SanitizeBloodHoundData tbl now data t m).1.Summary.GroupCount =
      ((data.Groups.take m.toNat).length : Int) := by
    show (afterGroups tbl now data t m).count = _
    rw [afterGroups_eq]
  have hcc : (SanitizeBloodHoundData tbl now data t m).1.Summary.ComputerCount =
      ((data.Computers.take m.toNat).length : Int) := by
    show (afterComputers tbl now data t m).count = _
    rw [afterComputers_eq]
  have htot : (SanitizeBloodHoundData tbl now data t m).1.Summary.TotalEntities =
      ((SanitizeBloodHoundData tbl now data t m).1.Entities.length : Int) := rfl
  rw [htot, hcu, hcg, hcc, hent]
  simp only [List.filter_append, List.length_append, summaries_length]
  rw [fall _ "User" (hU _ _), fnone _ "Group" "User" (by decide) (hG _ _),
    fnone _ "Computer" "User" (by decide) (hC _ _),
    fnone _ "User" "Group" (by decide) (hU _ _), fall _ "Group" (hG _ _),
    fnone _ "Computer" "Group" (by decide) (hC _ _),
    fnone _ "User" "Computer" (by decide) (hU _ _),
    fnone _ "Group" "Computer" (by decide) (hG _ _), fall _ "Computer" (hC _ _)]
  simp only [summaries_length, List.length_nil, List.length_take, Nat.add_zero, Nat.zero_add]
  refine ⟨trivial, trivial, trivial, ?_, ?_, ?_, ?_, trivial⟩ <;> omega

/-- A witness of C17: two users, a group and no computer, with the cap 1. -/
theorem C17_summary_counts_witness :
    (SanitizeBloodHoundData asciiOnly (fun _ => 1737234000)
      (mkGraph [mkNode "bob" true false false, mkNode "carol" true false false]
        [mkNode "admins" true true false] []) NewTokenizer 1).1.Summary.TotalEntities =
      ((SanitizeBloodHoundData asciiOnly (fun _ => 1737234000)
        (mkGraph [mkNode "bob" true false false, mkNode "carol" true false false]
          [mkNode "admins" true true false] []) NewTokenizer 1).1.Entities.length : Int) :=
  (C17_summary_counts asciiOnly (fun _ => 1737234000) _ NewTokenizer 1 (by decide)).2.2.2.2.2.2.2

/-- C18, the sentence as written fails: in the payload built with a Tokenizer
fresh from `NewTokenizer`, the Token field of the group named `ID_G_B4E7` holds
`ID_G_B4E7`, the raw name of the group. -/
theorem C18_counterexample :
    (mkNode "ID_G_B4E7" true false false).Properties.Name = "ID_G_B4E7" ∧
      ((SanitizeBloodHoundData asciiOnly (fun _ => 1737234000)
        (mkGraph [] [mkNode "ID_G_B4E7" true false false] []) NewTokenizer 5).1.Entities.map
          fun e => e.Token) = ["ID_G_B4E7"] := by
  decide

/-- C18, amended: for a Tokenizer fresh from `NewTokenizer`, every entity of the
payload has a Token field that is empty or the prefix of a kind followed by
exactly 4 upper-case hexadecimal characters, a Type field among `User`, `Group`
and `Computer`, the Tier 0, and a relative age that is empty or one of the
relative ages; and the payload is the one of the graph reduced to the names,
the two flags and the password times of its users, groups and computers, so
that no object identifier, SID, or other field of the graph reaches it. -/
theorem C18_payload_fields (tbl : Char → Char) (now : Int → Int) (data : BloodHoundData)
    (m : Int) :
    (∀ e ∈ (SanitizeBloodHoundData tbl now data NewTokenizer m).1.Entities,
      (e.Token = "" ∨ isTokenShape e.Token = true) ∧
        (e.Type_ = "User" ∨ e.Type_ = "Group" ∨ e.Type_ = "Computer") ∧
        e.Tier = 0 ∧ (e.AgeRelative = "" ∨ IsAgeBucket e.AgeRelative)) ∧
      SanitizeBloodHoundData tbl now (scrubGraph data) NewTokenizer m =
        SanitizeBloodHoundData tbl now data NewTokenizer m := by
  refine ⟨?_, sanitize_scrub tbl now data NewTokenizer m⟩
  have h0 : ∀ k v, NewTokenizer.mapping.get k = some v → isTokenShape v = true := by
    intro k v h
    simp [NewTokenizer, GoMap.get] at h
  have hu := summaries_inv (fun i => userEntity tbl (now i))
    (fun t => ∀ k v, t.mapping.get k = some v → isTokenShape v = true)
    (fun e => (e.Token = "" ∨ isTokenShape e.Token = true) ∧
        (e.Type_ = "User" ∨ e.Type_ = "Group" ∨ e.Type_ = "Computer") ∧
        e.Tier = 0 ∧ (e.AgeRelative = "" ∨ IsAgeBucket e.AgeRelative))
    (fun i t n ht => by
      obtain ⟨h1, h2⟩ := call_shape tbl t (.user n.Properties.Name) ht
      refine ⟨⟨h1, Or.inl rfl, rfl, ?_⟩, h2⟩
      show (if n.Properties.PasswordLastSet > 0 then
        formatRelativeAge (now i) n.Properties.PasswordLastSet else "") = "" ∨
        IsAgeBucket (if n.Properties.PasswordLastSet > 0 then
          formatRelativeAge (now i) n.Properties.PasswordLastSet else "")
      by_cases hp : n.Properties.PasswordLastSet > 0
      · rw [if_pos hp]
        exact Or.inr (formatRelativeAge_bucket _ _)
      · rw [if_neg hp]
        exact Or.inl rfl)
    0 NewTokenizer h0 (data.Users.take m.toNat)
  have hg := summaries_inv (fun _ => groupEntity tbl)
    (fun t => ∀ k v, t.mapping.get k = some v → isTokenShape v = true)
    (fun e => (e.Token = "" ∨ isTokenShape e.Token = true) ∧
        (e.Type_ = "User" ∨ e.Type_ = "Group" ∨ e.Type_ = "Computer") ∧
        e.Tier = 0 ∧ (e.AgeRelative = "" ∨ IsAgeBucket e.AgeRelative))
    (fun _ t n ht => by
      obtain ⟨h1, h2⟩ := call_shape tbl t (.group n.Properties.Name) ht
      exact ⟨⟨h1, Or.inr (Or.inl rfl), rfl, Or.inl rfl⟩, h2⟩)
    0 _ hu.2 (data.Groups.take m.toNat)
  have hc := summaries_inv (fun _ => computerEntity tbl)
    (fun t => ∀ k v, t.mapping.get k = some v → isTokenShape v = true)
    (fun e => (e.Token = "" ∨ isTokenShape e.Token = true) ∧
        (e.Type_ = "User" ∨ e.Type_ = "Group" ∨ e.Type_ = "Computer") ∧
        e.Tier = 0 ∧ (e.AgeRelative = "" ∨ IsAgeBucket e.AgeRelative))
    (fun _ t n ht => by
      obtain ⟨h1, h2⟩ := call_shape tbl t (.computer n.Properties.Name 0) ht
      exact ⟨⟨h1, Or.inr (Or.inr rfl), rfl, Or.inl rfl⟩, h2⟩)
    0 _ hg.2 (data.Computers.take m.toNat)
  intro e he
  rw [sanitize_entities, List.mem_append, List.mem_append] at he
  rcases he with (he | he) | he
  · exact hu.1 e he
  · exact hg.1 e he
  · exact hc.1 e he

/-- C19, the sentence as written fails: one day after the time stamp the
function returns `~1 day`, which is none of `never`, `future`, `today`,
`~N days`, `~N months`, `~N years`. -/
theorem C19_counterexample :
    formatRelativeAge 1737234000 1737147600 = "~1 day" ∧
      ¬ ("~1 day" = "never" ∨ "~1 day" = "future" ∨ "~1 day" = "today" ∨
        ∃ N : Int, 0 < N ∧
          ("~1 day" = "~" ++ sprintfD N ++ " days" ∨ "~1 day" = "~" ++ sprintfD N ++ " months" ∨
            "~1 day" = "~" ++ sprintfD N ++ " years")) := by
  refine ⟨by decide, ?_⟩
  rintro (h | h | h | ⟨N, -, h | h | h⟩)
  · exact absurd h (by decide)
  · exact absurd h (by decide)
  · exact absurd h (by decide)
  · have := congrArg (fun s => s.data.reverse.head?) h
    simp at this
  · have := congrArg (fun s => s.data.reverse.head?) h
    simp at this
  · have := congrArg (fun s => s.data.reverse.head?) h
    simp at this

/-- C19, amended: `formatRelativeAge` returns one of `never`, `future`, `today`,
`~1 day`, `~N days`, `~N months`, `~N years` with `N` a positive integer in
decimal; it returns `never` for the time stamp 0; and, for a clock at or after
1970 and a time stamp of 64 bits, it returns `future` when the time stamp is
later than the clock. -/
theorem C19_relative_age (now ts : Int) (hnow : 0 ≤ now) (hts : ts < 9223372036854775808) :
    IsAgeBucket (formatRelativeAge now ts) ∧ formatRelativeAge now 0 = "never" ∧
      (now < ts → formatRelativeAge now ts = "future") :=
  ⟨formatRelativeAge_bucket now ts, rfl, formatRelativeAge_future now ts hnow hts⟩

theorem C19_relative_age_witness :
    (0 : Int) ≤ 1737234000 ∧ (1737234060 : Int) < 9223372036854775808 ∧
      IsAgeBucket (formatRelativeAge 1737234000 1737234060) ∧
      formatRelativeAge 1737234000 0 = "never" ∧
      ((1737234000 : Int) < 1737234060 → formatRelativeAge 1737234000 1737234060 = "future") :=
  ⟨by decide, by decide, C19_relative_age 1737234000 1737234060 (by decide) (by decide)⟩

/-- C20, the sentence as written fails: `user50` and `user210` share the token
`ID_U_AD2A`, and the Tokenizer after the two calls restores it to `USER210`.
The Tokenizer loaded from its saved record, when `LoadMapping` visits the entry
of `USER210` before the entry of `USER50`, returns `USER50` for the text
`ID_U_AD2A`, which the first Tokenizer never returns. -/
theorem C20_counterexample :
    ((NewTokenizer.run asciiOnly [.user "user50", .user "user210"]).SaveMapping lineMarshal
        slashJoin (fun _ => true) [] "2025-01-18T21:00:00Z" "r1").1 = none ∧
      (NewTokenizer.LoadMappingIn lineUnmarshal slashJoin
        ((NewTokenizer.run asciiOnly [.user "user50", .user "user210"]).SaveMapping lineMarshal
          slashJoin (fun _ => true) [] "2025-01-18T21:00:00Z" "r1").2
        [("USER210", "ID_U_AD2A"), ("USER50", "ID_U_AD2A")] "r1").1 = none ∧
      (NewTokenizer.LoadMappingIn lineUnmarshal slashJoin
        ((NewTokenizer.run asciiOnly [.user "user50", .user "user210"]).SaveMapping lineMarshal
          slashJoin (fun _ => true) [] "2025-01-18T21:00:00Z" "r1").2
        [("USER210", "ID_U_AD2A"), ("USER50", "ID_U_AD2A")] "r1").2.mapping =
          [("USER50", "ID_U_AD2A"), ("USER210", "ID_U_AD2A")] ∧
      (NewTokenizer.LoadMappingIn lineUnmarshal slashJoin
        ((NewTokenizer.run asciiOnly [.user "user50", .user "user210"]).SaveMapping lineMarshal
          slashJoin (fun _ => true) [] "2025-01-18T21:00:00Z" "r1").2
        [("USER210", "ID_U_AD2A"), ("USER50", "ID_U_AD2A")] "r1").2.Detokenize
          "ID_U_AD2A" "USER50" ∧
      ¬ (NewTokenizer.run asciiOnly [.user "user50", .user "user210"]).Detokenize
          "ID_U_AD2A" "USER50" := by
  refine ⟨by decide, by decide, by decide, ⟨[("ID_U_AD2A", "USER50")], ?_, by decide⟩, ?_⟩
  · rw [show (NewTokenizer.LoadMappingIn lineUnmarshal slashJoin
        ((NewTokenizer.run asciiOnly [.user "user50", .user "user210"]).SaveMapping lineMarshal
          slashJoin (fun _ => true) [] "2025-01-18T21:00:00Z" "r1").2
        [("USER210", "ID_U_AD2A"), ("USER50", "ID_U_AD2A")] "r1").2.reverse =
          [("ID_U_AD2A", "USER50")] from by decide]
  · rintro ⟨o, ho, h⟩
    rw [show (NewTokenizer.run asciiOnly [.user "user50", .user "user210"]).reverse =
      [("ID_U_AD2A", "USER210")] from by decide, List.perm_singleton] at ho
    subst ho
    revert h
    decide

/-- C20, amended: for every Tokenizer `T` reached from `NewTokenizer` by
`Tokenize*` calls and every run id, when `SaveMapping` succeeds and the codec
gives back the salt and the entries of the table of the record, `LoadMapping`
into a fresh Tokenizer succeeds and yields a Tokenizer with the salt of `T`,
with a table real → token of the same entries and the same lookups as the one
of `T`, and whose `Tokenize*` calls return the same tokens as those of `T`
after any sequence of calls; when no two real names of `T` share a token, its
`Detokenize` has the same results as the one of `T` for every text. -/
theorem C20_round_trip (tbl : Char → Char) (calls : List Call) (T : Tokenizer)
    (hT : T = NewTokenizer.run tbl calls)
    (marshal : MappingFile → String) (unmarshal : String → Option MappingFile)
    (join : List String → String) (osOk : String → Bool) (files : GoMap)
    (createdAt runID : String) (loaded : MappingFile) (order : List (String × String))
    (hsave : (T.SaveMapping marshal join osOk files createdAt runID).1 = none)
    (hdec : unmarshal (marshal
      { RunID := runID, CreatedAt := createdAt, Salt := T.salt, Mappings := T.mapping }) =
        some loaded)
    (hsalt : loaded.Salt = T.salt) (hmap : loaded.Mappings.Perm T.mapping)
    (horder : order.Perm loaded.Mappings)
    (res : Option String × Tokenizer)
    (hres : res = NewTokenizer.LoadMappingIn unmarshal join
      (T.SaveMapping marshal join osOk files createdAt runID).2 order runID) :
    res.1 = none ∧ res.2.salt = T.salt ∧ res.2.mapping.Perm T.mapping ∧
      (∀ k, res.2.mapping.get k = T.mapping.get k) ∧
      (∀ cs c, ((res.2.run tbl cs).call tbl c).1 = ((T.run tbl cs).call tbl c).1) ∧
      ((T.mapping.map Prod.snd).Nodup →
        ∀ text out, res.2.Detokenize text out ↔ T.Detokenize text out) := by
  subst hres
  have hc : T.Consistent := by
    rw [hT]
    exact run_consistent tbl calls _ NewTokenizer_consistent
  exact load_save tbl T NewTokenizer hc marshal unmarshal join osOk files createdAt runID loaded
    order hsave hdec hsalt hmap horder

/-- A witness of C20, amended: the Tokenizer after the calls for `alice` and
`bob`, saved and loaded with the entries visited in the other order. -/
theorem C20_round_trip_witness :
    ((NewTokenizer.run asciiOnly [.user "alice", .user "bob"]).mapping.map Prod.snd).Nodup ∧
      ∀ text out,
        (NewTokenizer.LoadMappingIn lineUnmarshal slashJoin
          ((NewTokenizer.run asciiOnly [.user "alice", .user "bob"]).SaveMapping lineMarshal
            slashJoin (fun _ => true) [] "2025-01-18T21:00:00Z" "r1").2
          [("BOB", "ID_U_053B"), ("ALICE", "ID_U_CAD3")] "r1").2.Detokenize text out ↔
        (NewTokenizer.run asciiOnly [.user "alice", .user "bob"]).Detokenize text out :=
  ⟨by decide,
    (C20_round_trip asciiOnly [.user "alice", .user "bob"] _ rfl lineMarshal lineUnmarshal
      slashJoin (fun _ => true) [] "2025-01-18T21:00:00Z" "r1"
      { RunID := "r1", CreatedAt := "2025-01-18T21:00:00Z", Salt := "1737234000",
        Mappings := [("ALICE", "ID_U_CAD3"), ("BOB", "ID_U_053B")] }
      [("BOB", "ID_U_053B"), ("ALICE", "ID_U_CAD3")] (by decide) (by decide) (by decide)
      (List.Perm.refl _) (List.Perm.swap _ _ _) _ rfl).2.2.2.2.2 (by decide)⟩

/-- C21: when `LoadMapping` fails, because the file of the run is missing or
because its content does not parse, it returns an error and leaves the
Tokenizer as it was (the salt and the two tables), whatever the order of visit
would have been; the error of a missing file is `failed to read mapping file`,
the error of a content that does not parse is `failed to unmarshal mapping`,
and the two differ. -/
theorem C21_failed_load_keeps_tokenizer (t : Tokenizer)
    (unmarshal : String → Option MappingFile) (join : List String → String) (files : GoMap)
    (order : List (String × String)) (runID : String)
    (hfail : files.get (mappingFilename join runID) = none ∨
      ∃ data, files.get (mappingFilename join runID) = some data ∧ unmarshal data = none) :
    (t.LoadMappingIn unmarshal join files order runID).2 = t ∧
      (files.get (mappingFilename join runID) = none →
        (t.LoadMappingIn unmarshal join files order runID).1 =
          some "failed to read mapping file") ∧
      (files.get (mappingFilename join runID) ≠ none →
        (t.LoadMappingIn unmarshal join files order runID).1 =
          some "failed to unmarshal mapping") ∧
      "failed to read mapping file" ≠ "failed to unmarshal mapping" := by
  rcases hfail with h | ⟨data, h, hd⟩
  · have hload : t.LoadMappingIn unmarshal join files order runID =
        (some "failed to read mapping file", t) := by
      unfold Tokenizer.LoadMappingIn
      rw [h]
    rw [hload]
    exact ⟨rfl, fun _ => rfl, fun hne => absurd h hne, by decide⟩
  · have hload : t.LoadMappingIn unmarshal join files order runID =
        (some "failed to unmarshal mapping", t) := by
      unfold Tokenizer.LoadMappingIn
      rw [h]
      simp only [hd]
    rw [hload]
    exact ⟨rfl, fun hn => by rw [h] at hn; exact absurd hn (by simp), fun _ => rfl, by decide⟩

/-- A witness of C21: a file whose content does not parse, loaded into the
Tokenizer after the call for `alice`. -/
theorem C21_failed_load_keeps_tokenizer_witness :
    ((NewTokenizer.run asciiOnly [.user "alice"]).LoadMappingIn lineUnmarshal slashJoin
        [(".necromancer/mappings/run_r1.json", "not a record")] [] "r1").2 =
        NewTokenizer.run asciiOnly [.user "alice"] ∧
      ((NewTokenizer.run asciiOnly [.user "alice"]).LoadMappingIn lineUnmarshal slashJoin
        [(".necromancer/mappings/run_r1.json", "not a record")] [] "r1").1 =
        some "failed to unmarshal mapping" :=
  ⟨(C21_failed_load_keeps_tokenizer (NewTokenizer.run asciiOnly [.user "alice"]) lineUnmarshal
      slashJoin [(".necromancer/mappings/run_r1.json", "not a record")] [] "r1"
      (Or.inr ⟨"not a record", by decide, by decide⟩)).1,
    (C21_failed_load_keeps_tokenizer (NewTokenizer.run asciiOnly [.user "alice"]) lineUnmarshal
      slashJoin [(".necromancer/mappings/run_r1.json", "not a record")] [] "r1"
      (Or.inr ⟨"not a record", by decide, by decide⟩)).2.2.1 (by decide)⟩

/-- C22: the salt of a Tokenizer built by `NewTokenizer` does not depend on the
time of the construction: `getCurrentTimestamp` returns the fixed value
1737234000, so Tokenizers built at two different times have the same salt,
`1737234000`. -/
theorem C22_salt_is_fixed (clock1 clock2 : Int) :
    (NewTokenizerAt clock1).salt = (NewTokenizerAt clock2).salt ∧
      (NewTokenizerAt clock1).salt = "1737234000" ∧ getCurrentTimestamp = 1737234000 := by
  refine ⟨rfl, ?_, rfl⟩
  show NewTokenizer.salt = "1737234000"
  decide

/-- C23: goroutines call `Tokenize*` and `Detokenize` on one Tokenizer, each
statement of `generateToken` and of `Detokenize` being a step, under a lock
`mu` that gives the write lock to one goroutine when no other holds the lock
and the read lock when no goroutine holds the write lock.  For every schedule,
the history is well formed and the calls that have returned, taken in the order
of their returns (each return lies between the call and its answer, so a call
that returned before another was made comes first), are allowed by the
sequential Tokenizer with the same results: the calls are linearizable.  While
a goroutine is inside `Detokenize` with the read lock, the Tokenizer in memory
is the one after the calls that have returned, its two tables are consistent
(no entry of the mapping without its entry of the reverse table, and
conversely), and no goroutine is inside `generateToken`; at most one goroutine
is inside `generateToken`. -/
theorem C23_concurrent_calls_linearizable (tbl : Char → Char) (sched : List (Nat × Choice)) :
    wellFormed (Config.initial.run tbl sched).1 ∧
      NewTokenizer.accepts tbl (returned (Config.initial.run tbl sched).1) ∧
      (∀ i, ((Config.initial.run tbl sched).2.pcs i).reading = true →
        (Config.initial.run tbl sched).2.tok =
            specState tbl (Config.initial.run tbl sched).1 ∧
          (Config.initial.run tbl sched).2.tok.Consistent ∧
          ∀ j, ((Config.initial.run tbl sched).2.pcs j).writing = false) ∧
      (∀ i j, ((Config.initial.run tbl sched).2.pcs i).writing = true →
        ((Config.initial.run tbl sched).2.pcs j).writing = true → i = j) := by
  have h := run_inv tbl sched [] Config.initial (initial_inv tbl)
  rw [List.nil_append] at h
  refine ⟨run_wellFormed tbl sched, h.accepted, ?_, Inv.one_writer tbl _ _ h⟩
  intro i hi
  obtain ⟨h1, h2⟩ := Inv.reading tbl _ _ h i hi
  exact ⟨h1, h1 ▸ specState_consistent tbl _, h2⟩

/-- C24 fails on the code for the tiers of the specification: for the list of
the high-value user `carol` and the disabled user `bob` without elevated flag,
the first element of the concatenation of the four filters is `carol`, and
`sampleNodes` with the cap 1 returns `bob`. -/
theorem C24_sample_differs_from_tiers :
    sampleSpec asciiOnly [mkNode "carol" true false true, mkNode "bob" false false false] 1 =
      [mkNode "carol" true false true] ∧
    sampleNodes asciiOnly [mkNode "carol" true false true, mkNode "bob" false false false] 1 =
      some [mkNode "bob" false false false] := by
  decide

/-- C25, the sentence as written fails.  After the calls for the user `user13`
and the domain `corp.local` the tokens are `ID_U_A2CD` and `DOM_BFD3`; in the
text `ID_U_A2CDOM_BFD3` the two overlap, and `Detokenize` returns
`USER13OM_BFD3` when the first token is replaced first and `ID_U_A2CCORP.LOCAL`
when the second is.  A real name can hold a token: after the calls for the
users `alice` and `id_u_cad3` the text `ID_U_275D` becomes `ID_U_CAD3`, the
token of `alice`, which is restored to `ALICE` or left, according to the
order.  And a real name can complete a token with the text that follows it:
after the calls for the users `alice` and `id_u_`, the text `ID_U_BBD7CAD3`
becomes `ID_U_CAD3`, restored or left according to the order. -/
theorem C25_counterexample :
    ((NewTokenizer.run asciiOnly [.user "user13", .domain "corp.local"]).Detokenize
        "ID_U_A2CDOM_BFD3" "USER13OM_BFD3" ∧
      (NewTokenizer.run asciiOnly [.user "user13", .domain "corp.local"]).Detokenize
        "ID_U_A2CDOM_BFD3" "ID_U_A2CCORP.LOCAL" ∧
      "USER13OM_BFD3" ≠ "ID_U_A2CCORP.LOCAL") ∧
    ((NewTokenizer.run asciiOnly [.user "alice", .user "id_u_cad3"]).Detokenize
        "ID_U_275D" "ID_U_CAD3" ∧
      (NewTokenizer.run asciiOnly [.user "alice", .user "id_u_cad3"]).Detokenize
        "ID_U_275D" "ALICE" ∧
      "ID_U_CAD3" ≠ "ALICE") ∧
    ((NewTokenizer.run asciiOnly [.user "alice", .user "id_u_"]).Detokenize
        "ID_U_BBD7CAD3" "ID_U_CAD3" ∧
      (NewTokenizer.run asciiOnly [.user "alice", .user "id_u_"]).Detokenize
        "ID_U_BBD7CAD3" "ALICE" ∧
      "ID_U_CAD3" ≠ "ALICE") := by
  have hr : (NewTokenizer.run asciiOnly [.user "user13", .domain "corp.local"]).reverse =
      [("ID_U_A2CD", "USER13"), ("DOM_BFD3", "CORP.LOCAL")] := by decide
  have hr2 : (NewTokenizer.run asciiOnly [.user "alice", .user "id_u_cad3"]).reverse =
      [("ID_U_CAD3", "ALICE"), ("ID_U_275D", "ID_U_CAD3")] := by decide
  have hr3 : (NewTokenizer.run asciiOnly [.user "alice", .user "id_u_"]).reverse =
      [("ID_U_CAD3", "ALICE"), ("ID_U_BBD7", "ID_U_")] := by decide
  refine ⟨⟨⟨[("ID_U_A2CD", "USER13"), ("DOM_BFD3", "CORP.LOCAL")], ?_, by decide⟩,
    ⟨[("DOM_BFD3", "CORP.LOCAL"), ("ID_U_A2CD", "USER13")], ?_, by decide⟩, by decide⟩,
    ⟨⟨[("ID_U_CAD3", "ALICE"), ("ID_U_275D", "ID_U_CAD3")], ?_, by decide⟩,
      ⟨[("ID_U_275D", "ID_U_CAD3"), ("ID_U_CAD3", "ALICE")], ?_, by decide⟩, by decide⟩,
    ⟨⟨[("ID_U_CAD3", "ALICE"), ("ID_U_BBD7", "ID_U_")], ?_, by decide⟩,
      ⟨[("ID_U_BBD7", "ID_U_"), ("ID_U_CAD3", "ALICE")], ?_, by decide⟩, by decide⟩⟩
  · rw [hr]
  · rw [hr]
    exact List.Perm.swap _ _ _
  · rw [hr2]
  · rw [hr2]
    exact List.Perm.swap _ _ _
  · rw [hr3]
  · rw [hr3]
    exact List.Perm.swap _ _ _

/-- C25, amended: for every Tokenizer reached from a fresh one by `Tokenize*`
calls and every text that is a first stretch `first` followed by any number of
mentions, each a token of the table followed by a stretch of text, such that
the mentions stand apart (the character before a token and the character after
it are no token characters `0-9`, `A-I`, `L`, `M`, `O`, `P`, `S`, `T`, `U`,
`_`, or the text begins or ends there, and two tokens are not adjacent) and no
token of the table occurs in a stretch of text or in the real name of a
mention, every order of the replacements gives the same output of
`Detokenize`: the guard applied to the text with every mention replaced by its
real name.  The same token may be mentioned several times and several tokens
may be mentioned. -/
theorem C25_delimited_tokens_any_order (tbl : Char → Char) (calls : List Call) (first : String)
    (ms : List Mention)
    (hknown : ∀ m ∈ ms, (NewTokenizer.run tbl calls).reverse.get m.token = some m.real)
    (hdelim : delimited first ms = true)
    (hclean : ∀ e ∈ (NewTokenizer.run tbl calls).reverse, Contains first e.1 = false ∧
      ∀ m ∈ ms, Contains m.real e.1 = false ∧ Contains m.after e.1 = false)
    (out : String) :
    (NewTokenizer.run tbl calls).Detokenize (mentionsText (fun _ => false) first ms) out ↔
      out = (NewTokenizer.run tbl calls).stripUnknownDomains
        (mentionsText (fun _ => true) first ms) := by
  have hc := run_consistent tbl calls NewTokenizer NewTokenizer_consistent
  have hshape : ∀ k v, (NewTokenizer.run tbl calls).reverse.get k = some v →
      isTokenShape k = true := fun k v h => reachable_shape tbl calls _ _ (hc.2.2.1 _ _ h)
  have hall : ∀ order : List (String × String),
      order.Perm (NewTokenizer.run tbl calls).reverse →
      (NewTokenizer.run tbl calls).DetokenizeIn order (mentionsText (fun _ => false) first ms) =
        (NewTokenizer.run tbl calls).stripUnknownDomains
          (mentionsText (fun _ => true) first ms) := by
    intro order hperm
    have hget : ∀ e ∈ order, (NewTokenizer.run tbl calls).reverse.get e.1 = some e.2 :=
      fun e he => GoMap.get_of_mem _ _ _ hc.2.1 (hperm.mem_iff.1 he)
    rw [Tokenizer.DetokenizeIn,
      replaceTokens_mentions order (fun _ => false) first ms
        (fun e he => hshape _ _ (hget e he))
        (fun m hm => hshape _ _ (hknown m hm))
        (fun e he m hm hme => by
          have h1 := hknown m hm
          rw [hme, hget e he] at h1
          exact (Option.some.inj h1).symm)
        hdelim (fun e he => hclean e (hperm.mem_iff.1 he))]
    congr 1
    apply mentionsText_congr
    intro m hm
    have hmem : (m.token, m.real) ∈ order :=
      hperm.mem_iff.2 (GoMap.mem_of_get _ _ _ (hknown m hm))
    simp only [Bool.false_or, List.any_eq_true, beq_iff_eq]
    exact ⟨(m.token, m.real), hmem, rfl⟩
  constructor
  · rintro ⟨order, hperm, rfl⟩
    exact hall order hperm
  · intro h
    exact ⟨_, List.Perm.refl _, h.trans (hall _ (List.Perm.refl _)).symm⟩

/-- A witness of C25, amended: an answer that names `alice` twice and `bob`
once, after the calls for the two users. -/
theorem C25_delimited_tokens_any_order_witness :
    mentionsText (fun _ => false) "Both "
        [⟨"ID_U_CAD3", "ALICE", " and "⟩, ⟨"ID_U_053B", "BOB", " are admins; "⟩,
          ⟨"ID_U_CAD3", "ALICE", "'s password is old."⟩] =
      "Both ID_U_CAD3 and ID_U_053B are admins; ID_U_CAD3's password is old." ∧
    ((NewTokenizer.run asciiOnly [.user "alice", .user "bob"]).Detokenize
        (mentionsText (fun _ => false) "Both "
          [⟨"ID_U_CAD3", "ALICE", " and "⟩, ⟨"ID_U_053B", "BOB", " are admins; "⟩,
            ⟨"ID_U_CAD3", "ALICE", "'s password is old."⟩])
        "Both ALICE and BOB are admins; ALICE's password is old." ↔
      "Both ALICE and BOB are admins; ALICE's password is old." =
        (NewTokenizer.run asciiOnly [.user "alice", .user "bob"]).stripUnknownDomains
          (mentionsText (fun _ => true) "Both "
            [⟨"ID_U_CAD3", "ALICE", " and "⟩, ⟨"ID_U_053B", "BOB", " are admins; "⟩,
              ⟨"ID_U_CAD3", "ALICE", "'s password is old."⟩])) ∧
    "Both ALICE and BOB are admins; ALICE's password is old." =
      (NewTokenizer.run asciiOnly [.user "alice", .user "bob"]).stripUnknownDomains
        (mentionsText (fun _ => true) "Both "
          [⟨"ID_U_CAD3", "ALICE", " and "⟩, ⟨"ID_U_053B", "BOB", " are admins; "⟩,
            ⟨"ID_U_CAD3", "ALICE", "'s password is old."⟩]) :=
  ⟨by decide,
    C25_delimited_tokens_any_order asciiOnly [.user "alice", .user "bob"] "Both "
      [⟨"ID_U_CAD3", "ALICE", " and "⟩, ⟨"ID_U_053B", "BOB", " are admins; "⟩,
        ⟨"ID_U_CAD3", "ALICE", "'s password is old."⟩]
      (by decide) (by decide) (by decide)
      "Both ALICE and BOB are admins; ALICE's password is old.",
    by decide⟩

/-- C26: in the Tokenizer after any sequence of `Tokenize*` calls on a fresh
Tokenizer, for any kinds and tiers, no token of the table (a value of the table
real → token or a key of the table token → real) is a proper substring of
another token of the table. -/
theorem C26_no_token_inside_another (tbl : Char → Char) (calls : List Call)
    (real1 tok1 real2 tok2 : String)
    (h1 : (NewTokenizer.run tbl calls).mapping.get real1 = some tok1 ∨
      (NewTokenizer.run tbl calls).reverse.get tok1 = some real1)
    (h2 : (NewTokenizer.run tbl calls).mapping.get real2 = some tok2 ∨
      (NewTokenizer.run tbl calls).reverse.get tok2 = some real2) :
    ¬ (Contains tok2 tok1 = true ∧ tok1 ≠ tok2) := by
  have hc := run_consistent tbl calls NewTokenizer NewTokenizer_consistent
  have hs1 : isTokenShape tok1 = true := by
    rcases h1 with h | h
    · exact reachable_shape tbl calls _ _ h
    · exact reachable_shape tbl calls _ _ (hc.2.2.1 _ _ h)
  have hs2 : isTokenShape tok2 = true := by
    rcases h2 with h | h
    · exact reachable_shape tbl calls _ _ h
    · exact reachable_shape tbl calls _ _ (hc.2.2.1 _ _ h)
  rintro ⟨h3, h4⟩
  exact h4 (token_not_nested tok1 tok2 hs1 hs2 h3)

/-- A witness of C26: the token of the user `alice` and the token of the host
`dc01.corp.local` of tier 0, after the two calls. -/
theorem C26_no_token_inside_another_witness :
    ¬ (Contains "H_T0_0040" "ID_U_CAD3" = true ∧ "ID_U_CAD3" ≠ "H_T0_0040") :=
  C26_no_token_inside_another asciiOnly [.user "alice", .computer "dc01.corp.local" 0]
    "ALICE" "ID_U_CAD3" "DC01.CORP.LOCAL" "H_T0_0040" (Or.inl (by decide)) (Or.inr (by decide))

/-- C27: in the Tokenizer after any sequence of `Tokenize*` calls on a fresh
Tokenizer, every entry token → real of the reverse table has its entry
real → token in the mapping, every token of the mapping is a key of the reverse
table, and the empty string is not a key of the mapping. -/
theorem C27_tables_consistent (tbl : Char → Char) (calls : List Call) :
    (∀ tok real, (NewTokenizer.run tbl calls).reverse.get tok = some real →
      (NewTokenizer.run tbl calls).mapping.get real = some tok) ∧
    (∀ real tok, (NewTokenizer.run tbl calls).mapping.get real = some tok →
      ∃ r, (NewTokenizer.run tbl calls).reverse.get tok = some r) ∧
    "" ∉ (NewTokenizer.run tbl calls).mapping.map Prod.fst := by
  have hc := run_consistent tbl calls NewTokenizer NewTokenizer_consistent
  refine ⟨hc.2.2.1, hc.2.2.2, ?_⟩
  rw [← GoMap.get_eq_none_iff]
  exact run_no_empty_key tbl calls NewTokenizer rfl

/-- C28: for every graph, Tokenizer, cap and clock, with `users`, `groups` and
`computers` the first `min(len, max(cap, 0))` nodes of the three lists of the
graph, the entities of the payload are, in this order, one for each of `users`,
of `groups` and of `computers`, in the order of the input: the Token fields are
the tokens that `TokenizeUser`, `TokenizeGroup` and `TokenizeComputer` with the
tier 0 return for the names of the nodes, called in that order on the
Tokenizer; the Type fields are `User`, `Group` and `Computer`; every Tier is 0;
the flag HighValue is that of the node, the flag AdminCount that of the node
for a user or a group and false for a computer; the relative age of a user is
that of its password time at the reading of the clock of its iteration when
the time is positive and empty otherwise, and empty for a group or a computer;
the list of relationships is empty; and the Tokenizer is left as after these
calls. -/
theorem C28_payload_composition (tbl : Char → Char) (now : Int → Int) (data : BloodHoundData)
    (t : Tokenizer) (m : Int) (users groups computers : List Node)
    (hu : users = data.Users.take (min (data.Users.length : Int) (max m 0)).toNat)
    (hg : groups = data.Groups.take (min (data.Groups.length : Int) (max m 0)).toNat)
    (hc : computers =
      data.Computers.take (min (data.Computers.length : Int) (max m 0)).toNat) :
    (SanitizeBloodHoundData tbl now data t m).1.Entities.map (fun e => e.Token) =
      t.tokens tbl
        (users.map (fun n => Call.user n.Properties.Name) ++
          groups.map (fun n => Call.group n.Properties.Name) ++
          computers.map (fun n => Call.computer n.Properties.Name 0)) ∧
    (SanitizeBloodHoundData tbl now data t m).1.Entities.map (fun e => e.Type_) =
      users.map (fun _ => "User") ++ groups.map (fun _ => "Group") ++
        computers.map (fun _ => "Computer") ∧
    (SanitizeBloodHoundData tbl now data t m).1.Entities.map (fun e => e.Tier) =
      (users ++ groups ++ computers).map (fun _ => 0) ∧
    (SanitizeBloodHoundData tbl now data t m).1.Entities.map (fun e => e.HighValue) =
      (users ++ groups ++ computers).map (fun n => n.Properties.HighValue) ∧
    (SanitizeBloodHoundData tbl now data t m).1.Entities.map (fun e => e.AdminCount) =
      (users ++ groups).map (fun n => n.Properties.AdminCount) ++
        computers.map (fun _ => false) ∧
    (SanitizeBloodHoundData tbl now data t m).1.Entities.map (fun e => e.AgeRelative) =
      users.enum.map (fun p =>
          if p.2.Properties.PasswordLastSet > 0 then
            formatRelativeAge (now (p.1 : Int)) p.2.Properties.PasswordLastSet
          else "") ++
        (groups ++ computers).map (fun _ => "") ∧
    (SanitizeBloodHoundData tbl now data t m).1.Relationships = [] ∧
    (SanitizeBloodHoundData tbl now data t m).2 =
      t.run tbl
        (users.map (fun n => Call.user n.Properties.Name) ++
          groups.map (fun n => Call.group n.Properties.Name) ++
          computers.map (fun n => Call.computer n.Properties.Name 0)) := by
  rw [take_min_cap] at hu hg hc
  have hU := summaries_tokens tbl (fun i => userEntity tbl (now i))
    (fun n => Call.user n.Properties.Name) (fun _ _ _ => ⟨rfl, rfl⟩) 0 t users
  have hG := summaries_tokens tbl (fun _ => groupEntity tbl)
    (fun n => Call.group n.Properties.Name) (fun _ _ _ => ⟨rfl, rfl⟩) 0
    (t.run tbl (users.map (fun n => Call.user n.Properties.Name))) groups
  have hC := summaries_tokens tbl (fun _ => computerEntity tbl)
    (fun n => Call.computer n.Properties.Name 0) (fun _ _ _ => ⟨rfl, rfl⟩) 0
    ((t.run tbl (users.map (fun n => Call.user n.Properties.Name))).run tbl
      (groups.map (fun n => Call.group n.Properties.Name))) computers
  have hE := sanitize_entities tbl now data t m
  have hT := sanitize_tokenizer tbl now data t m
  rw [← hu, ← hg, ← hc] at hE hT
  rw [hU.2, hG.2] at hE hT
  refine ⟨?_, ?_, ?_, ?_, ?_, ?_, rfl, ?_⟩
  · rw [hE, List.map_append, List.map_append, hU.1, hG.1, hC.1, tokens_append, tokens_append,
      run_append]
  · rw [hE, List.map_append, List.map_append,
      summaries_field_node _ (fun e => e.Type_) (fun _ => "User") (fun _ _ _ => rfl),
      summaries_field_node _ (fun e => e.Type_) (fun _ => "Group") (fun _ _ _ => rfl),
      summaries_field_node _ (fun e => e.Type_) (fun _ => "Computer") (fun _ _ _ => rfl)]
  · rw [hE, List.map_append, List.map_append, List.map_append, List.map_append,
      summaries_field_node _ (fun e => e.Tier) (fun _ => 0) (fun _ _ _ => rfl),
      summaries_field_node _ (fun e => e.Tier) (fun _ => 0) (fun _ _ _ => rfl),
      summaries_field_node _ (fun e => e.Tier) (fun _ => 0) (fun _ _ _ => rfl)]
  · rw [hE, List.map_append, List.map_append, List.map_append, List.map_append,
      summaries_field_node _ (fun e => e.HighValue) (fun n => n.Properties.HighValue)
        (fun _ _ _ => rfl),
      summaries_field_node _ (fun e => e.HighValue) (fun n => n.Properties.HighValue)
        (fun _ _ _ => rfl),
      summaries_field_node _ (fun e => e.HighValue) (fun n => n.Properties.HighValue)
        (fun _ _ _ => rfl)]
  · rw [hE, List.map_append, List.map_append, List.map_append,
      summaries_field_node _ (fun e => e.AdminCount) (fun n => n.Properties.AdminCount)
        (fun _ _ _ => rfl),
      summaries_field_node _ (fun e => e.AdminCount) (fun n => n.Properties.AdminCount)
        (fun _ _ _ => rfl),
      summaries_field_node _ (fun e => e.AdminCount) (fun _ => false) (fun _ _ _ => rfl)]
  · have hA := summaries_field (fun i => userEntity tbl (now i)) (fun e => e.AgeRelative)
      (fun i n => if n.Properties.PasswordLastSet > 0 then
        formatRelativeAge (now i) n.Properties.PasswordLastSet else "")
      (fun _ _ _ => rfl) 0 t users
    rw [Nat.cast_zero] at hA
    rw [hE, List.map_append, List.map_append, List.map_append, hA,
      summaries_field_node _ (fun e => e.AgeRelative) (fun _ => "") (fun _ _ _ => rfl),
      summaries_field_node _ (fun e => e.AgeRelative) (fun _ => "") (fun _ _ _ => rfl),
      List.append_assoc]
    rfl
  · rw [hT, hC.2, run_append, run_append]

/-- A witness of C28: three users, of which the cap 2 keeps two, a group and a
host; the clock moves on by a day between the iterations, and the password of
the second user is given its age at the second reading. -/
theorem C28_payload_composition_witness :
    (SanitizeBloodHoundData asciiOnly (fun i => 1737234000 + 86400 * i)
      (mkGraph [mkNode "alice" true true false, mkAged "bob" 1737100000,
        mkNode "carol" true false false] [mkNode "admins" true true false]
        [mkNode "dc01.corp.local" true false true]) NewTokenizer 2).1.Entities =
      [{ Token := "ID_U_CAD3", Type_ := "User", Tier := 0, HighValue := false,
         AdminCount := true, AgeRelative := "" },
       { Token := "ID_U_053B", Type_ := "User", Tier := 0, HighValue := false,
         AdminCount := false, AgeRelative := "~2 days" },
       { Token := "ID_G_8309", Type_ := "Group", Tier := 0, HighValue := false,
         AdminCount := true, AgeRelative := "" },
       { Token := "H_T0_0040", Type_ := "Computer", Tier := 0, HighValue := true,
         AdminCount := false, AgeRelative := "" }] ∧
    (SanitizeBloodHoundData asciiOnly (fun i => 1737234000 + 86400 * i)
      (mkGraph [mkNode "alice" true true false, mkAged "bob" 1737100000,
        mkNode "carol" true false false] [mkNode "admins" true true false]
        [mkNode "dc01.corp.local" true false true]) NewTokenizer 2).1.Entities.map
        (fun e => e.Token) =
      NewTokenizer.tokens asciiOnly
        ([mkNode "alice" true true false, mkAged "bob" 1737100000].map
            (fun n => Call.user n.Properties.Name) ++
          [mkNode "admins" true true false].map (fun n => Call.group n.Properties.Name) ++
          [mkNode "dc01.corp.local" true false true].map
            (fun n => Call.computer n.Properties.Name 0)) :=
  ⟨by decide,
    (C28_payload_composition asciiOnly (fun i => 1737234000 + 86400 * i)
      (mkGraph [mkNode "alice" true true false, mkAged "bob" 1737100000,
        mkNode "carol" true false false] [mkNode "admins" true true false]
        [mkNode "dc01.corp.local" true false true]) NewTokenizer 2
      [mkNode "alice" true true false, mkAged "bob" 1737100000]
      [mkNode "admins" true true false] [mkNode "dc01.corp.local" true false true]
      (by decide) (by decide) (by decide)).1⟩

/-- C29: `sampleNodes` does not return for a negative `maxCount`: whatever the
list, the empty one included, `len(nodes) <= maxCount` fails and
`make([]bloodhound.Node, 0, maxCount)` panics; it returns a list for every
other `maxCount`. -/
theorem C29_negative_cap_panics (ltbl : Char → Char) (nodes : List Node) (maxCount : Int) :
    (sampleNodes ltbl nodes maxCount = none ↔ maxCount < 0) ∧
      sampleNodes ltbl [] (-1) = none := by
  refine ⟨?_, rfl⟩
  unfold sampleNodes
  by_cases h1 : (nodes.length : Int) ≤ maxCount
  · rw [if_pos h1]
    constructor
    · intro h
      exact absurd h (by simp)
    · intro h
      omega
  · rw [if_neg h1]
    by_cases h2 : maxCount < 0
    · rw [if_pos h2]
      exact ⟨fun _ => h2, fun _ => rfl⟩
    · rw [if_neg h2]
      exact ⟨fun h => absurd h (by simp), fun h => absurd h h2⟩

/-- C30: for every list of findings, `sortByRisk` leaves a permutation of the
input, in the order of the risks from the highest to the lowest (`Critical` 4,
`High` 3, `Medium` 2, `Low` 1, `Unknown` and any other label 0), and the
findings of each risk keep the order that they have in the input. -/
theorem C30_sortByRisk_is_stable_sort (paths : List ZombiePath) :
    (sortByRisk paths).Perm paths ∧
      (sortByRisk paths).Pairwise
        (fun p q => riskOrder q.Probability ≤ riskOrder p.Probability) ∧
      (∀ r : Int, (sortByRisk paths).filter (fun p => decide (riskOrder p.Probability = r)) =
        paths.filter (fun p => decide (riskOrder p.Probability = r))) ∧
      riskOrder "Critical" = 4 ∧ riskOrder "High" = 3 ∧ riskOrder "Medium" = 2 ∧
      riskOrder "Low" = 1 ∧ riskOrder "Unknown" = 0 ∧
      (∀ label, label ≠ "Critical" → label ≠ "High" → label ≠ "Medium" → label ≠ "Low" →
        riskOrder label = 0) := by
  refine ⟨sortByRisk_perm paths, sortByRisk_sorted paths,
    fun r => sortByRisk_filter r paths, by decide, by decide, by decide, by decide, by decide,
    ?_⟩
  intro label h4 h3 h2 h1
  rcases riskOrder_values label with h | h | h | h | h
  · exact absurd h.1 h4
  · exact absurd h.1 h3
  · exact absurd h.1 h2
  · exact absurd h.1 h1
  · exact h.2.2.2.2

end Privacy
